import Mathlib

/-!
# toodles: command resolution, argument binding and session history

A shallow embedding of the command engine of `src/cli/cli.c` and of the
history ring of `src/history/history.c`.

Conventions of the embedding.

* A C wide string is the list of the characters that precede its
  terminating NUL; a pointer that may be `NULL` is an `Option`.
* Reading `cmdstr[i]` at or after the terminator yields NUL: the line buffer
  of `cli_prompt` is a zero-initialised array of `BUFLEN_CLI` characters.
* `size_t` arithmetic that can wrap is written with an explicit `% 2^64`.
* Arrays reached through a caller's pointer (`buffers`, `buflens`) are
  functions of the index, so that the code's behaviour is defined for every
  index it computes; the stores it performs are recorded in a trace.
-/

namespace Toodles

/-! ## Constants of `cli.c` and `history.c` -/

def BUFLEN_ID : Nat := 17
def BUFLEN_CLI : Nat := 8193
def BUFLEN_TITLE : Nat := 65
def BUFLEN_DETAIL : Nat := 513
def BUFLEN_LIST_OPTION : Nat := 17
def BUFLEN_YES_NO : Nat := 3
def BUFLEN_SEARCH_STR : Nat := 129
def BUFLEN_HISTORY_INDEX : Nat := 5
def HISTORY_SIZE : Nat := 1024

/-- The terminator of a C string. -/
def NUL : Char := Char.ofNat 0

/-- Number of values of a `size_t`. -/
def SIZE_MOD : Nat := 2 ^ 64

/-! ## Command registry -/

/-- Command categories (`COMMAND_CATEGORIES`). -/
inductive COMMAND_CATEGORIES where
  | TODOS
  | ATTACHMENTS
  | MISC
  deriving DecidableEq, Repr

/-- The handler functions a registry entry can point at. -/
inductive Handler where
  | cli_print_help
  | cli_exit
  | cli_add
  | cli_list
  | cli_erase
  | cli_search
  | cli_clear
  | cli_remove
  | cli_detail
  | cli_done
  | cli_open
  | cli_history
  | cli_history_exec
  | cli_edit
  | cli_version
  | cli_attach
  | cli_delete_attachment
  | cli_show_attachments
  | cli_print_attachment
  | cli_save_attachment_to_disk
  | cli_env
  deriving DecidableEq, Repr

/-- A command definition (`command_t`); the display-only texts `synopsis` and
`description` are left out. -/
structure command_t where
  command : List Char
  short_command : Option (List Char)
  short_cmd_active : Bool
  category : COMMAND_CATEGORIES
  func : Option Handler
  deriving DecidableEq, Repr

/-- One registry entry as the initialiser of `COMMANDS` writes it: the flag
`short_cmd_active` is not named there and starts cleared. -/
def mk_cmd (command : String) (short_command : Option String)
    (func : Handler) (category : COMMAND_CATEGORIES) : command_t :=
  { command := command.toList
    short_command := short_command.map String.toList
    short_cmd_active := false
    category := category
    func := some func }

/-- The array of available commands, in declaration order. -/
def COMMANDS : List command_t :=
  [ mk_cmd "add" (some "a") .cli_add .TODOS,
    mk_cmd "remove" (some "r") .cli_remove .TODOS,
    mk_cmd "edit" (some "e") .cli_edit .TODOS,
    mk_cmd "detail" (some "d") .cli_detail .TODOS,
    mk_cmd "list" (some "l") .cli_list .TODOS,
    mk_cmd "search" (some "s") .cli_search .TODOS,
    mk_cmd "done" none .cli_done .TODOS,
    mk_cmd "open" none .cli_open .TODOS,
    mk_cmd "erase" none .cli_erase .MISC,
    mk_cmd "help" (some "h") .cli_print_help .MISC,
    mk_cmd "exit" none .cli_exit .MISC,
    mk_cmd "quit" none .cli_exit .MISC,
    mk_cmd "clear" none .cli_clear .MISC,
    mk_cmd "history" none .cli_history .MISC,
    mk_cmd "version" none .cli_version .MISC,
    mk_cmd "attach" none .cli_attach .ATTACHMENTS,
    mk_cmd "delatt" none .cli_delete_attachment .ATTACHMENTS,
    mk_cmd "showatt" none .cli_show_attachments .ATTACHMENTS,
    mk_cmd "patt" none .cli_print_attachment .ATTACHMENTS,
    mk_cmd "satt" none .cli_save_attachment_to_disk .ATTACHMENTS,
    mk_cmd "!" none .cli_history_exec .MISC,
    mk_cmd "env" none .cli_env .MISC ]

/-! ## Command resolver (`cli_is_valid_cmd`) -/

/-- The two enumerators of `CLI_ERROR` that `cli.c` names. Their declaration
(`cli/error.h`) is not among the sources, so their numeric values are a
parameter of the resolver and of the dispatch. -/
structure CLI_ERROR where
  NO_ERROR : Nat
  INVALID_CMD : Nat
  deriving DecidableEq, Repr

/-- The inner loop of `cli_is_valid_cmd`: the content of `buf` after scanning
the characters `cmd[j]`, `j < wcslen(cmd)`, starting with the given value of
`found`. Blanks and tabs are skipped while `found == 0`; a blank (not a tab)
after the first copied character ends the scan. -/
def scan_buf : List Char → Nat → List Char
  | [], _ => []
  | c :: cs, found =>
    if (c = ' ' ∨ c = '\t') ∧ found = 0 then scan_buf cs found
    else if c = ' ' ∧ found = 1 then []
    else c :: scan_buf cs 1

/-- The outer loop of `cli_is_valid_cmd` over the entries from index `i` on:
the index of the entry it stops at and the value it gives that entry's
`short_cmd_active`, or `none` when the loop runs to the end of the table.
`found` is 0 on entry to every iteration. -/
def cli_is_valid_cmd_loop (cmd : List Char) : List command_t → Nat → Option (Nat × Bool)
  | [], _ => none
  | cmdp :: rest, i =>
    let buf := scan_buf cmd 0
    if buf = cmdp.command then some (i, false)
    else if cmdp.short_command = some buf then some (i, true)
    else cli_is_valid_cmd_loop cmd rest (i + 1)

/-- What a call of `cli_is_valid_cmd` leaves behind: the returned error code,
the entry `*result` points at (`none` when `*result` was not written) and the
registry with the updated flag. -/
structure Resolution where
  error : Nat
  result : Option Nat
  COMMANDS : List command_t

/-- Store `flag` into `short_cmd_active` of entry `i`. -/
def set_short_cmd_active (cmds : List command_t) (i : Nat) (flag : Bool) : List command_t :=
  cmds.modify (fun c => { c with short_cmd_active := flag }) i

/-- Checks if the given command line is valid. `error` starts as the literal
0 and becomes `NO_ERROR` only on a match. -/
def cli_is_valid_cmd (E : CLI_ERROR) (cmd : Option (List Char))
    (cmds : List command_t) : Resolution :=
  match cmd with
  | none => { error := E.INVALID_CMD, result := none, COMMANDS := cmds }
  | some s =>
    match cli_is_valid_cmd_loop s cmds 0 with
    | some (i, flag) =>
      { error := E.NO_ERROR, result := some i,
        COMMANDS := set_short_cmd_active cmds i flag }
    | none => { error := 0, result := none, COMMANDS := cmds }

/-- The entry a resolution points at, read from the updated registry. -/
def Resolution.issued (r : Resolution) : Option command_t :=
  match r.result with
  | some i => r.COMMANDS[i]?
  | none => none

/-! ## Argument binder (`cli_parse_cmd`) -/

/-- The character `s[i]` of a zero-padded line buffer: NUL at and after the
terminator. -/
def char_at (s : List Char) (i : Nat) : Char := s.getD i NUL

/-- The characters of a buffer up to its first NUL: the buffer read as a C
string. -/
def cstr (buf : List Char) : List Char := buf.takeWhile (fun c => c ≠ NUL)

/-- A zero-initialised character array of `n` elements. -/
def zeroed (n : Nat) : List Char := List.replicate n NUL

/-- The first loop of `cli_parse_cmd`, from index `i` with `fuel` iterations
left: counts the leading blanks and tabs of `cmdstr`. -/
def count_whitespaces (cmdstr : List Char) : Nat → Nat → Nat → Nat
  | 0, _, whitespaces => whitespaces
  | fuel + 1, i, whitespaces =>
    if char_at cmdstr i = ' ' ∨ char_at cmdstr i = '\t' then
      count_whitespaces cmdstr fuel (i + 1) (whitespaces + 1)
    else whitespaces

/-- The token the binder skips: `short_command` when `short_cmd_active` is
set, `command` otherwise. The resolver sets the flag only on an entry that has
a short command; a missing one counts as empty here. -/
def active_token (cmd : command_t) : List Char :=
  if cmd.short_cmd_active = true then cmd.short_command.getD [] else cmd.command

/-- The local variables of the copy loop of `cli_parse_cmd` and the memory it
works on. `stores` records every store `buffers[k][j] = c` as `(k, j)` and
`lens_read` every index `k` at which `buflens[k]` was loaded, most recent
first. -/
structure ParseState where
  found_args : Nat
  buffer_index : Nat
  min_one : Nat
  buffers : Nat → List Char
  stores : List (Nat × Nat)
  lens_read : List Nat

/-- The store `buffers[k][j] = c`. -/
def store (buffers : Nat → List Char) (k j : Nat) (c : Char) : Nat → List Char :=
  fun n => if n = k then (buffers k).set j c else buffers n

/-- The value of the `size_t` expression `buflens[k] - 1`. -/
def buflen_minus_one (buflens : Nat → Nat) (k : Nat) : Nat :=
  (buflens k + SIZE_MOD - 1) % SIZE_MOD

/-- The copy loop of `cli_parse_cmd` from index `i`, with `fuel` iterations
left before `i` reaches `BUFLEN_CLI`. -/
def cli_parse_cmd_loop (cmdstr : List Char) (argc : Nat) (buflens : Nat → Nat) :
    Nat → Nat → ParseState → ParseState
  | 0, _, st => st
  | fuel + 1, i, st =>
    if char_at cmdstr i = NUL then
      if st.min_one ≠ 0 then { st with found_args := st.found_args + 1 } else st
    else
      let st := { st with lens_read := st.found_args :: st.lens_read }
      if st.buffer_index = buflen_minus_one buflens st.found_args then st
      else if char_at cmdstr i = ' ' ∧ argc > 1 then
        cli_parse_cmd_loop cmdstr argc buflens fuel (i + 1)
          { st with buffer_index := 0, found_args := st.found_args + 1 }
      else if st.found_args = argc then st
      else
        cli_parse_cmd_loop cmdstr argc buflens fuel (i + 1)
          { st with
            buffers := store st.buffers st.found_args st.buffer_index (char_at cmdstr i)
            stores := (st.found_args, st.buffer_index) :: st.stores
            buffer_index := st.buffer_index + 1
            min_one := 1 }

/-- What a call of `cli_parse_cmd` leaves behind: the returned value, the
argument buffers and the trace of its memory accesses. -/
structure ParseResult where
  ret : Int
  buffers : Nat → List Char
  stores : List (Nat × Nat)
  lens_read : List Nat

/-- The index at which the copy loop starts (`cmdlen`). -/
def cmdlen (cmd : command_t) (cmdstr : List Char) : Nat :=
  (active_token cmd).length + count_whitespaces cmdstr BUFLEN_CLI 0 0 + 1

/-- Parses the command and fills in the arguments that were given. -/
def cli_parse_cmd (cmd : Option command_t) (cmdstr : Option (List Char)) (argc : Nat)
    (buffers : Option (Nat → List Char)) (buflens : Nat → Nat) : ParseResult :=
  let untouched : ParseResult :=
    { ret := -1, buffers := buffers.getD (fun _ => []), stores := [], lens_read := [] }
  match cmd, cmdstr, buffers with
  | some cmd, some cmdstr, some buffers =>
    if argc = 0 then untouched
    else
      let start := cmdlen cmd cmdstr
      let st := cli_parse_cmd_loop cmdstr argc buflens (BUFLEN_CLI - start) start
        { found_args := 0, buffer_index := 0, min_one := 0,
          buffers := buffers, stores := [], lens_read := [] }
      { ret := if st.min_one = 0 then -1 else (st.found_args : Int)
        buffers := st.buffers, stores := st.stores, lens_read := st.lens_read }
  | _, _, _ => untouched

/-! ## Session history ring (`history.c`) -/

/-- The two statics of `history.c`: the slot array `HISTORY` (a slot is `none`
while it holds `NULL`) and the write cursor `history_index`. -/
structure History where
  HISTORY : Nat → Option (List Char)
  history_index : Nat

/-- The ring at process start: every slot `NULL`, cursor 0. -/
def History.fresh : History :=
  { HISTORY := fun _ => none, history_index := 0 }

/-- The slot a call of `history_insert` stores into: the cursor, reset to 0
when it stands at `HISTORY_SIZE - 1`. -/
def history_target (h : History) : Nat :=
  if h.history_index = HISTORY_SIZE - 1 then 0 else h.history_index

/-- Adds the given command to the history; returns the success indicator and
the new ring. `wcsdup` is taken to succeed. -/
def history_insert (command : Option (List Char)) (h : History) : Int × History :=
  match command with
  | none => (0, h)
  | some ins =>
    let history_index := history_target h
    (1, { HISTORY := fun n => if n = history_index then some ins else h.HISTORY n
          history_index := history_index + 1 })

/-- Returns the command stored at the given index. `err` is the pointer to
the caller's message variable: `none` for a `NULL` pointer, `some m` for a
pointer to a variable that holds `m`. The result is the returned string and
the caller's variable after the call. -/
def history_get (index : Int) (err : Option (Option String)) (h : History) :
    Option (List Char) × Option (Option String) :=
  if index < 0 then
    (none, err.map fun _ => some "History index must be bigger than 0.")
  else if index > (HISTORY_SIZE : Int) - 1 then
    (none, err.map fun _ => some "History index must be smaller than 1024.")
  else (h.HISTORY index.toNat, err)

/-- Prints the current history: the `(index, line)` pairs written to the
terminal, in the order of printing, and the success indicator. -/
def history_print (h : History) : List (Nat × List Char) × Int :=
  ((List.range HISTORY_SIZE).filterMap fun i => (h.HISTORY i).map fun line => (i, line), 1)

/-- Appends the lines of a list to the ring, first to last. -/
def history_insert_all (lines : List (List Char)) (h : History) : History :=
  lines.foldl (fun acc line => (history_insert (some line) acc).2) h

/-- The slots that appending the lines of a list stores into, first to
last. -/
def history_targets : List (List Char) → History → List Nat
  | [], _ => []
  | line :: rest, h => history_target h :: history_targets rest (history_insert (some line) h).2

/-! ## Dispatch (`cli_execute_cmdstr`) -/

/-- The C library's `isspace` in the "C" locale. -/
def isspace (c : Char) : Bool :=
  c = ' ' ∨ (9 ≤ c.toNat ∧ c.toNat ≤ 13)

/-- The digits loop of `atoi`. -/
def atoi_digits : List Char → Nat → Nat
  | [], acc => acc
  | c :: cs, acc =>
    if '0' ≤ c ∧ c ≤ '9' then atoi_digits cs (10 * acc + (c.toNat - '0'.toNat)) else acc

/-- The C library's `atoi` on a short string (no overflow): optional white
space, an optional sign, then decimal digits; 0 when there is no digit. It is
applied to the wide characters of the argument, which `wstobs` turns into
bytes that are digits, signs or white space exactly where the characters
are. -/
def atoi (s : List Char) : Int :=
  match s.dropWhile isspace with
  | '-' :: r => -(atoi_digits r 0 : Int)
  | '+' :: r => (atoi_digits r 0 : Int)
  | r => (atoi_digits r 0 : Int)

/-- What a dispatch step shows to the outside, in order of occurrence. -/
inductive Event where
  /-- The line `ERR: ` followed by `cli_err_str(isValid)`. -/
  | invalid_command (isValid : Nat)
  /-- The line `ERR: No handler assigned to command.` -/
  | no_handler
  /-- The call `issued->func(issued, cmdstr)`. -/
  | handler (func : Handler) (issued : command_t) (cmdstr : List Char)
  /-- The listing written by `history_print`. -/
  | history_listing (lines : List (Nat × List Char))
  /-- The line `ERR: ` followed by the message of `history_get`. -/
  | history_error (msg : String)
  /-- The line `ERR: Error inserting command into history.` -/
  | insert_failed
  deriving DecidableEq

/-- The state of an interactive session that the command engine owns: the
registry (with its transient flags), the history ring and the events so
far. -/
structure Session where
  COMMANDS : List command_t
  history : History
  events : List Event

/-- The session at process start. -/
def Session.start : Session :=
  { COMMANDS := Toodles.COMMANDS, history := History.fresh, events := [] }

/-- How a dispatch step ends. -/
inductive Outcome where
  /-- The call of `cli_execute_cmdstr` returned to its caller. -/
  | returned (s : Session)
  /-- The process ended inside `cli_exit`. -/
  | exited (s : Session)
  /-- The field `issued->func` was read through a `NULL` pointer. -/
  | crashed (s : Session)

/-- The session an outcome carries. -/
def Outcome.session : Outcome → Session
  | .returned s => s
  | .exited s => s
  | .crashed s => s

/-- Resolves the line, runs its handler and records the line in the history.
`depth` bounds the nesting of calls (`cli_history_exec` calls back into this
function); `none` means the bound was reached. Handlers other than
`cli_exit`, `cli_history` and `cli_history_exec` work on the storage and the
terminal only and are taken to return. -/
def cli_execute_cmdstr (E : CLI_ERROR) : Nat → List Char → Session → Option Outcome
  | 0, _, _ => none
  | depth + 1, cmdstr, s =>
    let r := cli_is_valid_cmd E (some cmdstr) s.COMMANDS
    let s := { s with COMMANDS := r.COMMANDS }
    if r.error ≠ E.NO_ERROR then
      some (.returned { s with events := s.events ++ [.invalid_command r.error] })
    else
      match r.issued with
      | none => some (.crashed s)
      | some issued =>
        match issued.func with
        | none => some (.returned { s with events := s.events ++ [.no_handler] })
        | some func =>
          let s := { s with events := s.events ++ [.handler func issued cmdstr] }
          let record (s : Session) : Outcome :=
            let ins := history_insert (some cmdstr) s.history
            let s := { s with history := ins.2 }
            .returned (if ins.1 = 0 then { s with events := s.events ++ [.insert_failed] } else s)
          match func with
          | .cli_exit => some (.exited s)
          | .cli_history =>
            some (record { s with events := s.events ++ [.history_listing (history_print s.history).1] })
          | .cli_history_exec =>
            let parsed := cli_parse_cmd (some issued) (some cmdstr) 1
              (some fun _ => zeroed BUFLEN_HISTORY_INDEX) (fun _ => BUFLEN_HISTORY_INDEX)
            let history_index_int := atoi (cstr (parsed.buffers 0))
            if parsed.ret = -1 then some (record s)
            else
              match history_get history_index_int (some none) s.history with
              | (none, some (some msg)) =>
                some (record { s with events := s.events ++ [.history_error msg] })
              | (none, _) => some (record s)
              | (some exec, _) =>
                match cli_execute_cmdstr E depth exec s with
                | some (.returned s) => some (record s)
                | other => other
          | _ => some (record s)

/-- The end of `cli_execute_cmdstr`, once the handler has returned: the line
is inserted into the history and a failed insertion is reported. -/
def record_line (cmdstr : List Char) (s : Session) : Session :=
  let ins := history_insert (some cmdstr) s.history
  let s := { s with history := ins.2 }
  if ins.1 = 0 then { s with events := s.events ++ [.insert_failed] } else s

/-- The call `issued->func(issued, cmdstr)` taken on its own, from the entry
of the handler to the point where it returns or ends the process: the handler
bodies as in `cli_execute_cmdstr`, with the dispatch function that
`cli_history_exec` calls back into as the parameter `exec`. -/
def call_handler (exec : List Char → Session → Option Outcome) (func : Handler)
    (issued : command_t) (cmdstr : List Char) (s : Session) : Option Outcome :=
  match func with
  | .cli_exit => some (.exited s)
  | .cli_history =>
    some (.returned
      { s with events := s.events ++ [.history_listing (history_print s.history).1] })
  | .cli_history_exec =>
    let parsed := cli_parse_cmd (some issued) (some cmdstr) 1
      (some fun _ => zeroed BUFLEN_HISTORY_INDEX) (fun _ => BUFLEN_HISTORY_INDEX)
    let history_index_int := atoi (cstr (parsed.buffers 0))
    if parsed.ret = -1 then some (.returned s)
    else
      match history_get history_index_int (some none) s.history with
      | (none, some (some msg)) =>
        some (.returned { s with events := s.events ++ [.history_error msg] })
      | (none, _) => some (.returned s)
      | (some line, _) => exec line s
  | _ => some (.returned s)

/-- The session in which the handler of a resolved line starts: the registry
as the resolver left it and the call recorded. -/
def handler_entry (E : CLI_ERROR) (func : Handler) (issued : command_t)
    (cmdstr : List Char) (s : Session) : Session :=
  { COMMANDS := (cli_is_valid_cmd E (some cmdstr) s.COMMANDS).COMMANDS
    history := s.history
    events := s.events ++ [.handler func issued cmdstr] }

/-! ## The list filter (`storage.c`, `cli_list`) -/

/-- The filter of a listing (`STORAGE_PRINT_OPTIONS`). -/
inductive STORAGE_PRINT_OPTIONS where
  | ALL
  | DONE
  | OPEN
  deriving DecidableEq, Repr

/-- The assignment of options to strings, in declaration order. -/
def OPTIONS : List (STORAGE_PRINT_OPTIONS × List Char) :=
  [(.ALL, "all".toList), (.DONE, "done".toList), (.OPEN, "open".toList)]

/-- The loop of `storage_str_to_option` over the entries still to compare;
`ALL` when none matches. -/
def storage_str_to_option_loop (option : List Char) :
    List (STORAGE_PRINT_OPTIONS × List Char) → STORAGE_PRINT_OPTIONS
  | [] => .ALL
  | entry :: rest =>
    if option = entry.2 then entry.1 else storage_str_to_option_loop option rest

/-- Returns the print option for the given string. -/
def storage_str_to_option (option : Option (List Char)) : STORAGE_PRINT_OPTIONS :=
  match option with
  | none => .ALL
  | some option => storage_str_to_option_loop option OPTIONS

/-- The option that `cli_list` passes to `storage_print_todos`: the binder
fills the zero-initialised `opt_str`, whatever it returns, and
`storage_str_to_option` reads it as a C string. -/
def cli_list_option (cmd : command_t) (cmdstr : List Char) : STORAGE_PRINT_OPTIONS :=
  let parsed := cli_parse_cmd (some cmd) (some cmdstr) 1
    (some fun _ => zeroed BUFLEN_LIST_OPTION) (fun _ => BUFLEN_LIST_OPTION)
  storage_str_to_option (some (cstr (parsed.buffers 0)))

/-! ## Non-interactive mode (`ninac.c`, `args.c`) -/

/-- Values for commands that can be executed (`ARGS_COMMANDS`). -/
inductive ARGS_COMMANDS where
  | NONE
  | ADD_TODO
  | ERASE
  deriving DecidableEq, Repr

/-- Arguments used by the application in non-interactive mode (`args_t`). -/
structure args_t where
  command : ARGS_COMMANDS
  title : Option String
  show_help : Bool
  deriving DecidableEq, Repr

/-- One result of the C library's `getopt(argc, argv, "c:t:h")` before its
final -1: the option character it returns, with `optarg` for the options
that take a value; `unknown` is the character `?` it returns for an option
that is not in the list or lacks its value. The sequence of these results
stands for the command line. -/
inductive Getopt where
  | c (optarg : Option String)
  | t (optarg : String)
  | h
  | unknown
  deriving DecidableEq, Repr

/-- Error codes of storage operations (`STORAGE_ERR_CODE`). -/
inductive STORAGE_ERR_CODE where
  | STORAGE_NO_ERROR
  | STORAGE_ERROR
  | STORAGE_CRITICAL_ERROR
  deriving DecidableEq, Repr

def EXIT_SUCCESS : Int := 0
def EXIT_FAILURE : Int := 1

/-- The command a value of `-c` stands for. -/
def parse_command_val (cmd : Option String) : ARGS_COMMANDS :=
  match cmd with
  | none => .NONE
  | some cmd =>
    if cmd = "add" then .ADD_TODO
    else if cmd = "erase" then .ERASE
    else .NONE

/-- The `while` loop of `args_parse` over the results of `getopt` still to
come: the returned value and the argument record. -/
def args_parse_loop : List Getopt → args_t → Int × args_t
  | [], args => (0, args)
  | .c optarg :: rest, args =>
    args_parse_loop rest { args with command := parse_command_val optarg }
  | .t optarg :: rest, args => args_parse_loop rest { args with title := some optarg }
  | .h :: rest, args => args_parse_loop rest { args with show_help := true }
  | .unknown :: _, args => (-1, args)

/-- Parses the command line into `args`. -/
def args_parse (argc : Int) (opts : List Getopt) (args : args_t) : Int × args_t :=
  if argc = 1 then (-1, args) else args_parse_loop opts args

/-- Runs the non-interactive mode and returns the exit code. The two storage
calls are collaborators: `storage_new_todo` gives the code the call returns
for a title, `storage_erase` the code of the erase call. -/
def ninac_run (argc : Int) (opts : List Getopt)
    (storage_new_todo : Option String → STORAGE_ERR_CODE)
    (storage_erase : STORAGE_ERR_CODE) : Int :=
  let parsed := args_parse argc opts { command := .NONE, title := none, show_help := false }
  let arguments := parsed.2
  if parsed.1 ≠ 0 then EXIT_FAILURE
  else if arguments.show_help = true then EXIT_SUCCESS
  else
    match arguments.command with
    | .ADD_TODO =>
      if storage_new_todo arguments.title ≠ .STORAGE_NO_ERROR then EXIT_FAILURE
      else EXIT_SUCCESS
    | .ERASE =>
      if storage_erase ≠ .STORAGE_NO_ERROR then EXIT_FAILURE
      else EXIT_SUCCESS
    | .NONE => EXIT_FAILURE

/-! ## Notions used to state the properties -/

/-- The registry with every transient flag `short_cmd_active` cleared. A
session keeps `COMMANDS` up to these flags. -/
def clear_flags (cmds : List command_t) : List command_t :=
  cmds.map fun c => { c with short_cmd_active := false }

/-- The registry entry of `!`. -/
def bang : command_t := mk_cmd "!" none .cli_history_exec .MISC

/-- The line that `cli_history_exec` hands to `cli_execute_cmdstr` for the
line `cmdstr`, if it gets that far: the content of the history slot that the
argument of the line addresses. -/
def replayed_line (issued : command_t) (cmdstr : List Char) (h : History) :
    Option (List Char) :=
  let parsed := cli_parse_cmd (some issued) (some cmdstr) 1
    (some fun _ => zeroed BUFLEN_HISTORY_INDEX) (fun _ => BUFLEN_HISTORY_INDEX)
  if parsed.ret = -1 then none
  else (history_get (atoi (cstr (parsed.buffers 0))) (some none) h).1

/-- The session after the dispatch of a line that resolved to entry `i` with
a handler `func` that does nothing to the engine's state (any handler but
`cli_exit` and `cli_history_exec`). -/
def after_simple (func : Handler) (issued : command_t) (line : List Char) (i : Nat)
    (flag : Bool) (s : Session) : Session :=
  { COMMANDS := set_short_cmd_active s.COMMANDS i flag
    history := (history_insert (some line) s.history).2
    events := s.events ++ [.handler func issued line] ++
      if func = .cli_history then [.history_listing (history_print s.history).1] else [] }

/-- The copy loop of `cli_parse_cmd` as a walk over the characters of the
line from the start index on: the end of the list is the terminator. It is
the loop itself whenever the loop reaches the terminator before its bound
`BUFLEN_CLI`. -/
def parse_walk (argc : Nat) (buflens : Nat → Nat) : List Char → ParseState → ParseState
  | [], st => if st.min_one ≠ 0 then { st with found_args := st.found_args + 1 } else st
  | c :: cs, st =>
    if c = NUL then
      if st.min_one ≠ 0 then { st with found_args := st.found_args + 1 } else st
    else
      let st := { st with lens_read := st.found_args :: st.lens_read }
      if st.buffer_index = buflen_minus_one buflens st.found_args then st
      else if c = ' ' ∧ argc > 1 then
        parse_walk argc buflens cs
          { st with buffer_index := 0, found_args := st.found_args + 1 }
      else if st.found_args = argc then st
      else
        parse_walk argc buflens cs
          { st with
            buffers := store st.buffers st.found_args st.buffer_index c
            stores := (st.found_args, st.buffer_index) :: st.stores
            buffer_index := st.buffer_index + 1
            min_one := 1 }

/-- The start state of the copy loop. -/
def parse_start (buffers : Nat → List Char) : ParseState :=
  { found_args := 0, buffer_index := 0, min_one := 0,
    buffers := buffers, stores := [], lens_read := [] }

/-- What `cli_parse_cmd` returns and leaves behind for a final state of the
copy loop. -/
def parse_result (st : ParseState) : ParseResult :=
  { ret := if st.min_one = 0 then -1 else (st.found_args : Int)
    buffers := st.buffers, stores := st.stores, lens_read := st.lens_read }

/-- The arguments of a list written one after the other with a single blank
between two of them. -/
def join_args : List (List Char) → List Char
  | [] => []
  | [a] => a
  | a :: b :: rest => a ++ ' ' :: join_args (b :: rest)

/-- The first pass of the lookup of the specification: the index of the
first entry, in declaration order, whose long name is the token. -/
def spec_first_long (token : List Char) : List command_t → Nat → Option Nat
  | [], _ => none
  | c :: cs, i => if c.command = token then some i else spec_first_long token cs (i + 1)

/-- The second pass of the lookup of the specification: the index of the
first entry, in declaration order, whose short alias is the token. -/
def spec_first_short (token : List Char) : List command_t → Nat → Option Nat
  | [], _ => none
  | c :: cs, i =>
    if c.short_command = some token then some i else spec_first_short token cs (i + 1)

/-- The two-pass lookup of the specification for a candidate token: the first
exact long-name match in declaration order wins; only if there is none
anywhere in the table, the first exact short-alias match wins. The result is
the index of the entry and whether the match was on the short form. -/
def spec_two_pass (token : List Char) (cmds : List command_t) : Option (Nat × Bool) :=
  match spec_first_long token cmds 0 with
  | some i => some (i, false)
  | none => (spec_first_short token cmds 0).map fun i => (i, true)

/-- The zero-initialised argument record of `ninac_run`. -/
def args_zero : args_t := { command := .NONE, title := none, show_help := false }

/-- The value of the last `-c` of a command line, if it has one. -/
def last_command_value : List Getopt → Option (Option String)
  | [] => none
  | .c optarg :: rest =>
    match last_command_value rest with
    | some v => some v
    | none => some optarg
  | _ :: rest => last_command_value rest

/-- The ring after a sequence of calls of `history_insert`, first to last; a
`none` in the list is a call with a `NULL` command. -/
def history_run (commands : List (Option (List Char))) (h : History) : History :=
  commands.foldl (fun acc command => (history_insert command acc).2) h

/-- The number of slots of the ring that hold a line. -/
def history_count (h : History) : Nat :=
  ((List.range HISTORY_SIZE).filter fun i => (h.HISTORY i).isSome).length

/-- A line as the engine receives it: it holds no NUL and fits the line
buffer of `BUFLEN_CLI` characters together with its terminator. -/
def IsLine (line : List Char) : Prop :=
  (∀ c ∈ line, c ≠ NUL) ∧ line.length < BUFLEN_CLI

/-- The number of leading blanks and tabs of a line. -/
def leading_whitespace (line : List Char) : Nat :=
  (line.takeWhile fun c => c = ' ' ∨ c = '\t').length

/-- The argument region of a line for a resolved command: everything after
the leading white space, the matched command token and one separator
character. -/
def arg_region (cmd : command_t) (line : List Char) : List Char :=
  line.drop (leading_whitespace line + (active_token cmd).length + 1)

/-- The number of argument slots that received at least one character. -/
def populated (r : ParseResult) : Nat :=
  ((r.stores.map Prod.fst).dedup).length

/-- The state of the copy loop after the iteration that stores `c`. -/
def store_step (st : ParseState) (c : Char) : ParseState :=
  { found_args := st.found_args
    buffer_index := st.buffer_index + 1
    min_one := 1
    buffers := store st.buffers st.found_args st.buffer_index c
    stores := (st.found_args, st.buffer_index) :: st.stores
    lens_read := st.found_args :: st.lens_read }

/-- The state of the copy loop after the iterations that store the characters
of a list, one after the other. -/
def store_steps (st : ParseState) : List Char → ParseState
  | [] => st
  | c :: cs => store_steps (store_step st c) cs

/-- The state of the copy loop after the iteration that meets a separator. -/
def sep_step (st : ParseState) : ParseState :=
  { found_args := st.found_args + 1
    buffer_index := 0
    min_one := st.min_one
    buffers := st.buffers
    stores := st.stores
    lens_read := st.found_args :: st.lens_read }

/-- The invariant of the copy loop behind the capacity bound: stores went to
slots up to the current one, each below `buflens - 1` of its slot; the
current slot holds `buffer_index` characters, at most `buflens - 1`; the
slots before hold at most `buflens - 1` characters. -/
def StoreInv (buflens : Nat → Nat) (st : ParseState) : Prop :=
  (∀ p ∈ st.stores, p.1 ≤ st.found_args) ∧
  (∀ p ∈ st.stores, 1 ≤ buflens p.1 → p.2 < buflens p.1 - 1) ∧
  (1 ≤ buflens st.found_args →
    st.buffer_index ≤ buflen_minus_one buflens st.found_args) ∧
  (st.stores.filter fun p => p.1 = st.found_args).length = st.buffer_index ∧
  ∀ k < st.found_args, 1 ≤ buflens k →
    (st.stores.filter fun p => p.1 = k).length ≤ buflens k - 1

/-- The capacity bound on a trace of stores. -/
def StoreBound (buflens : Nat → Nat) (stores : List (Nat × Nat)) : Prop :=
  ∀ k, 1 ≤ buflens k →
    (∀ p ∈ stores, p.1 = k → p.2 < buflens k - 1) ∧
    (stores.filter fun p => p.1 = k).length ≤ buflens k - 1

/-! ## Theorems: command resolver -/

/-- Every registry entry, looked up by its long name or by its short alias,
is the entry at which the scan of the table stops. -/
theorem loop_finds_entry : ∀ i, (hi : i < COMMANDS.length) →
    (cli_is_valid_cmd_loop (COMMANDS[i]).command COMMANDS 0 = some (i, false) ∧
      (set_short_cmd_active COMMANDS i false)[i]? =
        some { COMMANDS[i] with short_cmd_active := false }) ∧
    ∀ s ∈ (COMMANDS[i]).short_command.toList,
      cli_is_valid_cmd_loop s COMMANDS 0 = some (i, true) ∧
      (set_short_cmd_active COMMANDS i true)[i]? =
        some { COMMANDS[i] with short_cmd_active := true } := by
  decide

/-- A token without blank or tab is copied to `buf` unchanged. -/
theorem scan_buf_of_no_blank (t : List Char) (found : Nat)
    (h : ∀ c ∈ t, c ≠ ' ' ∧ c ≠ '\t') : scan_buf t found = t := by
  induction t generalizing found with
  | nil => rfl
  | cons c cs ih =>
    have hc := h c (List.mem_cons_self c cs)
    have hcs : ∀ d ∈ cs, d ≠ ' ' ∧ d ≠ '\t' := fun d hd => h d (List.mem_cons_of_mem c hd)
    simp [scan_buf, hc.1, hc.2, ih 1 hcs]

/-- The scan of the table stops nowhere when no entry carries the token. -/
theorem loop_eq_none (cmd : List Char) (cmds : List command_t) (i : Nat)
    (h : ∀ c ∈ cmds, c.command ≠ scan_buf cmd 0 ∧ c.short_command ≠ some (scan_buf cmd 0)) :
    cli_is_valid_cmd_loop cmd cmds i = none := by
  induction cmds generalizing i with
  | nil => rfl
  | cons c cs ih =>
    have hc := h c (List.mem_cons_self c cs)
    have hcs := fun d (hd : d ∈ cs) => h d (List.mem_cons_of_mem c hd)
    simp only [cli_is_valid_cmd_loop]
    rw [if_neg (fun e => hc.1 e.symm), if_neg hc.2]
    exact ih (i + 1) hcs

/-- No registered long name and no registered short alias contains a blank or
a tab. -/
theorem registry_names_no_blank : ∀ c ∈ COMMANDS,
    (∀ x ∈ c.command, x ≠ ' ' ∧ x ≠ '\t') ∧
    ∀ n ∈ c.short_command.toList, ∀ x ∈ n, x ≠ ' ' ∧ x ≠ '\t' := by
  decide

/-- C1: for every entry of the command registry, resolving the line that
consists exactly of the entry's long name returns that entry with the
short-form flag cleared, and resolving the line that consists exactly of its
short alias (when it has one) returns the same entry with the flag set. -/
theorem cli_is_valid_cmd_exact_name (E : CLI_ERROR) (i : Nat) (hi : i < COMMANDS.length) :
    ((cli_is_valid_cmd E (some (COMMANDS[i]).command) COMMANDS).error = E.NO_ERROR ∧
      (cli_is_valid_cmd E (some (COMMANDS[i]).command) COMMANDS).result = some i ∧
      (cli_is_valid_cmd E (some (COMMANDS[i]).command) COMMANDS).issued =
        some { COMMANDS[i] with short_cmd_active := false }) ∧
    ∀ s, (COMMANDS[i]).short_command = some s →
      (cli_is_valid_cmd E (some s) COMMANDS).error = E.NO_ERROR ∧
      (cli_is_valid_cmd E (some s) COMMANDS).result = some i ∧
      (cli_is_valid_cmd E (some s) COMMANDS).issued =
        some { COMMANDS[i] with short_cmd_active := true } := by
  obtain ⟨⟨hl, hfl⟩, hshort⟩ := loop_finds_entry i hi
  refine ⟨?_, ?_⟩
  · have hr : cli_is_valid_cmd E (some (COMMANDS[i]).command) COMMANDS =
        { error := E.NO_ERROR, result := some i,
          COMMANDS := set_short_cmd_active COMMANDS i false } := by
      simp only [cli_is_valid_cmd, hl]
    rw [hr]
    exact ⟨rfl, rfl, hfl⟩
  · intro s hs
    obtain ⟨hl2, hfl2⟩ := hshort s (by simp [hs])
    have hr : cli_is_valid_cmd E (some s) COMMANDS =
        { error := E.NO_ERROR, result := some i,
          COMMANDS := set_short_cmd_active COMMANDS i true } := by
      simp only [cli_is_valid_cmd, hl2]
    rw [hr]
    exact ⟨rfl, rfl, hfl2⟩

/-- C1 at the entry `list` / `l` (index 4). -/
theorem cli_is_valid_cmd_exact_name_witness :
    ((cli_is_valid_cmd ⟨1, 0⟩ (some "list".toList) COMMANDS).result = some 4 ∧
      (cli_is_valid_cmd ⟨1, 0⟩ (some "list".toList) COMMANDS).issued =
        some { mk_cmd "list" (some "l") .cli_list .TODOS with short_cmd_active := false }) ∧
    ((cli_is_valid_cmd ⟨1, 0⟩ (some "l".toList) COMMANDS).result = some 4 ∧
      (cli_is_valid_cmd ⟨1, 0⟩ (some "l".toList) COMMANDS).issued =
        some { mk_cmd "list" (some "l") .cli_list .TODOS with short_cmd_active := true }) :=
  have h := cli_is_valid_cmd_exact_name ⟨1, 0⟩ 4 (by decide)
  ⟨⟨h.1.2.1, h.1.2.2⟩, (h.2 "l".toList rfl).2⟩

/-- C2: resolution is exact-match only. A token that is a strict prefix or a
strict suffix of a registered long name or short alias, and is not itself a
registered long name or short alias, resolves to no definition: `*result` is
not written, no flag is touched and the returned code is the initial 0. -/
theorem cli_is_valid_cmd_no_partial_match (E : CLI_ERROR) (t n : List Char)
    (hn : ∃ c ∈ COMMANDS, c.command = n ∨ c.short_command = some n)
    (ht : (t <+: n ∨ t <:+ n) ∧ t ≠ n)
    (hnot : ∀ c ∈ COMMANDS, c.command ≠ t ∧ c.short_command ≠ some t) :
    (cli_is_valid_cmd E (some t) COMMANDS).result = none ∧
    (cli_is_valid_cmd E (some t) COMMANDS).issued = none ∧
    (cli_is_valid_cmd E (some t) COMMANDS).COMMANDS = COMMANDS ∧
    (cli_is_valid_cmd E (some t) COMMANDS).error = 0 := by
  have hsub : ∀ x ∈ t, x ∈ n := by
    intro x hx
    rcases ht.1 with hp | hs
    · exact hp.subset hx
    · exact hs.subset hx
  have hnb : ∀ x ∈ n, x ≠ ' ' ∧ x ≠ '\t' := by
    obtain ⟨c, hc, hcn⟩ := hn
    rcases hcn with h | h
    · exact h ▸ (registry_names_no_blank c hc).1
    · exact (registry_names_no_blank c hc).2 n (by simp [h])
  have htok : scan_buf t 0 = t := scan_buf_of_no_blank t 0 (fun x hx => hnb x (hsub x hx))
  have hloop : cli_is_valid_cmd_loop t COMMANDS 0 = none :=
    loop_eq_none t COMMANDS 0 (by rw [htok]; exact hnot)
  simp [cli_is_valid_cmd, hloop, Resolution.issued]

/-- C2 at the tokens `ad` (a strict prefix of `add`) and `dd` (a strict
suffix of it). -/
theorem cli_is_valid_cmd_no_partial_match_witness :
    (cli_is_valid_cmd ⟨1, 0⟩ (some "ad".toList) COMMANDS).result = none ∧
    (cli_is_valid_cmd ⟨1, 0⟩ (some "dd".toList) COMMANDS).result = none :=
  ⟨(cli_is_valid_cmd_no_partial_match ⟨1, 0⟩ "ad".toList "add".toList
      ⟨mk_cmd "add" (some "a") .cli_add .TODOS, by decide, Or.inl rfl⟩
      (by decide) (by decide)).1,
   (cli_is_valid_cmd_no_partial_match ⟨1, 0⟩ "dd".toList "add".toList
      ⟨mk_cmd "add" (some "a") .cli_add .TODOS, by decide, Or.inl rfl⟩
      (by decide) (by decide)).1⟩

/-- C3: a line whose leading token (the content of `buf`) equals no
registered long name and no registered short alias makes `cli_is_valid_cmd`
return the literal 0 without writing `*result`. In every enumeration
`CLI_ERROR` whose zero enumerator is `INVALID_CMD` this is the
invalid-command error, distinct from `NO_ERROR`, and `cli_execute_cmdstr`
then only reports it: no handler is called, and the registry and the
history are as before. -/
theorem cli_is_valid_cmd_unknown_token (E : CLI_ERROR) (hzero : E.INVALID_CMD = 0)
    (hdistinct : E.NO_ERROR ≠ E.INVALID_CMD) (line : List Char) (s : Session)
    (hunknown : ∀ c ∈ s.COMMANDS,
      c.command ≠ scan_buf line 0 ∧ c.short_command ≠ some (scan_buf line 0)) :
    (cli_is_valid_cmd E (some line) s.COMMANDS).error = E.INVALID_CMD ∧
    (cli_is_valid_cmd E (some line) s.COMMANDS).error ≠ E.NO_ERROR ∧
    (cli_is_valid_cmd E (some line) s.COMMANDS).result = none ∧
    ∀ depth, cli_execute_cmdstr E (depth + 1) line s =
      some (.returned { s with events := s.events ++ [.invalid_command E.INVALID_CMD] }) := by
  have hloop := loop_eq_none line s.COMMANDS 0 hunknown
  have hne : (0 : Nat) ≠ E.NO_ERROR := fun h => hdistinct (by rw [hzero, ← h])
  refine ⟨?_, ?_, ?_, ?_⟩
  · simp [cli_is_valid_cmd, hloop, hzero]
  · simp only [cli_is_valid_cmd, hloop]
    exact hne
  · simp [cli_is_valid_cmd, hloop]
  · intro depth
    simp only [cli_execute_cmdstr, cli_is_valid_cmd, hloop, hzero]
    rw [if_pos hne]

/-- C3 at the start of a session, for an unknown word, the empty line and a
line of blanks and tabs. -/
theorem cli_is_valid_cmd_unknown_token_witness :
    (cli_is_valid_cmd ⟨1, 0⟩ (some "bogus 1".toList) Session.start.COMMANDS).error ≠ 1 ∧
    (cli_is_valid_cmd ⟨1, 0⟩ (some []) Session.start.COMMANDS).error ≠ 1 ∧
    cli_execute_cmdstr ⟨1, 0⟩ 1 " \t ".toList Session.start =
      some (.returned { Session.start with events := [.invalid_command 0] }) :=
  ⟨(cli_is_valid_cmd_unknown_token ⟨1, 0⟩ rfl (by decide) "bogus 1".toList Session.start
      (by decide)).2.1,
   (cli_is_valid_cmd_unknown_token ⟨1, 0⟩ rfl (by decide) [] Session.start (by decide)).2.1,
   (cli_is_valid_cmd_unknown_token ⟨1, 0⟩ rfl (by decide) " \t ".toList Session.start
      (by decide)).2.2.2 0⟩

/-! ## Theorems: argument binder -/

theorem char_at_of_drop_cons {s : List Char} {i : Nat} {c : Char} {r : List Char}
    (h : s.drop i = c :: r) : char_at s i = c ∧ s.drop (i + 1) = r := by
  constructor
  · have h1 : (s.drop i).head? = some c := by rw [h]; rfl
    rw [List.head?_drop] at h1
    simp [char_at, h1]
  · rw [← List.tail_drop, h]; rfl

theorem char_at_of_drop_nil {s : List Char} {i : Nat} (h : s.drop i = []) :
    char_at s i = NUL := by
  have h1 : (s.drop i).head? = none := by rw [h]; rfl
  rw [List.head?_drop] at h1
  simp [char_at, h1]

theorem NUL_ne_blank : NUL ≠ ' ' ∧ NUL ≠ '\t' := by decide

/-- The first loop of `cli_parse_cmd` counts the leading blanks and tabs. -/
theorem count_whitespaces_eq (s : List Char) (fuel i w : Nat)
    (h : (s.drop i).length < fuel) :
    count_whitespaces s fuel i w =
      w + ((s.drop i).takeWhile fun c => c = ' ' ∨ c = '\t').length := by
  induction fuel generalizing i w with
  | zero => omega
  | succ fuel ih =>
    cases hd : s.drop i with
    | nil =>
      have hc := char_at_of_drop_nil hd
      simp [count_whitespaces, hc, NUL_ne_blank.1, NUL_ne_blank.2]
    | cons c r =>
      obtain ⟨hc, hr⟩ := char_at_of_drop_cons hd
      rw [hd] at h
      simp only [count_whitespaces, hc]
      by_cases hb : c = ' ' ∨ c = '\t'
      · rw [if_pos hb, ih (i + 1) (w + 1) (by rw [hr]; simpa using h), hr]
        simp [List.takeWhile, hb]
        omega
      · rw [if_neg hb]
        simp [List.takeWhile, hb]

/-- The copy loop starts at the argument region. -/
theorem cmdlen_eq (cmd : command_t) (line : List Char) (h : line.length < BUFLEN_CLI) :
    cmdlen cmd line = leading_whitespace line + (active_token cmd).length + 1 := by
  have := count_whitespaces_eq line BUFLEN_CLI 0 0 (by simpa using h)
  simp only [List.drop_zero, Nat.zero_add] at this
  simp only [cmdlen, this, leading_whitespace]
  omega

theorem store_steps_found_args (st : ParseState) (cs : List Char) :
    (store_steps st cs).found_args = st.found_args := by
  induction cs generalizing st with
  | nil => rfl
  | cons c cs ih => simp [store_steps, ih, store_step]

theorem store_steps_buffer_index (st : ParseState) (cs : List Char) :
    (store_steps st cs).buffer_index = st.buffer_index + cs.length := by
  induction cs generalizing st with
  | nil => rfl
  | cons c cs ih => simp [store_steps, ih, store_step]; omega

theorem store_steps_min_one (st : ParseState) (cs : List Char) (h : cs ≠ []) :
    (store_steps st cs).min_one = 1 := by
  induction cs generalizing st with
  | nil => exact absurd rfl h
  | cons c cs ih =>
    cases cs with
    | nil => rfl
    | cons d ds => exact ih (store_step st c) (by simp)

theorem store_steps_stores (st : ParseState) (cs : List Char) (h : cs ≠ []) :
    (store_steps st cs).stores ≠ [] := by
  induction cs generalizing st with
  | nil => exact absurd rfl h
  | cons c cs ih =>
    cases cs with
    | nil => simp [store_steps, store_step]
    | cons d ds => exact ih (store_step st c) (by simp)

/-- Storing a run of characters overwrites exactly the cells from
`buffer_index` on in the current slot. -/
theorem store_steps_buffers (st : ParseState) (cs : List Char)
    (h : st.buffer_index + cs.length ≤ (st.buffers st.found_args).length) :
    (store_steps st cs).buffers st.found_args =
      (st.buffers st.found_args).take st.buffer_index ++ cs ++
        (st.buffers st.found_args).drop (st.buffer_index + cs.length) := by
  induction cs generalizing st with
  | nil => simp [store_steps]
  | cons c cs ih =>
    have hlt : st.buffer_index < (st.buffers st.found_args).length := by
      simp only [List.length_cons] at h; omega
    have hb : (store_step st c).buffers st.found_args =
        (st.buffers st.found_args).take st.buffer_index ++
          c :: (st.buffers st.found_args).drop (st.buffer_index + 1) := by
      simp [store_step, store, List.set_eq_take_append_cons_drop, hlt]
    have hf : (store_step st c).found_args = st.found_args := rfl
    have hi : (store_step st c).buffer_index = st.buffer_index + 1 := rfl
    have hlen : ((store_step st c).buffers st.found_args).length =
        (st.buffers st.found_args).length := by
      simp [store_step, store]
    have := ih (store_step st c) (by
      rw [hf, hi, hlen]; simp only [List.length_cons] at h; omega)
    rw [hf, hi] at this
    simp only [store_steps, this, hb]
    have ht : (List.take st.buffer_index (st.buffers st.found_args)).length = st.buffer_index := by
      simp; omega
    rw [List.take_append_eq_append_take, List.drop_append_eq_append_drop]
    simp only [ht, List.take_take, List.length_cons]
    have e1 : min (st.buffer_index + 1) st.buffer_index = st.buffer_index := by omega
    have e2 : st.buffer_index + 1 - st.buffer_index = 1 := by omega
    have e3 : st.buffer_index + 1 + cs.length - st.buffer_index = cs.length + 1 := by omega
    have e4 : List.drop (st.buffer_index + 1 + cs.length)
        (List.take st.buffer_index (st.buffers st.found_args)) = [] := by
      apply List.drop_eq_nil_of_le; rw [ht]; omega
    rw [e1, e2, e3, e4]
    simp [List.drop_drop]
    congr 1
    omega

/-- With one expected argument the copy loop stores a run of characters that
fits the slot one by one, blanks included. -/
theorem loop_store_steps (s : List Char) (buflens : Nat → Nat) (cs tl : List Char)
    (i fuel : Nat) (st : ParseState) (hdrop : s.drop i = cs ++ tl)
    (hnul : ∀ c ∈ cs, c ≠ NUL) (hfa : st.found_args = 0)
    (hfit : st.buffer_index + cs.length ≤ buflen_minus_one buflens 0)
    (hfuel : cs.length ≤ fuel) :
    cli_parse_cmd_loop s 1 buflens fuel i st =
      cli_parse_cmd_loop s 1 buflens (fuel - cs.length) (i + cs.length) (store_steps st cs) := by
  induction cs generalizing i fuel st with
  | nil => simp [store_steps]
  | cons c cs ih =>
    cases fuel with
    | zero => simp at hfuel
    | succ fuel =>
      obtain ⟨hc, hr⟩ := char_at_of_drop_cons (show s.drop i = c :: (cs ++ tl) from hdrop)
      have hcn : c ≠ NUL := hnul c (List.mem_cons_self c cs)
      simp only [List.length_cons] at hfit hfuel
      have hne : st.buffer_index ≠ buflen_minus_one buflens 0 := by omega
      have hstep : cli_parse_cmd_loop s 1 buflens (fuel + 1) i st =
          cli_parse_cmd_loop s 1 buflens fuel (i + 1) (store_step st c) := by
        rw [cli_parse_cmd_loop]
        simp only [hc, hcn, hfa, if_false, hne, store_step]
        simp
      rw [hstep, ih (i + 1) fuel (store_step st c) hr
        (fun d hd => hnul d (List.mem_cons_of_mem c hd)) hfa
        (by simp only [store_step]; omega) (by omega)]
      simp only [store_steps, List.length_cons]
      congr 1 <;> omega

/-- For a capacity that a `size_t` holds and that is not 0, `buflens[k] - 1`
does not wrap. -/
theorem buflen_minus_one_eq (buflens : Nat → Nat) (k : Nat) (h1 : 1 ≤ buflens k)
    (h2 : buflens k < SIZE_MOD) : buflen_minus_one buflens k = buflens k - 1 := by
  unfold buflen_minus_one
  have e : buflens k + SIZE_MOD - 1 = (buflens k - 1) + SIZE_MOD := by omega
  rw [e, Nat.add_mod_right, Nat.mod_eq_of_lt (by omega)]

/-- With one expected argument, a rest of the line that fits the slot is
stored whole and the loop ends at the terminator, where the argument is
counted. -/
theorem loop_fits (s : List Char) (buflens : Nat → Nat) (cs : List Char)
    (i fuel : Nat) (st : ParseState) (hdrop : s.drop i = cs)
    (hnul : ∀ c ∈ cs, c ≠ NUL) (hfa : st.found_args = 0)
    (hfit : st.buffer_index + cs.length ≤ buflen_minus_one buflens 0)
    (hfuel : cs.length < fuel) :
    cli_parse_cmd_loop s 1 buflens fuel i st =
      if (store_steps st cs).min_one ≠ 0 then
        { store_steps st cs with found_args := (store_steps st cs).found_args + 1 }
      else store_steps st cs := by
  rw [loop_store_steps s buflens cs [] i fuel st (by simpa using hdrop) hnul hfa hfit (by omega)]
  obtain ⟨m, hm⟩ : ∃ m, fuel - cs.length = m + 1 := ⟨fuel - cs.length - 1, by omega⟩
  have hend : s.drop (i + cs.length) = [] := by
    rw [← List.drop_drop, hdrop]; simp
  rw [hm, cli_parse_cmd_loop, if_pos (char_at_of_drop_nil hend)]

/-- With one expected argument, once the slot holds `buflens[0] - 1`
characters the loop ends at the next character of the line without counting
the argument. -/
theorem loop_overflow (s : List Char) (buflens : Nat → Nat) (cs : List Char) (d : Char)
    (tl : List Char) (i fuel : Nat) (st : ParseState) (hdrop : s.drop i = cs ++ d :: tl)
    (hnul : ∀ c ∈ cs, c ≠ NUL) (hd : d ≠ NUL) (hfa : st.found_args = 0)
    (hfull : st.buffer_index + cs.length = buflen_minus_one buflens 0)
    (hfuel : cs.length < fuel) :
    cli_parse_cmd_loop s 1 buflens fuel i st =
      { store_steps st cs with
        lens_read := (store_steps st cs).found_args :: (store_steps st cs).lens_read } := by
  rw [loop_store_steps s buflens cs (d :: tl) i fuel st hdrop hnul hfa (by omega) (by omega)]
  obtain ⟨m, hm⟩ : ∃ m, fuel - cs.length = m + 1 := ⟨fuel - cs.length - 1, by omega⟩
  have hnext : s.drop (i + cs.length) = d :: tl := by
    rw [← List.drop_drop, hdrop]; simp
  have hbi : (store_steps st cs).buffer_index =
      buflen_minus_one buflens (store_steps st cs).found_args := by
    rw [store_steps_buffer_index, store_steps_found_args, hfa, hfull]
  rw [hm, cli_parse_cmd_loop, if_neg (by rw [(char_at_of_drop_cons hnext).1]; exact hd)]
  simp only [hbi, if_true]

/-- The start state of the copy loop. -/
theorem cli_parse_cmd_unfold (cmd : command_t) (line : List Char) (argc : Nat)
    (buffers : Nat → List Char) (buflens : Nat → Nat) (hargc : argc ≠ 0) :
    cli_parse_cmd (some cmd) (some line) argc (some buffers) buflens =
      let st := cli_parse_cmd_loop line argc buflens (BUFLEN_CLI - cmdlen cmd line)
        (cmdlen cmd line)
        { found_args := 0, buffer_index := 0, min_one := 0,
          buffers := buffers, stores := [], lens_read := [] }
      { ret := if st.min_one = 0 then -1 else (st.found_args : Int)
        buffers := st.buffers, stores := st.stores, lens_read := st.lens_read } := by
  simp [cli_parse_cmd, hargc]

/-- A buffer that holds NUL-free text followed by NUL cells reads as that
text. -/
theorem cstr_append_zeroed (cs : List Char) (n m : Nat) (h : ∀ c ∈ cs, c ≠ NUL) :
    cstr (cs ++ (zeroed n).drop m) = cs := by
  have hz : (zeroed n).drop m = List.replicate (n - m) NUL := by
    simp [zeroed]
  rw [cstr, hz, List.takeWhile_append_of_pos (by simpa using h), List.takeWhile_replicate]
  simp

/-- The run of `cli_parse_cmd` with one expected argument on a line whose
argument region fits the slot. -/
theorem parse_one_fits (cmd : command_t) (line : List Char) (buffers : Nat → List Char)
    (buflens : Nat → Nat) (hline : IsLine line) (hcap : buflens 0 < SIZE_MOD)
    (h1 : 1 ≤ (arg_region cmd line).length)
    (h2 : (arg_region cmd line).length ≤ buflens 0 - 1) :
    (cli_parse_cmd (some cmd) (some line) 1 (some buffers) buflens).ret = 1 ∧
    ((buffers 0).length = buflens 0 →
      (cli_parse_cmd (some cmd) (some line) 1 (some buffers) buflens).buffers 0 =
        arg_region cmd line ++ (buffers 0).drop (arg_region cmd line).length) := by
  have hstart := cmdlen_eq cmd line hline.2
  have hreg : line.drop (cmdlen cmd line) = arg_region cmd line := by
    rw [hstart]; rfl
  have hlen : (arg_region cmd line).length = line.length - cmdlen cmd line := by
    rw [← hreg]; simp
  have hnul : ∀ c ∈ arg_region cmd line, c ≠ NUL :=
    fun c hc => hline.1 c (List.mem_of_mem_drop hc)
  have hne : arg_region cmd line ≠ [] := by
    intro h; rw [h] at h1; simp at h1
  have hB : BUFLEN_CLI = 8193 := rfl
  have hl2 := hline.2
  rw [cli_parse_cmd_unfold cmd line 1 buffers buflens (by decide)]
  simp only []
  rw [loop_fits line buflens (arg_region cmd line) _ _ _ hreg hnul rfl
    (by rw [buflen_minus_one_eq buflens 0 (by omega) hcap]; simpa using h2) (by omega)]
  simp only [store_steps_min_one _ _ hne, store_steps_found_args, ne_eq, one_ne_zero,
    not_false_eq_true, if_true, if_false]
  refine ⟨by simp, ?_⟩
  intro hbuf
  have := store_steps_buffers
    { found_args := 0, buffer_index := 0, min_one := 0,
      buffers := buffers, stores := [], lens_read := [] } (arg_region cmd line)
    (by simp only [Nat.zero_add]; omega)
  simpa using this

/-- The run of `cli_parse_cmd` with one expected argument on a line whose
argument region is longer than the slot allows. -/
theorem parse_one_overflow (cmd : command_t) (line : List Char) (buffers : Nat → List Char)
    (buflens : Nat → Nat) (hline : IsLine line) (hcap1 : 1 ≤ buflens 0)
    (hcap : buflens 0 < SIZE_MOD)
    (h : buflens 0 - 1 < (arg_region cmd line).length) :
    (cli_parse_cmd (some cmd) (some line) 1 (some buffers) buflens).ret =
      (if buflens 0 = 1 then -1 else 0) ∧
    ((buffers 0).length = buflens 0 →
      (cli_parse_cmd (some cmd) (some line) 1 (some buffers) buflens).buffers 0 =
        (arg_region cmd line).take (buflens 0 - 1) ++ (buffers 0).drop (buflens 0 - 1)) := by
  have hstart := cmdlen_eq cmd line hline.2
  have hreg : line.drop (cmdlen cmd line) = arg_region cmd line := by
    rw [hstart]; rfl
  have hlen : (arg_region cmd line).length = line.length - cmdlen cmd line := by
    rw [← hreg]; simp
  have hnul : ∀ c ∈ arg_region cmd line, c ≠ NUL :=
    fun c hc => hline.1 c (List.mem_of_mem_drop hc)
  have hB : BUFLEN_CLI = 8193 := rfl
  have hl2 := hline.2
  obtain ⟨d, tl, hdtl⟩ : ∃ d tl, (arg_region cmd line).drop (buflens 0 - 1) = d :: tl := by
    cases hd : (arg_region cmd line).drop (buflens 0 - 1) with
    | nil => rw [List.drop_eq_nil_iff] at hd; omega
    | cons d tl => exact ⟨d, tl, rfl⟩
  have hsplit : line.drop (cmdlen cmd line) =
      (arg_region cmd line).take (buflens 0 - 1) ++ d :: tl := by
    rw [hreg, ← hdtl, List.take_append_drop]
  have hd : d ≠ NUL := hnul d (List.mem_of_mem_drop (by rw [hdtl]; exact List.mem_cons_self d tl))
  have htl : ((arg_region cmd line).take (buflens 0 - 1)).length = buflens 0 - 1 := by
    rw [List.length_take]; omega
  rw [cli_parse_cmd_unfold cmd line 1 buffers buflens (by decide)]
  simp only []
  rw [loop_overflow line buflens ((arg_region cmd line).take (buflens 0 - 1)) d tl _ _ _ hsplit
    (fun c hc => hnul c (List.mem_of_mem_take hc)) hd rfl
    (by rw [buflen_minus_one_eq buflens 0 hcap1 hcap, htl]; simp) (by omega)]
  simp only [store_steps_found_args]
  constructor
  · by_cases h1 : buflens 0 = 1
    · simp [h1, store_steps]
    · have hne : (arg_region cmd line).take (buflens 0 - 1) ≠ [] := by
        intro e; rw [e] at htl; simp at htl; omega
      simp [store_steps_min_one _ _ hne, h1]
  · intro hbuf
    have := store_steps_buffers
      { found_args := 0, buffer_index := 0, min_one := 0,
        buffers := buffers, stores := [], lens_read := [] }
      ((arg_region cmd line).take (buflens 0 - 1))
      (by simp only [Nat.zero_add]; omega)
    simp only [htl] at this
    simpa using this

/-- Whatever the line, the flag `min_one` is still 0 after the copy loop
exactly when the loop stored nothing. -/
theorem loop_min_one_iff (s : List Char) (argc : Nat) (buflens : Nat → Nat)
    (fuel i : Nat) (st : ParseState) (h : st.min_one = 0 ↔ st.stores = []) :
    (cli_parse_cmd_loop s argc buflens fuel i st).min_one = 0 ↔
      (cli_parse_cmd_loop s argc buflens fuel i st).stores = [] := by
  induction fuel generalizing i st with
  | zero => simpa [cli_parse_cmd_loop] using h
  | succ fuel ih =>
    rw [cli_parse_cmd_loop]
    dsimp only []
    split_ifs
    · exact h
    · exact h
    · exact h
    · exact ih _ _ h
    · exact h
    · exact ih _ _ (by simp)

/-- The copy loop never clears the flag `min_one`. -/
theorem loop_min_one_ne_zero (s : List Char) (argc : Nat) (buflens : Nat → Nat)
    (fuel i : Nat) (st : ParseState) (h : st.min_one ≠ 0) :
    (cli_parse_cmd_loop s argc buflens fuel i st).min_one ≠ 0 := by
  induction fuel generalizing i st with
  | zero => simpa [cli_parse_cmd_loop] using h
  | succ fuel ih =>
    rw [cli_parse_cmd_loop]
    dsimp only []
    split_ifs
    all_goals first
      | exact h
      | exact ih _ _ h
      | exact ih _ _ (by simp)

/-- The value of `buflens[k] - 1` is below a capacity that is not 0. -/
theorem buflen_minus_one_le (buflens : Nat → Nat) (k : Nat) (h1 : 1 ≤ buflens k) :
    buflen_minus_one buflens k ≤ buflens k - 1 := by
  unfold buflen_minus_one
  have e : buflens k + SIZE_MOD - 1 = (buflens k - 1) + SIZE_MOD := by omega
  rw [e, Nat.add_mod_right]
  exact Nat.mod_le _ _

theorem StoreInv.bound {buflens : Nat → Nat} {st : ParseState} (h : StoreInv buflens st) :
    StoreBound buflens st.stores := by
  obtain ⟨ha, hb, hc, hd, he⟩ := h
  intro k hk
  refine ⟨fun p hp hpk => hpk ▸ hb p hp (hpk ▸ hk), ?_⟩
  rcases Nat.lt_trichotomy k st.found_args with hlt | heq | hgt
  · exact he k hlt hk
  · subst heq
    rw [hd]
    exact le_trans (hc hk) (buflen_minus_one_le buflens _ hk)
  · have : (st.stores.filter fun p => p.1 = k) = [] := by
      rw [List.filter_eq_nil_iff]
      intro p hp
      have := ha p hp
      simp only [decide_eq_true_eq]
      omega
    rw [this]
    simp

theorem StoreInv.next_slot {buflens : Nat → Nat} {st : ParseState} (h : StoreInv buflens st)
    (reads : List Nat) :
    StoreInv buflens
      { st with lens_read := reads, buffer_index := 0, found_args := st.found_args + 1 } := by
  obtain ⟨ha, hb, hc, hd, he⟩ := h
  refine ⟨fun p hp => Nat.le_succ_of_le (ha p hp), hb, fun _ => Nat.zero_le _, ?_, ?_⟩
  · simp only [List.length_eq_zero, List.filter_eq_nil_iff, decide_eq_true_eq]
    intro p hp
    have := ha p hp
    omega
  · intro k hk hcap
    simp only at hk
    rcases Nat.lt_or_eq_of_le (Nat.lt_succ_iff.mp hk) with hlt | heq
    · exact he k hlt hcap
    · subst heq
      simp only
      rw [hd]
      exact le_trans (hc hcap) (buflen_minus_one_le buflens _ hcap)

theorem StoreInv.stored {buflens : Nat → Nat} {st : ParseState} (h : StoreInv buflens st)
    (hne : st.buffer_index ≠ buflen_minus_one buflens st.found_args)
    (reads : List Nat) (buffers : Nat → List Char) :
    StoreInv buflens
      { st with
        lens_read := reads
        buffers := buffers
        stores := (st.found_args, st.buffer_index) :: st.stores
        buffer_index := st.buffer_index + 1
        min_one := 1 } := by
  obtain ⟨ha, hb, hc, hd, he⟩ := h
  refine ⟨?_, ?_, ?_, ?_, ?_⟩
  · intro p hp
    rcases List.mem_cons.mp hp with rfl | hp
    · exact Nat.le_refl _
    · exact ha p hp
  · intro p hp hcap
    rcases List.mem_cons.mp hp with rfl | hp
    · have hcap1 : 1 ≤ buflens st.found_args := hcap
      have h1 := hc hcap1
      have h2 := buflen_minus_one_le buflens _ hcap1
      show st.buffer_index < buflens st.found_args - 1
      omega
    · exact hb p hp hcap
  · intro hcap
    have := hc hcap
    simp only
    omega
  · simp only [List.filter_cons, decide_True, if_true, List.length_cons, hd]
  · intro k hk hcap
    simp only at hk
    have hkne : ¬ st.found_args = k := by omega
    simp only [List.filter_cons, hkne, decide_False]
    exact he k hk hcap

/-- The copy loop keeps every store below `buflens - 1` of its slot. -/
theorem loop_store_bound (s : List Char) (argc : Nat) (buflens : Nat → Nat)
    (fuel i : Nat) (st : ParseState) (h : StoreInv buflens st) :
    StoreBound buflens (cli_parse_cmd_loop s argc buflens fuel i st).stores := by
  induction fuel generalizing i st with
  | zero => exact h.bound
  | succ fuel ih =>
    rw [cli_parse_cmd_loop]
    dsimp only []
    split_ifs with h1 h2 h3
    · exact h.bound
    · exact h.bound
    · exact h.bound
    · exact ih _ _ (h.next_slot _)
    · exact h.bound
    · exact ih _ _ (h.stored h3 _ _)

/-- C4: with one expected argument, a line whose argument region has between
1 and capacity - 1 characters fills the single slot with exactly that region,
blanks included, and the call returns 1. The slot is the array of `buflens 0`
cells the caller supplies; read as a C string it is the region when the
caller zero-initialised it, as every handler does. -/
theorem cli_parse_cmd_single_argument (cmd : command_t) (line : List Char)
    (buffers : Nat → List Char) (buflens : Nat → Nat) (hline : IsLine line)
    (hcap : buflens 0 < SIZE_MOD) (hbuf : (buffers 0).length = buflens 0)
    (h1 : 1 ≤ (arg_region cmd line).length)
    (h2 : (arg_region cmd line).length ≤ buflens 0 - 1) :
    (cli_parse_cmd (some cmd) (some line) 1 (some buffers) buflens).ret = 1 ∧
    (cli_parse_cmd (some cmd) (some line) 1 (some buffers) buflens).buffers 0 =
      arg_region cmd line ++ (buffers 0).drop (arg_region cmd line).length ∧
    (buffers 0 = zeroed (buflens 0) →
      cstr ((cli_parse_cmd (some cmd) (some line) 1 (some buffers) buflens).buffers 0) =
        arg_region cmd line) := by
  obtain ⟨hret, hbufs⟩ := parse_one_fits cmd line buffers buflens hline hcap h1 h2
  refine ⟨hret, hbufs hbuf, ?_⟩
  intro hz
  rw [hbufs hbuf, hz]
  exact cstr_append_zeroed _ _ _ (fun c hc => hline.1 c (List.mem_of_mem_drop hc))

/-- C4 at the line `add hello world`, resolved by the resolver and bound
with the slot of `cli_add`. -/
theorem cli_parse_cmd_single_argument_witness :
    (cli_is_valid_cmd ⟨1, 0⟩ (some "add hello world".toList) COMMANDS).issued =
      some (mk_cmd "add" (some "a") .cli_add .TODOS) ∧
    arg_region (mk_cmd "add" (some "a") .cli_add .TODOS) "add hello world".toList =
      "hello world".toList ∧
    (cli_parse_cmd (some (mk_cmd "add" (some "a") .cli_add .TODOS))
      (some "add hello world".toList) 1 (some fun _ => zeroed BUFLEN_TITLE)
      (fun _ => BUFLEN_TITLE)).ret = 1 ∧
    cstr ((cli_parse_cmd (some (mk_cmd "add" (some "a") .cli_add .TODOS))
      (some "add hello world".toList) 1 (some fun _ => zeroed BUFLEN_TITLE)
      (fun _ => BUFLEN_TITLE)).buffers 0) =
        arg_region (mk_cmd "add" (some "a") .cli_add .TODOS) "add hello world".toList :=
  have h := cli_parse_cmd_single_argument (mk_cmd "add" (some "a") .cli_add .TODOS)
    "add hello world".toList (fun _ => zeroed BUFLEN_TITLE) (fun _ => BUFLEN_TITLE)
    ⟨by decide, by decide⟩ (by decide) (by decide) (by decide) (by decide)
  ⟨by decide, by decide, h.1, h.2.2 rfl⟩

/-- C5 as stated fails for a slot of capacity 1: the region `x` is longer
than capacity - 1 = 0 characters, the slot keeps its first 0 characters, and
the call returns the failure value -1. -/
theorem cli_parse_cmd_truncation_capacity_one :
    IsLine "add x".toList ∧
    1 - 1 < (arg_region (mk_cmd "add" (some "a") .cli_add .TODOS) "add x".toList).length ∧
    (cli_parse_cmd (some (mk_cmd "add" (some "a") .cli_add .TODOS)) (some "add x".toList) 1
      (some fun _ => zeroed 1) (fun _ => 1)).ret = -1 :=
  ⟨⟨by decide, by decide⟩, by decide, by decide⟩

/-- C5 (amended): with one expected argument and a slot of capacity at least
2, a line whose argument region is longer than capacity - 1 characters
leaves exactly the first capacity - 1 characters of the region in the slot,
and the call does not fail: it returns 0. -/
theorem cli_parse_cmd_truncates (cmd : command_t) (line : List Char)
    (buffers : Nat → List Char) (buflens : Nat → Nat) (hline : IsLine line)
    (hcap2 : 2 ≤ buflens 0) (hcap : buflens 0 < SIZE_MOD)
    (hbuf : (buffers 0).length = buflens 0)
    (h : buflens 0 - 1 < (arg_region cmd line).length) :
    (cli_parse_cmd (some cmd) (some line) 1 (some buffers) buflens).ret ≠ -1 ∧
    (cli_parse_cmd (some cmd) (some line) 1 (some buffers) buflens).ret = 0 ∧
    (cli_parse_cmd (some cmd) (some line) 1 (some buffers) buflens).buffers 0 =
      (arg_region cmd line).take (buflens 0 - 1) ++ (buffers 0).drop (buflens 0 - 1) ∧
    (buffers 0 = zeroed (buflens 0) →
      cstr ((cli_parse_cmd (some cmd) (some line) 1 (some buffers) buflens).buffers 0) =
        (arg_region cmd line).take (buflens 0 - 1)) := by
  obtain ⟨hret, hbufs⟩ :=
    parse_one_overflow cmd line buffers buflens hline (by omega) hcap h
  rw [if_neg (by omega)] at hret
  refine ⟨by rw [hret]; decide, hret, hbufs hbuf, ?_⟩
  intro hz
  rw [hbufs hbuf, hz]
  exact cstr_append_zeroed _ _ _
    (fun c hc => hline.1 c (List.mem_of_mem_drop (List.mem_of_mem_take hc)))

/-- C5 (amended) at the line `! 12345`, bound with the slot of
`cli_history_exec` (capacity 5). -/
theorem cli_parse_cmd_truncates_witness :
    (cli_parse_cmd (some (mk_cmd "!" none .cli_history_exec .MISC)) (some "! 12345".toList) 1
      (some fun _ => zeroed BUFLEN_HISTORY_INDEX) (fun _ => BUFLEN_HISTORY_INDEX)).ret ≠ -1 ∧
    cstr ((cli_parse_cmd (some (mk_cmd "!" none .cli_history_exec .MISC))
      (some "! 12345".toList) 1
      (some fun _ => zeroed BUFLEN_HISTORY_INDEX) (fun _ => BUFLEN_HISTORY_INDEX)).buffers 0) =
        (arg_region (mk_cmd "!" none .cli_history_exec .MISC) "! 12345".toList).take
          (BUFLEN_HISTORY_INDEX - 1) :=
  have h := cli_parse_cmd_truncates (mk_cmd "!" none .cli_history_exec .MISC)
    "! 12345".toList (fun _ => zeroed BUFLEN_HISTORY_INDEX) (fun _ => BUFLEN_HISTORY_INDEX)
    ⟨by decide, by decide⟩ (by decide) (by decide) (by decide) (by decide)
  ⟨h.1, h.2.2.2 rfl⟩

/-- The trace of stores of a call is empty when the call ends at one of its
guards, and is the trace of the copy loop otherwise. -/
theorem cli_parse_cmd_cases (cmd : Option command_t) (cmdstr : Option (List Char))
    (argc : Nat) (buffers : Option (Nat → List Char)) (buflens : Nat → Nat) :
    ((cli_parse_cmd cmd cmdstr argc buffers buflens).ret = -1 ∧
      (cli_parse_cmd cmd cmdstr argc buffers buflens).stores = []) ∨
    ∃ line start bufs,
      (cli_parse_cmd cmd cmdstr argc buffers buflens).ret =
        (if (cli_parse_cmd_loop line argc buflens (BUFLEN_CLI - start) start
            { found_args := 0, buffer_index := 0, min_one := 0,
              buffers := bufs, stores := [], lens_read := [] }).min_one = 0 then -1
         else ((cli_parse_cmd_loop line argc buflens (BUFLEN_CLI - start) start
            { found_args := 0, buffer_index := 0, min_one := 0,
              buffers := bufs, stores := [], lens_read := [] }).found_args : Int)) ∧
      (cli_parse_cmd cmd cmdstr argc buffers buflens).stores =
        (cli_parse_cmd_loop line argc buflens (BUFLEN_CLI - start) start
            { found_args := 0, buffer_index := 0, min_one := 0,
              buffers := bufs, stores := [], lens_read := [] }).stores := by
  cases cmd with
  | none => left; simp [cli_parse_cmd]
  | some cmd =>
    cases cmdstr with
    | none => left; simp [cli_parse_cmd]
    | some line =>
      cases buffers with
      | none => left; simp [cli_parse_cmd]
      | some bufs =>
        by_cases hargc : argc = 0
        · left; simp [cli_parse_cmd, hargc]
        · right
          refine ⟨line, cmdlen cmd line, bufs, ?_, ?_⟩ <;>
            rw [cli_parse_cmd_unfold cmd line argc bufs buflens hargc]

/-- C6: a call of `cli_parse_cmd` returns the failure value -1 if and only if
it copied no character into any slot (this holds for every call, the guarded
ones included); with one expected argument and a slot of capacity at least
2, a line with at least one character in its argument region, be it only
blanks, does not fail; and neither does, for any number of expected arguments
from 1 on, a line whose argument region starts with a character other than a
blank. -/
theorem cli_parse_cmd_fails_iff_nothing_copied :
    (∀ (cmd : Option command_t) (cmdstr : Option (List Char)) (argc : Nat)
        (buffers : Option (Nat → List Char)) (buflens : Nat → Nat),
      (cli_parse_cmd cmd cmdstr argc buffers buflens).ret = -1 ↔
        (cli_parse_cmd cmd cmdstr argc buffers buflens).stores = []) ∧
    (∀ (cmd : command_t) (line : List Char) (buffers : Nat → List Char) (buflens : Nat → Nat),
      IsLine line → 2 ≤ buflens 0 → buflens 0 < SIZE_MOD → arg_region cmd line ≠ [] →
      (cli_parse_cmd (some cmd) (some line) 1 (some buffers) buflens).ret ≠ -1) ∧
    ∀ (cmd : command_t) (line : List Char) (argc : Nat) (buffers : Nat → List Char)
      (buflens : Nat → Nat) (c : Char) (rest : List Char),
      IsLine line → 1 ≤ argc → 2 ≤ buflens 0 → buflens 0 < SIZE_MOD →
      arg_region cmd line = c :: rest → c ≠ ' ' →
      (cli_parse_cmd (some cmd) (some line) argc (some buffers) buflens).ret ≠ -1 := by
  refine ⟨?_, ?_, ?_⟩
  rotate_left 2
  · intro cmd line argc buffers buflens c rest hline hargc hcap2 hcap hreg hc
    have hstart := cmdlen_eq cmd line hline.2
    have hdrop : line.drop (cmdlen cmd line) = c :: rest := by
      rw [hstart]; exact hreg
    have hlen : (line.drop (cmdlen cmd line)).length = rest.length + 1 := by
      rw [hdrop]; rfl
    rw [List.length_drop] at hlen
    have hl2 : line.length < 8193 := hline.2
    obtain ⟨m, hm⟩ : ∃ m, BUFLEN_CLI - cmdlen cmd line = m + 1 :=
      ⟨BUFLEN_CLI - cmdlen cmd line - 1, by simp only [BUFLEN_CLI]; omega⟩
    have hcn : c ≠ NUL := hline.1 c (List.mem_of_mem_drop (by rw [hdrop]; simp))
    have hbmo := buflen_minus_one_eq buflens 0 (by omega) hcap
    have hchar := (char_at_of_drop_cons hdrop).1
    have hfull : ¬ (0 = buflen_minus_one buflens 0) := by rw [hbmo]; omega
    have hargc0 : ¬ (0 = argc) := by omega
    have hstep : cli_parse_cmd_loop line argc buflens (m + 1) (cmdlen cmd line)
        { found_args := 0, buffer_index := 0, min_one := 0,
          buffers := buffers, stores := [], lens_read := [] } =
        cli_parse_cmd_loop line argc buflens m (cmdlen cmd line + 1)
          { found_args := 0, buffer_index := 0 + 1, min_one := 1,
            buffers := store buffers 0 0 c, stores := [(0, 0)], lens_read := [0] } := by
      rw [cli_parse_cmd_loop]
      simp only [hchar, hcn, hc, hfull, hargc0, if_false, false_and]
    have := loop_min_one_ne_zero line argc buflens m (cmdlen cmd line + 1)
      { found_args := 0, buffer_index := 0 + 1, min_one := 1,
        buffers := store buffers 0 0 c, stores := [(0, 0)], lens_read := [0] } (by simp)
    rw [cli_parse_cmd_unfold cmd line argc buffers buflens (by omega), hm, hstep]
    dsimp only []
    rw [if_neg this]
    omega
  · intro cmd cmdstr argc buffers buflens
    rcases cli_parse_cmd_cases cmd cmdstr argc buffers buflens with ⟨h1, h2⟩ | ⟨l, st, b, h1, h2⟩
    · simp [h1, h2]
    · rw [h1, h2, ← loop_min_one_iff l argc buflens _ _ _ (by simp)]
      constructor
      · intro h
        by_contra hne
        rw [if_neg hne] at h
        omega
      · intro h
        rw [if_pos h]
  · intro cmd line buffers buflens hline hcap2 hcap hne
    have hpos : 1 ≤ (arg_region cmd line).length := by
      cases h : arg_region cmd line with
      | nil => exact absurd h hne
      | cons c cs => simp
    by_cases hfit : (arg_region cmd line).length ≤ buflens 0 - 1
    · rw [(parse_one_fits cmd line buffers buflens hline hcap hpos hfit).1]
      decide
    · rw [(parse_one_overflow cmd line buffers buflens hline (by omega) hcap (by omega)).1,
        if_neg (by omega)]
      decide

/-- C6 at the line `add` followed by three blanks, bound with the slot of
`cli_add` (the region of two blanks is copied), and at the line `satt 7`
bound with two expected arguments. -/
theorem cli_parse_cmd_fails_iff_nothing_copied_witness :
    arg_region (mk_cmd "add" (some "a") .cli_add .TODOS) "add   ".toList = "  ".toList ∧
    (cli_parse_cmd (some (mk_cmd "add" (some "a") .cli_add .TODOS)) (some "add   ".toList) 1
      (some fun _ => zeroed BUFLEN_TITLE) (fun _ => BUFLEN_TITLE)).ret ≠ -1 ∧
    (cli_parse_cmd (some (mk_cmd "satt" none .cli_save_attachment_to_disk .ATTACHMENTS))
      (some "satt 7".toList) 2 (some fun _ => zeroed BUFLEN_ID) (fun _ => BUFLEN_ID)).ret ≠ -1 :=
  ⟨by decide,
   cli_parse_cmd_fails_iff_nothing_copied.2.1 (mk_cmd "add" (some "a") .cli_add .TODOS)
    "add   ".toList (fun _ => zeroed BUFLEN_TITLE) (fun _ => BUFLEN_TITLE)
    ⟨by decide, by decide⟩ (by decide) (by decide) (by decide),
   cli_parse_cmd_fails_iff_nothing_copied.2.2
    (mk_cmd "satt" none .cli_save_attachment_to_disk .ATTACHMENTS) "satt 7".toList 2
    (fun _ => zeroed BUFLEN_ID) (fun _ => BUFLEN_ID) '7' []
    ⟨by decide, by decide⟩ (by decide) (by decide) (by decide) (by decide) (by decide)⟩

/-- C7 fails on the code: the returned value is not the number of populated
slots. On `! 12345`, bound by `cli_history_exec` (one argument, capacity 5),
the slot receives `1234` and the call returns 0; on `satt 1` followed by a
blank, bound by `cli_save_attachment_to_disk` (two expected arguments), one
slot is populated and the call returns 2. -/
theorem cli_parse_cmd_count_differs_from_populated :
    ((cli_parse_cmd (some (mk_cmd "!" none .cli_history_exec .MISC)) (some "! 12345".toList) 1
        (some fun _ => zeroed BUFLEN_HISTORY_INDEX) (fun _ => BUFLEN_HISTORY_INDEX)).ret = 0 ∧
      populated (cli_parse_cmd (some (mk_cmd "!" none .cli_history_exec .MISC))
        (some "! 12345".toList) 1
        (some fun _ => zeroed BUFLEN_HISTORY_INDEX) (fun _ => BUFLEN_HISTORY_INDEX)) = 1 ∧
      cstr ((cli_parse_cmd (some (mk_cmd "!" none .cli_history_exec .MISC))
        (some "! 12345".toList) 1
        (some fun _ => zeroed BUFLEN_HISTORY_INDEX)
        (fun _ => BUFLEN_HISTORY_INDEX)).buffers 0) = "1234".toList) ∧
    ((cli_parse_cmd (some (mk_cmd "satt" none .cli_save_attachment_to_disk .ATTACHMENTS))
        (some "satt 1 ".toList) 2
        (some fun _ => zeroed BUFLEN_ID) (fun _ => BUFLEN_ID)).ret = 2 ∧
      populated (cli_parse_cmd
        (some (mk_cmd "satt" none .cli_save_attachment_to_disk .ATTACHMENTS))
        (some "satt 1 ".toList) 2
        (some fun _ => zeroed BUFLEN_ID) (fun _ => BUFLEN_ID)) = 1) := by
  decide

/-- C8: in every call of `cli_parse_cmd`, every store into a slot `k` of
capacity at least 1 happens at a position strictly below capacity(k) - 1, and
the slot receives at most capacity(k) - 1 characters. -/
theorem cli_parse_cmd_store_bound (cmd : Option command_t) (cmdstr : Option (List Char))
    (argc : Nat) (buffers : Option (Nat → List Char)) (buflens : Nat → Nat)
    (k : Nat) (hk : 1 ≤ buflens k) :
    (∀ p ∈ (cli_parse_cmd cmd cmdstr argc buffers buflens).stores,
      p.1 = k → p.2 < buflens k - 1) ∧
    ((cli_parse_cmd cmd cmdstr argc buffers buflens).stores.filter
      fun p => p.1 = k).length ≤ buflens k - 1 := by
  rcases cli_parse_cmd_cases cmd cmdstr argc buffers buflens with ⟨_, h2⟩ | ⟨l, st, b, _, h2⟩
  · simp [h2]
  · rw [h2]
    refine loop_store_bound l argc buflens _ _ _ ?_ k hk
    refine ⟨by simp, by simp, fun _ => Nat.zero_le _, by simp, by simp⟩

/-- C8 at the line `! 12345` bound with the slot of `cli_history_exec`
(capacity 5): the four stores go to positions 3, 2, 1 and 0 of slot 0. -/
theorem cli_parse_cmd_store_bound_witness :
    (cli_parse_cmd (some (mk_cmd "!" none .cli_history_exec .MISC)) (some "! 12345".toList) 1
      (some fun _ => zeroed BUFLEN_HISTORY_INDEX) (fun _ => BUFLEN_HISTORY_INDEX)).stores =
      [(0, 3), (0, 2), (0, 1), (0, 0)] ∧
    ∀ p ∈ (cli_parse_cmd (some (mk_cmd "!" none .cli_history_exec .MISC))
      (some "! 12345".toList) 1
      (some fun _ => zeroed BUFLEN_HISTORY_INDEX) (fun _ => BUFLEN_HISTORY_INDEX)).stores,
      p.1 = 0 → p.2 < BUFLEN_HISTORY_INDEX - 1 :=
  ⟨by decide,
   (cli_parse_cmd_store_bound (some (mk_cmd "!" none .cli_history_exec .MISC))
    (some "! 12345".toList) 1 (some fun _ => zeroed BUFLEN_HISTORY_INDEX)
    (fun _ => BUFLEN_HISTORY_INDEX) 0 (by decide)).1⟩

/-! ## Theorems: session history ring -/

theorem history_insert_all_cons (line : List Char) (rest : List (List Char)) (h : History) :
    history_insert_all (line :: rest) h =
      history_insert_all rest (history_insert (some line) h).2 := rfl

theorem history_insert_all_append (l1 l2 : List (List Char)) (h : History) :
    history_insert_all (l1 ++ l2) h = history_insert_all l2 (history_insert_all l1 h) := by
  simp [history_insert_all, List.foldl_append]

/-- While fewer than 1023 lines have been appended to the fresh ring, the
ring holds them in order of insertion and the cursor counts them. -/
theorem history_insert_all_below_wrap (rest done : List (List Char)) (h : History)
    (hidx : h.history_index = done.length) (hslots : ∀ k, h.HISTORY k = done[k]?)
    (hlen : done.length + rest.length ≤ HISTORY_SIZE - 1) :
    (history_insert_all rest h).history_index = done.length + rest.length ∧
    ∀ k, (history_insert_all rest h).HISTORY k = (done ++ rest)[k]? := by
  induction rest generalizing done h with
  | nil => simpa [history_insert_all] using ⟨hidx, hslots⟩
  | cons line rest ih =>
    simp only [List.length_cons] at hlen
    have htarget : history_target h = done.length := by
      unfold history_target
      rw [if_neg (by omega), hidx]
    have := ih (done ++ [line]) (history_insert (some line) h).2
      (by simp [history_insert, htarget])
      (by
        intro k
        simp only [history_insert, htarget]
        by_cases hk : k = done.length
        · subst hk; simp
        · rw [if_neg hk, hslots k]
          rcases Nat.lt_or_gt_of_ne hk with hlt | hgt
          · rw [List.getElem?_append_left hlt]
          · rw [List.getElem?_eq_none (by omega), List.getElem?_eq_none (by simp; omega)])
      (by simp; omega)
    rw [history_insert_all_cons]
    simp only [List.length_append, List.length_cons, List.length_nil, List.append_assoc,
      List.singleton_append] at this
    refine ⟨by rw [this.1, List.length_cons]; omega, this.2⟩

/-- C9 fails on the code: after any 1025 lines have been appended to the
fresh ring, slot 0 holds the 1024th line (index 1023 of the list), the
1025th line is in slot 1 and slot 1023 is still empty. The cursor is reset
when it stands at `HISTORY_SIZE - 1`, one insertion before the last slot
would be filled. -/
theorem history_insert_wraps_one_early (lines : List (List Char))
    (hlen : lines.length = 1025) :
    (history_insert_all lines History.fresh).HISTORY 0 = lines[1023]? ∧
    (history_insert_all lines History.fresh).HISTORY 1 = lines[1024]? ∧
    (history_insert_all lines History.fresh).HISTORY 1023 = none ∧
    (history_insert_all lines History.fresh).history_index = 2 := by
  obtain ⟨a, b, hab⟩ : ∃ a b, lines.drop 1023 = [a, b] :=
    List.length_eq_two.mp (by rw [List.length_drop, hlen])
  have hsplit : lines = lines.take 1023 ++ [a, b] := by
    rw [← hab, List.take_append_drop]
  have htake : (lines.take 1023).length = 1023 := by
    rw [List.length_take, hlen]; rfl
  have ha : lines[1023]? = some a := by
    have := List.getElem?_drop lines 1023 0
    rw [hab] at this
    simpa using this.symm
  have hb : lines[1024]? = some b := by
    have := List.getElem?_drop lines 1023 1
    rw [hab] at this
    simpa using this.symm
  obtain ⟨hidx, hslots⟩ := history_insert_all_below_wrap (lines.take 1023) [] History.fresh
    rfl (fun k => by simp [History.fresh]) (by rw [htake]; decide)
  rw [htake] at hidx
  simp only [List.nil_append, List.length_nil, Nat.zero_add] at hidx hslots
  have h1023 : (lines.take 1023)[1023]? = none :=
    List.getElem?_eq_none (by rw [htake])
  have hall : history_insert_all lines History.fresh =
      history_insert_all [a, b] (history_insert_all (lines.take 1023) History.fresh) := by
    rw [← history_insert_all_append, ← hsplit]
  have h1023s := hslots 1023
  rw [h1023] at h1023s
  rw [ha, hb, hall]
  generalize history_insert_all (lines.take 1023) History.fresh = H at hidx h1023s
  simp [history_insert_all, history_insert, history_target, hidx, HISTORY_SIZE, h1023s]

/-- C9's failing input. The 1025 lines are pairwise distinct, line `i`
(counted from 0) being the single character of code `i`: slot 0 ends up with
line 1023, not with the 1025th line (line 1024). -/
theorem history_insert_wraps_one_early_witness :
    ((List.range 1025).map fun i => [Char.ofNat i]).length = 1025 ∧
    (history_insert_all ((List.range 1025).map fun i => [Char.ofNat i])
      History.fresh).HISTORY 0 = ((List.range 1025).map fun i => [Char.ofNat i])[1023]? ∧
    ((List.range 1025).map fun i => [Char.ofNat i])[1023]? = some [Char.ofNat 1023] ∧
    ((List.range 1025).map fun i => [Char.ofNat i])[1024]? = some [Char.ofNat 1024] ∧
    [Char.ofNat 1023] ≠ [Char.ofNat 1024] :=
  ⟨by simp,
   (history_insert_wraps_one_early ((List.range 1025).map fun i => [Char.ofNat i])
     (by simp)).1,
   by simp, by simp, by decide⟩

/-- A slot of the ring is empty after a run of insertions exactly when it was
empty before and none of the insertions stored into it. -/
theorem history_insert_all_none_iff (lines : List (List Char)) (h : History) (k : Nat) :
    (history_insert_all lines h).HISTORY k = none ↔
      h.HISTORY k = none ∧ k ∉ history_targets lines h := by
  induction lines generalizing h with
  | nil => simp [history_insert_all, history_targets]
  | cons line rest ih =>
    rw [history_insert_all_cons, ih]
    simp only [history_targets, List.mem_cons, not_or, history_insert]
    by_cases hk : k = history_target h
    · simp [hk]
    · simp [hk]

/-- C10: `history_get` sets an error message if and only if the index is
below 0 or at least 1024, and then returns `NULL`; for an index in 0..1023
it leaves the caller's message variable alone and returns the content of
that slot, which in a ring built by insertions from the empty ring is `NULL`
exactly when no insertion stored into the slot. -/
theorem history_get_spec :
    (∀ (index : Int) (h : History),
      (index < 0 ∨ 1024 ≤ index) ↔
        ∃ msg, (history_get index (some none) h).2 = some (some msg)) ∧
    (∀ (index : Int) (h : History) (err : Option (Option String)),
      index < 0 ∨ 1024 ≤ index → (history_get index err h).1 = none) ∧
    (∀ (index : Int) (h : History) (err : Option (Option String)),
      0 ≤ index → index < 1024 → history_get index err h = (h.HISTORY index.toNat, err)) ∧
    ∀ (lines : List (List Char)) (index : Int), 0 ≤ index → index < 1024 →
      ((history_get index (some none) (history_insert_all lines History.fresh)).1 = none ↔
        index.toNat ∉ history_targets lines History.fresh) := by
  have hin : ∀ (index : Int) (h : History) (err : Option (Option String)),
      0 ≤ index → index < 1024 → history_get index err h = (h.HISTORY index.toNat, err) := by
    intro index h err h0 h1
    unfold history_get
    rw [if_neg (by omega), if_neg (by simp only [HISTORY_SIZE]; omega)]
  refine ⟨?_, ?_, hin, ?_⟩
  · intro index h
    constructor
    · rintro (hlt | hge)
      · exact ⟨"History index must be bigger than 0.", by
          unfold history_get; rw [if_pos hlt]; rfl⟩
      · refine ⟨"History index must be smaller than 1024.", ?_⟩
        unfold history_get
        rw [if_neg (by omega), if_pos (by simp only [HISTORY_SIZE]; omega)]
        rfl
    · rintro ⟨msg, hmsg⟩
      by_contra hcon
      rw [hin index h (some none) (by omega) (by omega)] at hmsg
      simp at hmsg
  · intro index h err hout
    unfold history_get
    rcases hout with hlt | hge
    · rw [if_pos hlt]
    · rw [if_neg (by omega), if_pos (by simp only [HISTORY_SIZE]; omega)]
  · intro lines index h0 h1
    rw [hin index _ _ h0 h1, history_insert_all_none_iff]
    simp [History.fresh]

/-- C10 on the ring that holds the two lines `list` and `help`: the indices
-1 and 1024 are rejected with a message, index 1 yields `help` and index 3,
never written, yields `NULL`, both without a message. -/
theorem history_get_spec_witness :
    (∃ msg, (history_get (-1) (some none)
      (history_insert_all ["list".toList, "help".toList] History.fresh)).2 = some (some msg)) ∧
    (history_get 1024 (some none)
      (history_insert_all ["list".toList, "help".toList] History.fresh)).1 = none ∧
    history_get 1 (some none)
      (history_insert_all ["list".toList, "help".toList] History.fresh) =
        ((history_insert_all ["list".toList, "help".toList] History.fresh).HISTORY 1,
          some none) ∧
    (history_insert_all ["list".toList, "help".toList] History.fresh).HISTORY 1 =
      some "help".toList ∧
    (history_get 3 (some none)
      (history_insert_all ["list".toList, "help".toList] History.fresh)).1 = none :=
  ⟨(history_get_spec.1 (-1) _).mp (Or.inl (by decide)),
   history_get_spec.2.1 1024 _ _ (Or.inr (by decide)),
   history_get_spec.2.2.1 1 _ _ (by decide) (by decide),
   by decide,
   (history_get_spec.2.2.2 ["list".toList, "help".toList] 3 (by decide) (by decide)).mpr
     (by decide)⟩

/-- The two facts about the ring that every call of `history_insert` keeps:
the cursor never exceeds `HISTORY_SIZE - 1`, and no slot from index
`HISTORY_SIZE - 1` on holds a line. -/
theorem history_insert_keeps_bounds (command : Option (List Char)) (h : History)
    (hidx : h.history_index ≤ HISTORY_SIZE - 1)
    (hlast : ∀ k, HISTORY_SIZE - 1 ≤ k → h.HISTORY k = none) :
    (history_insert command h).2.history_index ≤ HISTORY_SIZE - 1 ∧
    ∀ k, HISTORY_SIZE - 1 ≤ k → (history_insert command h).2.HISTORY k = none := by
  cases command with
  | none => exact ⟨hidx, hlast⟩
  | some ins =>
    have ht : history_target h < HISTORY_SIZE - 1 := by
      unfold history_target
      split_ifs with h1
      · decide
      · omega
    refine ⟨by simp only [history_insert]; omega, ?_⟩
    intro k hk
    simp only [history_insert]
    rw [if_neg (by omega)]
    exact hlast k hk

theorem history_run_keeps_bounds (commands : List (Option (List Char))) (h : History)
    (hidx : h.history_index ≤ HISTORY_SIZE - 1)
    (hlast : ∀ k, HISTORY_SIZE - 1 ≤ k → h.HISTORY k = none) :
    (history_run commands h).history_index ≤ HISTORY_SIZE - 1 ∧
    ∀ k, HISTORY_SIZE - 1 ≤ k → (history_run commands h).HISTORY k = none := by
  induction commands generalizing h with
  | nil => exact ⟨hidx, hlast⟩
  | cons c cs ih =>
    obtain ⟨h1, h2⟩ := history_insert_keeps_bounds c h hidx hlast
    exact ih _ h1 h2

theorem history_run_fresh_bounds (commands : List (Option (List Char))) :
    (history_run commands History.fresh).history_index ≤ HISTORY_SIZE - 1 ∧
    ∀ k, HISTORY_SIZE - 1 ≤ k → (history_run commands History.fresh).HISTORY k = none :=
  history_run_keeps_bounds commands History.fresh (by decide) (fun _ _ => rfl)

/-- C11: round trip. In every ring reached from the empty ring by calls of
`history_insert`, inserting a non-null line `x` and then reading the slot the
insertion stored into returns `x` and leaves the caller's error variable as
it was. -/
theorem history_insert_get_round_trip (commands : List (Option (List Char)))
    (x : List Char) (err : Option (Option String)) :
    history_get (history_target (history_run commands History.fresh)) err
      (history_insert (some x) (history_run commands History.fresh)).2 = (some x, err) := by
  have hidx := (history_run_fresh_bounds commands).1
  have ht : history_target (history_run commands History.fresh) < HISTORY_SIZE - 1 := by
    unfold history_target
    split_ifs with h1
    · decide
    · omega
  simp only [HISTORY_SIZE] at ht
  unfold history_get
  rw [if_neg (by omega), if_neg (by simp only [HISTORY_SIZE]; omega)]
  simp [history_insert]

/-- C12: `history_insert` returns 0 if and only if the command is `NULL`,
and then the ring (slots and cursor) is the one it was given; for every
non-null line and every ring it returns 1. -/
theorem history_insert_fails_iff_null :
    (∀ (command : Option (List Char)) (h : History),
      (history_insert command h).1 = 0 ↔ command = none) ∧
    (∀ h : History, history_insert none h = (0, h)) ∧
    ∀ (x : List Char) (h : History), (history_insert (some x) h).1 = 1 := by
  refine ⟨?_, fun _ => rfl, fun _ _ => rfl⟩
  intro command h
  cases command with
  | none => simp [history_insert]
  | some x => simp [history_insert]

/-- The indices of the printed lines are the non-empty slots of the scanned
range, in the order of the scan. -/
theorem printed_indices (H : Nat → Option (List Char)) (L : List Nat) :
    (L.filterMap fun i => (H i).map fun line => (i, line)).map Prod.fst =
      L.filter fun i => (H i).isSome := by
  induction L with
  | nil => rfl
  | cons a L ih =>
    cases ha : H a with
    | none => simp [List.filterMap_cons, ha, ih]
    | some l => simp [List.filterMap_cons, ha, ih]

/-- The listing of the slots below `n`, as the loop of `history_print`
builds it. -/
theorem printed_lines (H : Nat → Option (List Char)) (n : Nat) :
    (∀ (i : Nat) (l : List Char),
      (i, l) ∈ ((List.range n).filterMap fun i => (H i).map fun line => (i, line)) ↔
        i < n ∧ H i = some l) ∧
    (((List.range n).filterMap fun i => (H i).map fun line => (i, line)).map
      Prod.fst).Pairwise (fun i j => i < j) ∧
    ((List.range n).filterMap fun i => (H i).map fun line => (i, line)).length =
      ((List.range n).filter fun i => (H i).isSome).length := by
  have hidx := printed_indices H (List.range n)
  refine ⟨?_, ?_, ?_⟩
  · intro i l
    simp only [List.mem_filterMap, List.mem_range, Option.map_eq_some']
    constructor
    · rintro ⟨a, ha, b, hb, hab⟩
      simp only [Prod.mk.injEq] at hab
      obtain ⟨rfl, rfl⟩ := hab
      exact ⟨ha, hb⟩
    · rintro ⟨hi, hl⟩
      exact ⟨i, hi, l, hl, rfl⟩
  · rw [hidx]
    exact List.Pairwise.filter _ (List.pairwise_lt_range _)
  · rw [← List.length_map _ Prod.fst, hidx]

/-- C13: `history_print` writes exactly one line per non-empty slot: a pair
`(i, l)` is printed if and only if `i` is one of the slots 0..1023 and holds
the line `l`; the printed indices are the non-empty slots in strictly
increasing order, so that an empty slot produces nothing and no slot is
printed twice; and the function returns 1. -/
theorem history_print_lists_nonempty_slots (h : History) :
    (∀ (i : Nat) (l : List Char),
      (i, l) ∈ (history_print h).1 ↔ i < HISTORY_SIZE ∧ h.HISTORY i = some l) ∧
    (history_print h).1.map Prod.fst =
      (List.range HISTORY_SIZE).filter (fun i => (h.HISTORY i).isSome) ∧
    ((history_print h).1.map Prod.fst).Pairwise (fun i j => i < j) ∧
    (history_print h).1.length = history_count h ∧
    (history_print h).2 = 1 := by
  unfold history_print history_count
  dsimp only []
  generalize HISTORY_SIZE = n
  exact ⟨(printed_lines h.HISTORY n).1, printed_indices h.HISTORY (List.range n),
    (printed_lines h.HISTORY n).2.1, (printed_lines h.HISTORY n).2.2, rfl⟩

/-- When slot `n` is empty, the slots 0..n hold at most `n` lines. -/
theorem count_le_of_last_empty (H : Nat → Option (List Char)) (n : Nat) (h : H n = none) :
    ((List.range (n + 1)).filter fun i => (H i).isSome).length ≤ n := by
  rw [List.range_succ, List.filter_append]
  simp only [List.filter_cons, h, Option.isSome_none, List.filter_nil, List.append_nil]
  have hle := List.length_filter_le (fun i => (H i).isSome) (List.range n)
  rw [List.length_range] at hle
  simpa using hle

/-- C20: in every ring reached from the empty ring by calls of
`history_insert`, the cursor is at most 1023 and slot 1023 is empty, so the
ring holds at most 1023 lines and `history_get(1023)` returns `NULL` without
an error. -/
theorem history_last_slot_never_written (commands : List (Option (List Char))) :
    (history_run commands History.fresh).history_index ≤ 1023 ∧
    (history_run commands History.fresh).HISTORY 1023 = none ∧
    history_count (history_run commands History.fresh) ≤ 1023 ∧
    ∀ err : Option (Option String),
      history_get 1023 err (history_run commands History.fresh) = (none, err) := by
  obtain ⟨hidx, hlast⟩ := history_run_fresh_bounds commands
  have h1023 : (history_run commands History.fresh).HISTORY 1023 = none :=
    hlast 1023 (by simp [HISTORY_SIZE])
  simp only [HISTORY_SIZE] at hidx
  refine ⟨hidx, h1023, ?_, ?_⟩
  · have hle := count_le_of_last_empty (history_run commands History.fresh).HISTORY 1023 h1023
    have hsize : HISTORY_SIZE = 1023 + 1 := rfl
    rw [history_count, hsize]
    exact hle
  · intro err
    unfold history_get
    rw [if_neg (by omega), if_neg (by simp [HISTORY_SIZE])]
    simp [h1023]

/-! ## Theorems: registry -/

/-- C17: in the command registry the long names are pairwise distinct, the
short aliases that are present are pairwise distinct, and no short alias
equals a long name. -/
theorem registry_names_distinct :
    (COMMANDS.map fun c => c.command).Nodup ∧
    (COMMANDS.filterMap fun c => c.short_command).Nodup ∧
    ∀ c ∈ COMMANDS, ∀ d ∈ COMMANDS, c.short_command ≠ some d.command := by
  decide

/-- C17 at the entries `add` and `list`: the alias `a` is not the name
`list`. -/
theorem registry_names_distinct_witness :
    (mk_cmd "add" (some "a") .cli_add .TODOS).short_command ≠
      some (mk_cmd "list" (some "l") .cli_list .TODOS).command :=
  registry_names_distinct.2.2 (mk_cmd "add" (some "a") .cli_add .TODOS) (by decide)
    (mk_cmd "list" (some "l") .cli_list .TODOS) (by decide)

/-! ## Theorems: non-interactive mode -/

theorem parse_command_val_add (v : Option String) :
    parse_command_val v = .ADD_TODO ↔ v = some "add" := by
  cases v with
  | none => simp [parse_command_val]
  | some x =>
    simp only [parse_command_val, Option.some.injEq]
    split_ifs with h1 h2 <;> simp [h1]

theorem parse_command_val_erase (v : Option String) :
    parse_command_val v = .ERASE ↔ v = some "erase" := by
  cases v with
  | none => simp [parse_command_val]
  | some x =>
    simp only [parse_command_val, Option.some.injEq]
    split_ifs with h1 h2
    · simp [h1]
    · simp [h2]
    · simp [h2]

/-- What the option loop of `args_parse` computes. -/
theorem args_parse_loop_spec (opts : List Getopt) (args : args_t) :
    ((args_parse_loop opts args).1 = 0 ↔ Getopt.unknown ∉ opts) ∧
    (Getopt.unknown ∉ opts →
      ((args_parse_loop opts args).2.show_help = true ↔
        args.show_help = true ∨ Getopt.h ∈ opts) ∧
      (args_parse_loop opts args).2.command =
        match last_command_value opts with
        | some v => parse_command_val v
        | none => args.command) := by
  induction opts generalizing args with
  | nil => simp [args_parse_loop, last_command_value]
  | cons o rest ih =>
    cases o with
    | c optarg =>
      obtain ⟨h1, h2⟩ := ih { args with command := parse_command_val optarg }
      refine ⟨by simpa [args_parse_loop] using h1, ?_⟩
      intro hu
      obtain ⟨h3, h4⟩ := h2 (fun h => hu (List.mem_cons_of_mem _ h))
      refine ⟨by simpa [args_parse_loop] using h3, ?_⟩
      simp only [args_parse_loop, last_command_value, h4]
      cases last_command_value rest <;> rfl
    | t optarg =>
      obtain ⟨h1, h2⟩ := ih { args with title := some optarg }
      refine ⟨by simpa [args_parse_loop] using h1, ?_⟩
      intro hu
      obtain ⟨h3, h4⟩ := h2 (fun h => hu (List.mem_cons_of_mem _ h))
      exact ⟨by simpa [args_parse_loop] using h3,
        by simpa [args_parse_loop, last_command_value] using h4⟩
    | h =>
      obtain ⟨h1, h2⟩ := ih { args with show_help := true }
      refine ⟨by simpa [args_parse_loop] using h1, ?_⟩
      intro hu
      obtain ⟨h3, h4⟩ := h2 (fun h => hu (List.mem_cons_of_mem _ h))
      exact ⟨by simp [args_parse_loop, h3],
        by simpa [args_parse_loop, last_command_value] using h4⟩
    | unknown => simp [args_parse_loop]

/-- C18: `ninac_run` returns 0 exactly when `args_parse` succeeds and either
`-h` was given, or the command is `add` and `storage_new_todo` reports no
error, or the command is `erase` and `storage_erase` reports no error; in
every other case it returns 1. Parsing succeeds exactly when there is at
least one argument (`argc` is not 1) and `getopt` rejects none; the command
is the value of the last `-c`, which must be exactly `add` or `erase`. -/
theorem ninac_run_exit_code (argc : Int) (opts : List Getopt)
    (storage_new_todo : Option String → STORAGE_ERR_CODE)
    (storage_erase : STORAGE_ERR_CODE) :
    (ninac_run argc opts storage_new_todo storage_erase = 0 ↔
      (args_parse argc opts args_zero).1 = 0 ∧
      ((args_parse argc opts args_zero).2.show_help = true ∨
        ((args_parse argc opts args_zero).2.command = .ADD_TODO ∧
          storage_new_todo (args_parse argc opts args_zero).2.title = .STORAGE_NO_ERROR) ∨
        ((args_parse argc opts args_zero).2.command = .ERASE ∧
          storage_erase = .STORAGE_NO_ERROR))) ∧
    (ninac_run argc opts storage_new_todo storage_erase ≠ 0 →
      ninac_run argc opts storage_new_todo storage_erase = 1) ∧
    ((args_parse argc opts args_zero).1 = 0 ↔ argc ≠ 1 ∧ Getopt.unknown ∉ opts) ∧
    ((args_parse argc opts args_zero).1 = 0 →
      ((args_parse argc opts args_zero).2.show_help = true ↔ Getopt.h ∈ opts) ∧
      ((args_parse argc opts args_zero).2.command = .ADD_TODO ↔
        last_command_value opts = some (some "add")) ∧
      ((args_parse argc opts args_zero).2.command = .ERASE ↔
        last_command_value opts = some (some "erase"))) := by
  have hparse : (args_parse argc opts args_zero).1 = 0 ↔ argc ≠ 1 ∧ Getopt.unknown ∉ opts := by
    unfold args_parse
    split_ifs with h1
    · simp [h1]
    · simp [h1, (args_parse_loop_spec opts args_zero).1]
  have hrun : ninac_run argc opts storage_new_todo storage_erase =
      if (args_parse argc opts args_zero).1 ≠ 0 then EXIT_FAILURE
      else if (args_parse argc opts args_zero).2.show_help = true then EXIT_SUCCESS
      else match (args_parse argc opts args_zero).2.command with
        | .ADD_TODO =>
          if storage_new_todo (args_parse argc opts args_zero).2.title ≠ .STORAGE_NO_ERROR
          then EXIT_FAILURE else EXIT_SUCCESS
        | .ERASE => if storage_erase ≠ .STORAGE_NO_ERROR then EXIT_FAILURE else EXIT_SUCCESS
        | .NONE => EXIT_FAILURE := rfl
  refine ⟨?_, ?_, hparse, ?_⟩
  · rw [hrun]
    generalize args_parse argc opts args_zero = r
    obtain ⟨p, a⟩ := r
    by_cases hp : p = 0
    · by_cases hh : a.show_help = true
      · simp [hp, hh, EXIT_SUCCESS]
      · cases hc : a.command <;>
          simp [hp, hh, hc, EXIT_SUCCESS, EXIT_FAILURE]
    · simp [hp, EXIT_FAILURE]
  · rw [hrun]
    generalize args_parse argc opts args_zero = r
    obtain ⟨p, a⟩ := r
    by_cases hp : p = 0
    · by_cases hh : a.show_help = true
      · simp [hp, hh, EXIT_SUCCESS]
      · cases hc : a.command
        · simp [hp, hh, EXIT_FAILURE]
        · by_cases hs : storage_new_todo a.title = .STORAGE_NO_ERROR <;>
            simp [hp, hh, hs, EXIT_SUCCESS, EXIT_FAILURE]
        · by_cases hs : storage_erase = .STORAGE_NO_ERROR <;>
            simp [hp, hh, hs, EXIT_SUCCESS, EXIT_FAILURE]
    · simp [hp, EXIT_FAILURE]
  · intro hok
    obtain ⟨hargc, hu⟩ := hparse.mp hok
    obtain ⟨h3, h4⟩ := (args_parse_loop_spec opts args_zero).2 hu
    have heq : args_parse argc opts args_zero = args_parse_loop opts args_zero := by
      unfold args_parse; rw [if_neg hargc]
    rw [heq]
    refine ⟨by simpa [args_zero] using h3, ?_, ?_⟩
    · rw [h4]
      cases hl : last_command_value opts with
      | none => simp [args_zero]
      | some v => simp [parse_command_val_add]
    · rw [h4]
      cases hl : last_command_value opts with
      | none => simp [args_zero]
      | some v => simp [parse_command_val_erase]

/-- C18 on four command lines: `-c add -t milk` with a storage that accepts
(exit code 0) and with one that fails (1), `-h -c bogus` (0), `-c bogus`
(1) and a line `getopt` rejects (1). -/
theorem ninac_run_exit_code_witness :
    ninac_run 5 [.c (some "add"), .t "milk"]
      (fun _ => .STORAGE_NO_ERROR) .STORAGE_NO_ERROR = 0 ∧
    ninac_run 5 [.c (some "add"), .t "milk"]
      (fun _ => .STORAGE_ERROR) .STORAGE_NO_ERROR = 1 ∧
    ((args_parse 4 [.h, .c (some "bogus")] args_zero).2.show_help = true ↔
      Getopt.h ∈ [Getopt.h, .c (some "bogus")]) ∧
    ninac_run 3 [.c (some "bogus")] (fun _ => .STORAGE_NO_ERROR) .STORAGE_NO_ERROR = 1 ∧
    ninac_run 2 [.unknown] (fun _ => .STORAGE_NO_ERROR) .STORAGE_NO_ERROR = 1 :=
  ⟨(ninac_run_exit_code 5 [.c (some "add"), .t "milk"]
      (fun _ => .STORAGE_NO_ERROR) .STORAGE_NO_ERROR).1.mpr (by decide),
   (ninac_run_exit_code 5 [.c (some "add"), .t "milk"]
      (fun _ => .STORAGE_ERROR) .STORAGE_NO_ERROR).2.1 (by decide),
   ((ninac_run_exit_code 4 [.h, .c (some "bogus")]
      (fun _ => .STORAGE_NO_ERROR) .STORAGE_NO_ERROR).2.2.2 (by decide)).1,
   (ninac_run_exit_code 3 [.c (some "bogus")]
      (fun _ => .STORAGE_NO_ERROR) .STORAGE_NO_ERROR).2.1 (by decide),
   (ninac_run_exit_code 2 [.unknown]
      (fun _ => .STORAGE_NO_ERROR) .STORAGE_NO_ERROR).2.1 (by decide)⟩

/-! ## Theorems: dispatch -/

/-- Recording a line never fails: the line is non-null. -/
theorem record_line_eq (cmdstr : List Char) (s : Session) :
    record_line cmdstr s =
      { s with history := (history_insert (some cmdstr) s.history).2 } := by
  simp [record_line, history_insert]

/-- A line that resolves to an entry with a handler is dispatched by calling
the handler and, if the handler returns, recording the line. -/
theorem dispatch_resolved (E : CLI_ERROR) (depth : Nat) (cmdstr : List Char) (s : Session)
    (issued : command_t) (func : Handler)
    (herr : (cli_is_valid_cmd E (some cmdstr) s.COMMANDS).error = E.NO_ERROR)
    (hiss : (cli_is_valid_cmd E (some cmdstr) s.COMMANDS).issued = some issued)
    (hfunc : issued.func = some func) :
    cli_execute_cmdstr E (depth + 1) cmdstr s =
      match call_handler (cli_execute_cmdstr E depth) func issued cmdstr
          (handler_entry E func issued cmdstr s) with
      | some (.returned s') => some (.returned (record_line cmdstr s'))
      | other => other := by
  have hfst : ∀ h : History, (history_insert (some cmdstr) h).1 = 1 := fun _ => rfl
  rw [cli_execute_cmdstr]
  simp only [herr, ne_eq, not_true_eq_false, if_false, hiss, hfunc]
  cases func <;>
    simp only [call_handler, handler_entry, record_line, hfst, one_ne_zero, if_false]
  by_cases h1 : (cli_parse_cmd (some issued) (some cmdstr) 1
      (some fun _ => zeroed BUFLEN_HISTORY_INDEX) (fun _ => BUFLEN_HISTORY_INDEX)).ret = -1
  · simp only [h1, if_true]
  · simp only [h1, if_false]
    split <;> rfl

/-- C15: a line that fails command resolution leaves the history ring as it
was: `cli_execute_cmdstr` reports the error and returns, with every slot and
the write cursor unchanged. -/
theorem cli_execute_cmdstr_invalid_keeps_history (E : CLI_ERROR) (depth : Nat)
    (line : List Char) (s : Session)
    (hfail : (cli_is_valid_cmd E (some line) s.COMMANDS).error ≠ E.NO_ERROR) :
    ∃ s', cli_execute_cmdstr E (depth + 1) line s = some (.returned s') ∧
      s'.history = s.history ∧
      s'.events = s.events ++
        [.invalid_command (cli_is_valid_cmd E (some line) s.COMMANDS).error] := by
  refine ⟨{ COMMANDS := (cli_is_valid_cmd E (some line) s.COMMANDS).COMMANDS
            history := s.history
            events := s.events ++
              [.invalid_command (cli_is_valid_cmd E (some line) s.COMMANDS).error] },
    ?_, rfl, rfl⟩
  rw [cli_execute_cmdstr]
  simp only [hfail, ne_eq, not_false_eq_true, if_true]

/-- C15 after the two commands `list` and `help`: the unknown line `lst`
leaves the ring with its two lines and the cursor at 2. -/
theorem cli_execute_cmdstr_invalid_keeps_history_witness :
    ∃ s', cli_execute_cmdstr ⟨1, 0⟩ 1 "lst".toList
        { Session.start with
          history := history_insert_all ["list".toList, "help".toList] History.fresh } =
          some (.returned s') ∧
      s'.history = history_insert_all ["list".toList, "help".toList] History.fresh ∧
      s'.events = [.invalid_command 0] :=
  cli_execute_cmdstr_invalid_keeps_history ⟨1, 0⟩ 0 "lst".toList
    { Session.start with
      history := history_insert_all ["list".toList, "help".toList] History.fresh }
    (by decide)

/-- C14: when a line resolves to an entry with a handler and the handler
returns (which the handler of `exit` and `quit` never does), then
`cli_execute_cmdstr` returns with the session the handler left, changed only
in that `history_insert` has been applied with the raw line to the ring the
handler left. No handler reports its outcome to `cli_execute_cmdstr`, so the
line is recorded whether the handler succeeded or printed an error. Every
handler but `cli_history_exec` leaves the ring as it found it. -/
theorem cli_execute_cmdstr_records_line (E : CLI_ERROR) (depth : Nat) (line : List Char)
    (s : Session) (issued : command_t) (func : Handler) (s' : Session)
    (herr : (cli_is_valid_cmd E (some line) s.COMMANDS).error = E.NO_ERROR)
    (hiss : (cli_is_valid_cmd E (some line) s.COMMANDS).issued = some issued)
    (hfunc : issued.func = some func)
    (hret : call_handler (cli_execute_cmdstr E depth) func issued line
      (handler_entry E func issued line s) = some (.returned s')) :
    cli_execute_cmdstr E (depth + 1) line s =
      some (.returned { s' with history := (history_insert (some line) s'.history).2 }) ∧
    func ≠ .cli_exit ∧
    (func ≠ .cli_history_exec → s'.history = s.history) := by
  refine ⟨?_, ?_, ?_⟩
  · rw [dispatch_resolved E depth line s issued func herr hiss hfunc, hret]
    simp only [record_line_eq]
  · intro h
    subst h
    simp [call_handler] at hret
  · intro hne
    cases func <;> simp only [call_handler, handler_entry, Option.some.injEq,
      Outcome.returned.injEq] at hret <;> first
      | exact absurd rfl hne
      | (rw [← hret])
      | exact absurd hret (by simp)

/-- C14 at the first line of a session, `list done`: the handler `cli_list`
returns and the line goes to slot 0. -/
theorem cli_execute_cmdstr_records_line_witness :
    cli_execute_cmdstr ⟨1, 0⟩ 1 "list done".toList Session.start =
      some (.returned
        { handler_entry ⟨1, 0⟩ .cli_list (mk_cmd "list" (some "l") .cli_list .TODOS)
            "list done".toList Session.start with
          history := (history_insert (some "list done".toList) History.fresh).2 }) ∧
    (history_insert (some "list done".toList) History.fresh).2.HISTORY 0 =
      some "list done".toList :=
  ⟨(cli_execute_cmdstr_records_line ⟨1, 0⟩ 0 "list done".toList Session.start
      (mk_cmd "list" (some "l") .cli_list .TODOS) .cli_list
      (handler_entry ⟨1, 0⟩ .cli_list (mk_cmd "list" (some "l") .cli_list .TODOS)
        "list done".toList Session.start)
      (by decide) (by decide) rfl rfl).1,
   by decide⟩

/-! ### The registry of a session -/

theorem clear_flags_set (cmds : List command_t) (i : Nat) (flag : Bool) :
    clear_flags (set_short_cmd_active cmds i flag) = clear_flags cmds := by
  induction cmds generalizing i with
  | nil => simp [set_short_cmd_active, clear_flags]
  | cons c cs ih =>
    cases i with
    | zero => simp [set_short_cmd_active, clear_flags]
    | succ i =>
      have := ih i
      simp only [set_short_cmd_active, clear_flags, List.modify_succ_cons, List.map_cons] at this ⊢
      rw [this]

/-- The scan of the table does not look at the transient flags. -/
theorem loop_clear_flags (line : List Char) (cmds : List command_t) (k : Nat) :
    cli_is_valid_cmd_loop line (clear_flags cmds) k = cli_is_valid_cmd_loop line cmds k := by
  induction cmds generalizing k with
  | nil => rfl
  | cons c cs ih =>
    have := ih (k + 1)
    simp only [clear_flags, List.map_cons, cli_is_valid_cmd_loop] at this ⊢
    rw [this]

/-- The scan of the table depends on the line through its token only. -/
theorem loop_token_congr (l1 l2 : List Char) (cmds : List command_t) (k : Nat)
    (h : scan_buf l1 0 = scan_buf l2 0) :
    cli_is_valid_cmd_loop l1 cmds k = cli_is_valid_cmd_loop l2 cmds k := by
  induction cmds generalizing k with
  | nil => rfl
  | cons c cs ih => simp only [cli_is_valid_cmd_loop, h, ih (k + 1)]

/-- Where the scan of the table stops, the entry carries the token: as its
long name when the flag is cleared, as its short alias when it is set. -/
theorem loop_some_spec (line : List Char) (cmds : List command_t) (k i : Nat) (flag : Bool)
    (h : cli_is_valid_cmd_loop line cmds k = some (i, flag)) :
    ∃ c, k ≤ i ∧ cmds[i - k]? = some c ∧
      ((flag = false ∧ c.command = scan_buf line 0) ∨
        (flag = true ∧ c.short_command = some (scan_buf line 0))) := by
  induction cmds generalizing k with
  | nil => simp [cli_is_valid_cmd_loop] at h
  | cons c cs ih =>
    simp only [cli_is_valid_cmd_loop] at h
    split_ifs at h with h1 h2
    · simp only [Option.some.injEq, Prod.mk.injEq] at h
      obtain ⟨rfl, rfl⟩ := h
      exact ⟨c, Nat.le_refl _, by simp, Or.inl ⟨rfl, h1.symm⟩⟩
    · simp only [Option.some.injEq, Prod.mk.injEq] at h
      obtain ⟨rfl, rfl⟩ := h
      exact ⟨c, Nat.le_refl _, by simp, Or.inr ⟨rfl, h2⟩⟩
    · obtain ⟨d, hle, hd, hor⟩ := ih (k + 1) h
      refine ⟨d, by omega, ?_, hor⟩
      have : i - k = (i - (k + 1)) + 1 := by omega
      rw [this, List.getElem?_cons_succ]
      exact hd

/-- In a session that keeps the registry, a line resolves as it does in
`COMMANDS`, and the entry handed to the handler is the registry entry with
the flag the resolver gave it. -/
theorem resolve_in_registry (E : CLI_ERROR) (line : List Char) (cmds : List command_t)
    (i : Nat) (flag : Bool) (c : command_t) (hreg : clear_flags cmds = COMMANDS)
    (hloop : cli_is_valid_cmd_loop line COMMANDS 0 = some (i, flag))
    (hc : COMMANDS[i]? = some c) :
    (cli_is_valid_cmd E (some line) cmds).error = E.NO_ERROR ∧
    (cli_is_valid_cmd E (some line) cmds).COMMANDS = set_short_cmd_active cmds i flag ∧
    (cli_is_valid_cmd E (some line) cmds).issued =
      some { c with short_cmd_active := flag } := by
  have hl : cli_is_valid_cmd_loop line cmds 0 = some (i, flag) := by
    rw [← loop_clear_flags, hreg, hloop]
  have hr : cli_is_valid_cmd E (some line) cmds =
      { error := E.NO_ERROR, result := some i,
        COMMANDS := set_short_cmd_active cmds i flag } := by
    simp only [cli_is_valid_cmd, hl]
  rw [hr]
  refine ⟨rfl, rfl, ?_⟩
  simp only [Resolution.issued, set_short_cmd_active, List.getElem?_modify_eq]
  have hci : (clear_flags cmds)[i]? = some c := by rw [hreg, hc]
  simp only [clear_flags, List.getElem?_map] at hci
  cases hx : cmds[i]? with
  | none => rw [hx] at hci; simp at hci
  | some c0 =>
    rw [hx] at hci
    simp only [Option.map_some', Option.some.injEq] at hci
    rw [← hci]
    rfl

/-- The dispatch of a line that resolves to a handler other than `cli_exit`
and `cli_history_exec`, in a session that keeps the registry. -/
theorem dispatch_simple (E : CLI_ERROR) (depth : Nat) (line : List Char) (s : Session)
    (i : Nat) (flag : Bool) (c : command_t) (f : Handler)
    (hreg : clear_flags s.COMMANDS = COMMANDS)
    (hloop : cli_is_valid_cmd_loop line COMMANDS 0 = some (i, flag))
    (hc : COMMANDS[i]? = some c) (hf : c.func = some f)
    (hne1 : f ≠ .cli_exit) (hne2 : f ≠ .cli_history_exec) :
    cli_execute_cmdstr E (depth + 1) line s =
      some (.returned
        (after_simple f { c with short_cmd_active := flag } line i flag s)) := by
  obtain ⟨herr, hcmds, hiss⟩ := resolve_in_registry E line s.COMMANDS i flag c hreg hloop hc
  rw [dispatch_resolved E depth line s { c with short_cmd_active := flag } f herr hiss hf]
  cases f <;>
    simp [call_handler, handler_entry, record_line_eq, after_simple, hcmds] at hne1 hne2 ⊢

theorem bang_resolves :
    cli_is_valid_cmd_loop "!".toList COMMANDS 0 = some (20, false) ∧
    COMMANDS[20]? = some bang ∧ scan_buf "!".toList 0 = "!".toList := by
  decide

theorem replay_zero_parsed :
    (cli_parse_cmd (some bang) (some "! 0".toList) 1
      (some fun _ => zeroed BUFLEN_HISTORY_INDEX) (fun _ => BUFLEN_HISTORY_INDEX)).ret = 1 ∧
    atoi (cstr ((cli_parse_cmd (some bang) (some "! 0".toList) 1
      (some fun _ => zeroed BUFLEN_HISTORY_INDEX)
      (fun _ => BUFLEN_HISTORY_INDEX)).buffers 0)) = 0 ∧
    scan_buf "! 0".toList 0 = "!".toList := by
  decide

/-- The dispatch of a line with the token `!`, in a session that keeps the
registry: the handler is `cli_history_exec`, called with the entry of `!`. -/
theorem dispatch_bang (E : CLI_ERROR) (depth : Nat) (line : List Char) (s : Session)
    (hreg : clear_flags s.COMMANDS = COMMANDS) (htok : scan_buf line 0 = "!".toList) :
    cli_execute_cmdstr E (depth + 1) line s =
      match call_handler (cli_execute_cmdstr E depth) .cli_history_exec bang line
          { COMMANDS := set_short_cmd_active s.COMMANDS 20 false
            history := s.history
            events := s.events ++ [.handler .cli_history_exec bang line] } with
      | some (.returned s') => some (.returned (record_line line s'))
      | other => other := by
  have hloop : cli_is_valid_cmd_loop line COMMANDS 0 = some (20, false) := by
    rw [loop_token_congr line "!".toList COMMANDS 0 (by rw [htok, bang_resolves.2.2])]
    exact bang_resolves.1
  obtain ⟨herr, hcmds, hiss⟩ :=
    resolve_in_registry E line s.COMMANDS 20 false bang hreg hloop bang_resolves.2.1
  rw [dispatch_resolved E depth line s bang .cli_history_exec herr hiss rfl]
  simp only [handler_entry, hcmds]

/-- What `cli_history_exec` does with the line it replays. -/
theorem call_handler_history_exec (exec : List Char → Session → Option Outcome)
    (issued : command_t) (line : List Char) (s : Session) :
    (∀ x, replayed_line issued line s.history = some x →
      call_handler exec .cli_history_exec issued line s = exec x s) ∧
    (replayed_line issued line s.history = none →
      ∃ s', call_handler exec .cli_history_exec issued line s = some (.returned s') ∧
        s'.history = s.history ∧ s'.COMMANDS = s.COMMANDS) := by
  simp only [replayed_line, call_handler]
  by_cases h1 : (cli_parse_cmd (some issued) (some line) 1
      (some fun _ => zeroed BUFLEN_HISTORY_INDEX) (fun _ => BUFLEN_HISTORY_INDEX)).ret = -1
  · simp only [h1, if_true]
    exact ⟨fun x hx => by simp at hx, fun _ => ⟨s, rfl, rfl, rfl⟩⟩
  · simp only [h1, if_false]
    generalize history_get _ _ s.history = g
    obtain ⟨r, e⟩ := g
    cases r with
    | some x =>
      refine ⟨fun y hy => ?_, fun hn => by simp at hn⟩
      simp only [Option.some.injEq] at hy
      subst hy
      rfl
    | none =>
      refine ⟨fun y hy => by simp at hy, fun _ => ?_⟩
      cases e with
      | none => exact ⟨s, rfl, rfl, rfl⟩
      | some e =>
        cases e with
        | none => exact ⟨s, rfl, rfl, rfl⟩
        | some msg => exact ⟨_, rfl, rfl, rfl⟩

/-- A ring whose non-empty slots are exactly the first `n` holds `n` lines. -/
theorem count_of_prefix (H : Nat → Option (List Char)) (n N : Nat)
    (hH : ∀ k, (H k).isSome = true ↔ k < n) :
    ((List.range N).filter fun i => (H i).isSome).length = min n N := by
  induction N with
  | zero => simp
  | succ N ih =>
    rw [List.range_succ, List.filter_append, List.length_append, ih]
    by_cases hN : N < n
    · have : (H N).isSome = true := (hH N).mpr hN
      simp only [List.filter_cons, this, if_true, List.filter_nil, List.length_singleton]
      omega
    · have : (H N).isSome = false := by
        cases hb : (H N).isSome with
        | false => rfl
        | true => exact absurd ((hH N).mp hb) hN
      simp only [List.filter_cons, this, Bool.false_eq_true, if_false, List.filter_nil,
        List.length_nil]
      omega

theorem history_count_of_prefix (h : History) (n : Nat) (hn : n ≤ HISTORY_SIZE)
    (hH : ∀ k, (h.HISTORY k).isSome = true ↔ k < n) : history_count h = n := by
  rw [history_count, count_of_prefix h.HISTORY n HISTORY_SIZE hH]
  omega

/-- The first command of a session followed by `! 0`. When the first line
resolves to a handler other than `cli_exit` and `cli_history_exec`, it is
recorded in slot 0; `! 0` then runs that line again through a nested
dispatch, which records it in slot 1, and is itself recorded in slot 2. -/
theorem replay_after_one_command (E : CLI_ERROR) (d : Nat) (l : List Char) (i : Nat)
    (flag : Bool) (c : command_t) (f : Handler)
    (hloop : cli_is_valid_cmd_loop l COMMANDS 0 = some (i, flag))
    (hc : COMMANDS[i]? = some c) (hf : c.func = some f)
    (hne1 : f ≠ .cli_exit) (hne2 : f ≠ .cli_history_exec) :
    ∃ s1 s2 : Session,
      cli_execute_cmdstr E (d + 1) l Session.start = some (.returned s1) ∧
      s1.history.HISTORY 0 = some l ∧ history_count s1.history = 1 ∧
      cli_execute_cmdstr E (d + 2) "! 0".toList s1 = some (.returned s2) ∧
      s2.events = s1.events ++
        ([.handler .cli_history_exec bang "! 0".toList,
          .handler f { c with short_cmd_active := flag } l] ++
          if f = .cli_history then [.history_listing (history_print s1.history).1] else []) ∧
      s2.history.HISTORY 0 = some l ∧ s2.history.HISTORY 1 = some l ∧
      s2.history.HISTORY 2 = some "! 0".toList ∧ s2.history.history_index = 3 ∧
      history_count s2.history = history_count s1.history + 2 := by
  have hreg0 : clear_flags Session.start.COMMANDS = COMMANDS := by decide
  have h1 := dispatch_simple E d l Session.start i flag c f hreg0 hloop hc hf hne1 hne2
  have hreg1 : clear_flags
      (after_simple f { c with short_cmd_active := flag } l i flag Session.start).COMMANDS =
        COMMANDS := by
    simp only [after_simple, clear_flags_set]
    exact hreg0
  have hslot0 : (after_simple f { c with short_cmd_active := flag } l i flag
      Session.start).history.HISTORY 0 = some l := by
    simp [after_simple, history_insert, history_target, History.fresh, Session.start,
      HISTORY_SIZE]
  have hrep : replayed_line bang "! 0".toList
      (after_simple f { c with short_cmd_active := flag } l i flag Session.start).history =
        some l := by
    simp only [replayed_line, replay_zero_parsed.1, replay_zero_parsed.2.1]
    rw [if_neg (by decide)]
    simp only [history_get]
    rw [if_neg (by decide), if_neg (by decide)]
    exact hslot0
  have h2 := dispatch_bang E (d + 1) "! 0".toList _ hreg1 replay_zero_parsed.2.2
  have hcall := (call_handler_history_exec (cli_execute_cmdstr E (d + 1)) bang "! 0".toList
    { COMMANDS := set_short_cmd_active
        (after_simple f { c with short_cmd_active := flag } l i flag Session.start).COMMANDS
        20 false
      history :=
        (after_simple f { c with short_cmd_active := flag } l i flag Session.start).history
      events :=
        (after_simple f { c with short_cmd_active := flag } l i flag Session.start).events ++
          [.handler .cli_history_exec bang "! 0".toList] }).1 l hrep
  rw [hcall, dispatch_simple E d l _ i flag c f
      (by simp only [clear_flags_set]; exact hreg1) hloop hc hf hne1 hne2] at h2
  refine ⟨_, _, h1, hslot0, ?_, h2, ?_, ?_, ?_, ?_, ?_, ?_⟩
  · apply history_count_of_prefix _ 1 (by decide)
    intro k
    by_cases hk : k = 0 <;>
      simp [after_simple, history_insert, history_target, History.fresh, Session.start,
        HISTORY_SIZE, hk]
  · simp [record_line_eq, after_simple]
  · simp [record_line_eq, after_simple, history_insert, history_target, History.fresh,
      Session.start, HISTORY_SIZE]
  · simp [record_line_eq, after_simple, history_insert, history_target, History.fresh,
      Session.start, HISTORY_SIZE]
  · simp [record_line_eq, after_simple, history_insert, history_target, History.fresh,
      Session.start, HISTORY_SIZE]
  · simp [record_line_eq, after_simple, history_insert, history_target, History.fresh,
      Session.start, HISTORY_SIZE]
  · have hc1 : history_count
        (after_simple f { c with short_cmd_active := flag } l i flag Session.start).history =
          1 := by
      apply history_count_of_prefix _ 1 (by decide)
      intro k
      by_cases hk : k = 0 <;>
        simp [after_simple, history_insert, history_target, History.fresh, Session.start,
          HISTORY_SIZE, hk]
    rw [hc1]
    apply history_count_of_prefix _ 3 (by decide)
    intro k
    by_cases hk2 : k = 2
    · simp [record_line_eq, after_simple, history_insert, history_target, History.fresh,
        Session.start, HISTORY_SIZE, hk2]
    · by_cases hk1 : k = 1
      · simp [record_line_eq, after_simple, history_insert, history_target, History.fresh,
          Session.start, HISTORY_SIZE, hk1]
      · by_cases hk0 : k = 0
        · simp [record_line_eq, after_simple, history_insert, history_target,
            History.fresh, Session.start, HISTORY_SIZE, hk0]
        · simp [record_line_eq, after_simple, history_insert, history_target,
            History.fresh, Session.start, HISTORY_SIZE, hk0, hk1, hk2]
          omega

/-- C16 as stated fails: after the one command `help`, the ring holds one
line; the dispatch of `! 0` leaves it with three, not two. -/
theorem replay_zero_grows_history_by_two :
    ∃ s1 s2 : Session,
      cli_execute_cmdstr ⟨1, 0⟩ 1 "help".toList Session.start = some (.returned s1) ∧
      history_count s1.history = 1 ∧
      cli_execute_cmdstr ⟨1, 0⟩ 2 "! 0".toList s1 = some (.returned s2) ∧
      history_count s2.history = 3 := by
  obtain ⟨s1, s2, h1, _, hc1, h2, _, _, _, _, _, hc2⟩ :=
    replay_after_one_command ⟨1, 0⟩ 0 "help".toList 9 false
      (mk_cmd "help" (some "h") .cli_print_help .MISC) .cli_print_help
      (by decide) (by decide) rfl (by decide) (by decide)
  exact ⟨s1, s2, h1, hc1, h2, by rw [hc2, hc1]⟩

/-- C16 (amended): in a session where exactly one valid command has been
executed, a line `l` that resolves to a handler other than `cli_exit` and
`cli_history_exec` and so sits in slot 0, the dispatch of `! 0` calls
`cli_history_exec` and, nested in it, the handler of `l` for exactly that
stored line, and the number of stored history entries grows by exactly two:
the nested dispatch records `l` in slot 1 and the outer one records `! 0` in
slot 2. -/
theorem replay_zero_appends_two_lines (E : CLI_ERROR) (d : Nat) (l : List Char) (i : Nat)
    (flag : Bool) (c : command_t) (f : Handler)
    (hloop : cli_is_valid_cmd_loop l COMMANDS 0 = some (i, flag))
    (hc : COMMANDS[i]? = some c) (hf : c.func = some f)
    (hne1 : f ≠ .cli_exit) (hne2 : f ≠ .cli_history_exec) :
    ∃ s1 s2 : Session,
      cli_execute_cmdstr E (d + 1) l Session.start = some (.returned s1) ∧
      s1.history.HISTORY 0 = some l ∧ history_count s1.history = 1 ∧
      cli_execute_cmdstr E (d + 2) "! 0".toList s1 = some (.returned s2) ∧
      s2.events = s1.events ++
        ([.handler .cli_history_exec bang "! 0".toList,
          .handler f { c with short_cmd_active := flag } l] ++
          if f = .cli_history then [.history_listing (history_print s1.history).1] else []) ∧
      s2.history.HISTORY 0 = some l ∧ s2.history.HISTORY 1 = some l ∧
      s2.history.HISTORY 2 = some "! 0".toList ∧ s2.history.history_index = 3 ∧
      history_count s2.history = history_count s1.history + 2 :=
  replay_after_one_command E d l i flag c f hloop hc hf hne1 hne2

/-- C16 (amended) for the first line `l open` of a session, the short form
of `list`. -/
theorem replay_zero_appends_two_lines_witness :
    ∃ s1 s2 : Session,
      cli_execute_cmdstr ⟨1, 0⟩ 1 "l open".toList Session.start = some (.returned s1) ∧
      s1.history.HISTORY 0 = some "l open".toList ∧ history_count s1.history = 1 ∧
      cli_execute_cmdstr ⟨1, 0⟩ 2 "! 0".toList s1 = some (.returned s2) ∧
      s2.events = s1.events ++
        ([.handler .cli_history_exec bang "! 0".toList,
          .handler .cli_list
            { mk_cmd "list" (some "l") .cli_list .TODOS with short_cmd_active := true }
            "l open".toList] ++
          if Handler.cli_list = .cli_history then
            [.history_listing (history_print s1.history).1] else []) ∧
      s2.history.HISTORY 0 = some "l open".toList ∧
      s2.history.HISTORY 1 = some "l open".toList ∧
      s2.history.HISTORY 2 = some "! 0".toList ∧ s2.history.history_index = 3 ∧
      history_count s2.history = history_count s1.history + 2 :=
  replay_zero_appends_two_lines ⟨1, 0⟩ 0 "l open".toList 4 true
    (mk_cmd "list" (some "l") .cli_list .TODOS) .cli_list
    (by decide) (by decide) rfl (by decide) (by decide)

/-- The replay of a line that replays itself: with `! 0` in slot 0, the
dispatch of `! 0` does not return within any bound on the nesting. -/
theorem replay_loop_diverges (E : CLI_ERROR) (depth : Nat) (s : Session)
    (hreg : clear_flags s.COMMANDS = COMMANDS)
    (hslot : s.history.HISTORY 0 = some "! 0".toList) :
    cli_execute_cmdstr E depth "! 0".toList s = none := by
  induction depth generalizing s with
  | zero => rfl
  | succ depth ih =>
    have hrep : replayed_line bang "! 0".toList s.history = some "! 0".toList := by
      simp only [replayed_line, replay_zero_parsed.1, replay_zero_parsed.2.1]
      rw [if_neg (by decide)]
      simp only [history_get]
      rw [if_neg (by decide), if_neg (by decide)]
      exact hslot
    rw [dispatch_bang E depth "! 0".toList s hreg replay_zero_parsed.2.2]
    have hcall := (call_handler_history_exec (cli_execute_cmdstr E depth) bang "! 0".toList
      { COMMANDS := set_short_cmd_active s.COMMANDS 20 false
        history := s.history
        events := s.events ++ [.handler .cli_history_exec bang "! 0".toList] }).1 _ hrep
    have hih := ih
      { COMMANDS := set_short_cmd_active s.COMMANDS 20 false
        history := s.history
        events := s.events ++ [.handler .cli_history_exec bang "! 0".toList] }
      (by simp only [clear_flags_set]; exact hreg) hslot
    rw [hcall, hih]

/-- C19 as stated fails: the line `! 0` dispatched in a fresh session returns
and is recorded in slot 0; dispatched a second time it replays itself, and no
bound on the nesting of `cli_execute_cmdstr` lets the dispatch return. -/
theorem replay_of_replay_never_returns :
    ∃ s1 : Session,
      cli_execute_cmdstr ⟨1, 0⟩ 1 "! 0".toList Session.start = some (.returned s1) ∧
      ∀ depth, cli_execute_cmdstr ⟨1, 0⟩ depth "! 0".toList s1 = none := by
  have hreg0 : clear_flags Session.start.COMMANDS = COMMANDS := by decide
  have hrep : replayed_line bang "! 0".toList Session.start.history = none := by decide
  have h1 := dispatch_bang ⟨1, 0⟩ 0 "! 0".toList Session.start hreg0 replay_zero_parsed.2.2
  obtain ⟨s', hcall, hh, hcm⟩ :=
    (call_handler_history_exec (cli_execute_cmdstr ⟨1, 0⟩ 0) bang "! 0".toList
      { COMMANDS := set_short_cmd_active Session.start.COMMANDS 20 false
        history := Session.start.history
        events := Session.start.events ++
          [.handler .cli_history_exec bang "! 0".toList] }).2 hrep
  rw [hcall] at h1
  refine ⟨record_line "! 0".toList s', h1, fun depth => ?_⟩
  apply replay_loop_diverges
  · rw [record_line_eq]
    simp only [hcm, clear_flags_set]
    exact hreg0
  · rw [record_line_eq]
    simp [hh, history_insert, history_target, Session.start, History.fresh, HISTORY_SIZE]

/-- Every registry entry has a handler, and `cli_history_exec` is the
handler of the entry `!` only, which has no short alias. -/
theorem registry_handlers : ∀ c ∈ COMMANDS,
    c.func.isSome = true ∧
    (c.func = some .cli_history_exec → c.command = "!".toList ∧ c.short_command = none) := by
  decide

/-- Every handler but `cli_history_exec` comes to an end on its own. -/
theorem call_handler_simple (exec : List Char → Session → Option Outcome) (f : Handler)
    (issued : command_t) (line : List Char) (s : Session) (hne : f ≠ .cli_history_exec) :
    ∃ o, call_handler exec f issued line s = some o := by
  cases f <;> first
    | exact absurd rfl hne
    | exact ⟨_, rfl⟩

/-- A line whose token is not `!` is dispatched without any nested call. -/
theorem nonbang_terminates (E : CLI_ERROR) (depth : Nat) (line : List Char) (s : Session)
    (hreg : clear_flags s.COMMANDS = COMMANDS) (htok : scan_buf line 0 ≠ "!".toList) :
    ∃ o, cli_execute_cmdstr E (depth + 1) line s = some o := by
  cases hl : cli_is_valid_cmd_loop line COMMANDS 0 with
  | none =>
    have hl2 : cli_is_valid_cmd_loop line s.COMMANDS 0 = none := by
      rw [← loop_clear_flags, hreg, hl]
    rw [cli_execute_cmdstr]
    simp only [cli_is_valid_cmd, hl2, Resolution.issued]
    split_ifs
    · exact ⟨_, rfl⟩
    · exact ⟨_, rfl⟩
  | some p =>
    obtain ⟨i, flag⟩ := p
    obtain ⟨c, _, hc, hname⟩ := loop_some_spec line COMMANDS 0 i flag hl
    simp only [Nat.sub_zero] at hc
    obtain ⟨hsome, hbang⟩ := registry_handlers c (List.getElem?_mem hc)
    obtain ⟨f, hf⟩ := Option.isSome_iff_exists.mp hsome
    have hne : f ≠ .cli_history_exec := by
      intro hfe
      obtain ⟨hcmd, hshort⟩ := hbang (hfe ▸ hf)
      rcases hname with ⟨_, hn⟩ | ⟨_, hn⟩
      · exact htok (hn ▸ hcmd)
      · rw [hshort] at hn
        exact absurd hn (by simp)
    obtain ⟨herr, _, hiss⟩ := resolve_in_registry E line s.COMMANDS i flag c hreg hl hc
    rw [dispatch_resolved E depth line s { c with short_cmd_active := flag } f herr hiss hf]
    obtain ⟨o, ho⟩ := call_handler_simple (cli_execute_cmdstr E depth) f
      { c with short_cmd_active := flag } line
      (handler_entry E f { c with short_cmd_active := flag } line s) hne
    rw [ho]
    cases o <;> exact ⟨_, rfl⟩

/-- C19 (amended): in a session that keeps the registry, a line whose token
is not `!` is dispatched without a nested call of `cli_execute_cmdstr`; and
a `!` line whose replayed line (the content of the history slot it addresses,
if any) is not itself a `!` line causes at most one nested call. In both
cases the dispatch terminates. -/
theorem replay_nests_at_most_once (E : CLI_ERROR) (line : List Char) (s : Session)
    (hreg : clear_flags s.COMMANDS = COMMANDS)
    (hexec : scan_buf line 0 = "!".toList →
      ∀ x, replayed_line bang line s.history = some x → scan_buf x 0 ≠ "!".toList) :
    (scan_buf line 0 ≠ "!".toList → ∃ o, cli_execute_cmdstr E 1 line s = some o) ∧
    ∃ o, cli_execute_cmdstr E 2 line s = some o := by
  refine ⟨fun htok => nonbang_terminates E 0 line s hreg htok, ?_⟩
  by_cases htok : scan_buf line 0 = "!".toList
  · rw [dispatch_bang E 1 line s hreg htok]
    cases hr : replayed_line bang line s.history with
    | none =>
      obtain ⟨s', hcall, _, _⟩ :=
        (call_handler_history_exec (cli_execute_cmdstr E 1) bang line
          { COMMANDS := set_short_cmd_active s.COMMANDS 20 false
            history := s.history
            events := s.events ++ [.handler .cli_history_exec bang line] }).2 hr
      rw [hcall]
      exact ⟨_, rfl⟩
    | some x =>
      have hcall := (call_handler_history_exec (cli_execute_cmdstr E 1) bang line
        { COMMANDS := set_short_cmd_active s.COMMANDS 20 false
          history := s.history
          events := s.events ++ [.handler .cli_history_exec bang line] }).1 x hr
      obtain ⟨o, ho⟩ := nonbang_terminates E 0 x
        { COMMANDS := set_short_cmd_active s.COMMANDS 20 false
          history := s.history
          events := s.events ++ [.handler .cli_history_exec bang line] }
        (by simp only [clear_flags_set]; exact hreg) (hexec htok x hr)
      rw [hcall, ho]
      cases o <;> exact ⟨_, rfl⟩
  · exact nonbang_terminates E 1 line s hreg htok

/-- C19 (amended) in the session that holds `help` in slot 0, for the line
`! 0`: the replayed line is `help`, and the dispatch returns within one
nested call. -/
theorem replay_nests_at_most_once_witness :
    replayed_line bang "! 0".toList
      (history_insert_all ["help".toList] History.fresh) = some "help".toList ∧
    ∃ o, cli_execute_cmdstr ⟨1, 0⟩ 2 "! 0".toList
      { Session.start with history := history_insert_all ["help".toList] History.fresh } =
        some o :=
  ⟨by decide,
   (replay_nests_at_most_once ⟨1, 0⟩ "! 0".toList
      { Session.start with history := history_insert_all ["help".toList] History.fresh }
      (by decide)
      (fun _ x hx => by
        have hrep : replayed_line bang "! 0".toList
            (history_insert_all ["help".toList] History.fresh) = some "help".toList := by
          decide
        have hx' : some "help".toList = some x := hrep.symm.trans hx
        simp only [Option.some.injEq] at hx'
        rw [← hx']
        decide)).2⟩

/-! ## Theorems: the copy loop as a walk over the line -/

/-- The copy loop is the walk over the rest of the line whenever the rest is
shorter than the number of iterations left. -/
theorem loop_eq_walk (s : List Char) (argc : Nat) (buflens : Nat → Nat) (fuel i : Nat)
    (st : ParseState) (h : (s.drop i).length < fuel) :
    cli_parse_cmd_loop s argc buflens fuel i st = parse_walk argc buflens (s.drop i) st := by
  induction fuel generalizing i st with
  | zero => omega
  | succ fuel ih =>
    cases hd : s.drop i with
    | nil =>
      rw [cli_parse_cmd_loop, if_pos (char_at_of_drop_nil hd)]
      rfl
    | cons c r =>
      obtain ⟨hc, hr⟩ := char_at_of_drop_cons hd
      rw [hd] at h
      have hlen : (s.drop (i + 1)).length < fuel := by
        rw [hr]; simpa using h
      rw [cli_parse_cmd_loop, parse_walk, hc]
      dsimp only []
      rw [ih (i + 1) _ hlen, ih (i + 1) _ hlen, hr]

/-- When nothing is left of the line and nothing was stored, the copy loop
leaves the state as it is, also when no iteration is left. -/
theorem loop_eq_walk_nil (s : List Char) (argc : Nat) (buflens : Nat → Nat) (fuel i : Nat)
    (st : ParseState) (hd : s.drop i = []) (hm : st.min_one = 0) :
    cli_parse_cmd_loop s argc buflens fuel i st = parse_walk argc buflens [] st := by
  cases fuel with
  | zero => simp [cli_parse_cmd_loop, parse_walk, hm]
  | succ fuel =>
    rw [cli_parse_cmd_loop, if_pos (char_at_of_drop_nil hd)]
    rfl

/-- A call of `cli_parse_cmd` on a line that fits the line buffer is the walk
over the line from `cmdlen` on. -/
theorem cli_parse_cmd_eq_walk (cmd : command_t) (line : List Char) (argc : Nat)
    (buffers : Nat → List Char) (buflens : Nat → Nat) (hargc : argc ≠ 0)
    (hlen : line.length < BUFLEN_CLI) :
    cli_parse_cmd (some cmd) (some line) argc (some buffers) buflens =
      parse_result (parse_walk argc buflens (line.drop (cmdlen cmd line))
        (parse_start buffers)) := by
  rw [cli_parse_cmd_unfold cmd line argc buffers buflens hargc]
  have hB : BUFLEN_CLI = 8193 := rfl
  by_cases hs : cmdlen cmd line < BUFLEN_CLI
  · rw [loop_eq_walk line argc buflens _ _ _ (by rw [List.length_drop]; omega)]
    rfl
  · have hnil : line.drop (cmdlen cmd line) = [] := List.drop_eq_nil_of_le (by omega)
    rw [loop_eq_walk_nil line argc buflens _ _ _ hnil rfl, hnil]
    rfl

/-! ## Theorems: scan order and token of the resolver -/

theorem spec_first_long_none (token : List Char) (cmds : List command_t) (k : Nat)
    (h : ∀ d ∈ cmds, d.command ≠ token) : spec_first_long token cmds k = none := by
  induction cmds generalizing k with
  | nil => rfl
  | cons c cs ih =>
    rw [spec_first_long, if_neg (h c (List.mem_cons_self c cs))]
    exact ih (k + 1) (fun d hd => h d (List.mem_cons_of_mem c hd))

/-- In a table in which no short alias is a long name, the single scan
(long name, then short alias, entry by entry) finds what the two passes
find. -/
theorem loop_eq_two_pass (line : List Char) (cmds : List command_t) (k : Nat)
    (hP : ∀ c ∈ cmds, ∀ d ∈ cmds, c.short_command ≠ some d.command) :
    cli_is_valid_cmd_loop line cmds k =
      match spec_first_long (scan_buf line 0) cmds k with
      | some i => some (i, false)
      | none => (spec_first_short (scan_buf line 0) cmds k).map fun i => (i, true) := by
  induction cmds generalizing k with
  | nil => rfl
  | cons c cs ih =>
    have hcs : ∀ a ∈ cs, ∀ d ∈ cs, a.short_command ≠ some d.command :=
      fun a ha d hd => hP a (List.mem_cons_of_mem c ha) d (List.mem_cons_of_mem c hd)
    simp only [cli_is_valid_cmd_loop, spec_first_long, spec_first_short]
    by_cases h1 : scan_buf line 0 = c.command
    · have h1' : c.command = scan_buf line 0 := h1.symm
      simp only [h1', if_true]
    · have h1' : ¬ c.command = scan_buf line 0 := fun e => h1 e.symm
      by_cases h2 : c.short_command = some (scan_buf line 0)
      · have hnone : spec_first_long (scan_buf line 0) cs (k + 1) = none := by
          apply spec_first_long_none
          intro d hd he
          exact hP c (List.mem_cons_self c cs) d (List.mem_cons_of_mem c hd) (by rw [h2, he])
        simp only [h1, h1', h2, if_true, if_false, hnone, Option.map_some']
      · simp only [h1, h1', h2, if_false]
        exact ih (k + 1) hcs

/-- No short alias of the registry is a long name of the registry. -/
theorem registry_no_collision :
    ∀ c ∈ COMMANDS, ∀ d ∈ COMMANDS, c.short_command ≠ some d.command := by
  decide

/-- C22: in every table that is the registry up to its transient flags, and
for every input line, the single scan of `cli_is_valid_cmd` (for each entry in
declaration order: the long name, then that entry's short alias) returns the
same entry and the same short-form flag as the two-pass lookup of the
specification applied to the same candidate token (first exact long-name
match; only if there is none anywhere, first exact short-alias match). -/
theorem single_scan_refines_two_pass (E : CLI_ERROR) (line : List Char)
    (cmds : List command_t) (hreg : clear_flags cmds = COMMANDS) :
    cli_is_valid_cmd_loop line cmds 0 = spec_two_pass (scan_buf line 0) cmds ∧
    (cli_is_valid_cmd E (some line) cmds).result =
      (spec_two_pass (scan_buf line 0) cmds).map Prod.fst ∧
    (cli_is_valid_cmd E (some line) cmds).issued.map (fun c => c.short_cmd_active) =
      (spec_two_pass (scan_buf line 0) cmds).map Prod.snd := by
  have hP : ∀ c ∈ cmds, ∀ d ∈ cmds, c.short_command ≠ some d.command := by
    intro c hc d hd
    have hc' : ({ c with short_cmd_active := false } : command_t) ∈ COMMANDS := by
      rw [← hreg]; exact List.mem_map_of_mem _ hc
    have hd' : ({ d with short_cmd_active := false } : command_t) ∈ COMMANDS := by
      rw [← hreg]; exact List.mem_map_of_mem _ hd
    exact registry_no_collision { c with short_cmd_active := false } hc'
      { d with short_cmd_active := false } hd'
  have hloop : cli_is_valid_cmd_loop line cmds 0 = spec_two_pass (scan_buf line 0) cmds :=
    loop_eq_two_pass line cmds 0 hP
  refine ⟨hloop, ?_, ?_⟩
  · rw [← hloop]
    cases hl : cli_is_valid_cmd_loop line cmds 0 with
    | none => simp [cli_is_valid_cmd, hl]
    | some p => simp [cli_is_valid_cmd, hl]
  · rw [← hloop]
    cases hl : cli_is_valid_cmd_loop line cmds 0 with
    | none => simp [cli_is_valid_cmd, hl, Resolution.issued]
    | some p =>
      obtain ⟨i, flag⟩ := p
      obtain ⟨c, _, hc, _⟩ := loop_some_spec line cmds 0 i flag hl
      simp only [Nat.sub_zero] at hc
      simp [cli_is_valid_cmd, hl, Resolution.issued, set_short_cmd_active, hc]

/-- C22 at the line `l open` in the registry as it is at process start: both
lookups give entry 4 (`list`) with the short-form flag set. -/
theorem single_scan_refines_two_pass_witness :
    cli_is_valid_cmd_loop "l open".toList COMMANDS 0 =
      spec_two_pass (scan_buf "l open".toList 0) COMMANDS ∧
    spec_two_pass (scan_buf "l open".toList 0) COMMANDS = some (4, true) :=
  ⟨(single_scan_refines_two_pass ⟨1, 0⟩ "l open".toList COMMANDS (by decide)).1, by decide⟩

/-- C23 fails on the code for a tab: the scan of the token stops at a blank
only. `add`, a tab and `hello` is taken whole as the token, which matches no
entry, while `add hello` resolves to entry 0 (`add`). -/
theorem tab_does_not_end_token :
    scan_buf "add\thello".toList 0 = "add\thello".toList ∧
    (cli_is_valid_cmd ⟨1, 0⟩ (some "add\thello".toList) COMMANDS).result = none ∧
    scan_buf "add hello".toList 0 = "add".toList ∧
    (cli_is_valid_cmd ⟨1, 0⟩ (some "add hello".toList) COMMANDS).result = some 0 := by
  decide

/-- C29: for every ring and every non-null line, `history_insert` stores the
line into the target slot `t` (the cursor, or 0 when the cursor is 1023),
sets the cursor to `t + 1` and leaves the content of every other slot as it
was. -/
theorem history_insert_frame (x : List Char) (h : History) :
    (history_target h = if h.history_index = 1023 then 0 else h.history_index) ∧
    (history_insert (some x) h).2.HISTORY (history_target h) = some x ∧
    (history_insert (some x) h).2.history_index = history_target h + 1 ∧
    ∀ k, k ≠ history_target h →
      (history_insert (some x) h).2.HISTORY k = h.HISTORY k := by
  refine ⟨rfl, by simp [history_insert], rfl, ?_⟩
  intro k hk
  simp [history_insert, hk]

/-- C29 on the ring that holds `list` and `help`: the line `env` goes to slot
2 and slot 1 still holds `help`. -/
theorem history_insert_frame_witness :
    history_target (history_insert_all ["list".toList, "help".toList] History.fresh) = 2 ∧
    (history_insert (some "env".toList)
      (history_insert_all ["list".toList, "help".toList] History.fresh)).2.HISTORY 1 =
      (history_insert_all ["list".toList, "help".toList] History.fresh).HISTORY 1 :=
  ⟨by decide,
   (history_insert_frame "env".toList
      (history_insert_all ["list".toList, "help".toList] History.fresh)).2.2.2 1
      (by decide)⟩

/-! ## Theorems: the form of the command and leading white space -/

/-- After its first copied character the scan of the token copies up to the
next blank. -/
theorem scan_buf_until_blank (n t : List Char) (hnb : ∀ c ∈ n, c ≠ ' ' ∧ c ≠ '\t') :
    scan_buf (n ++ ' ' :: t) 1 = n := by
  induction n with
  | nil => simp [scan_buf]
  | cons c cs ih =>
    have hc := hnb c (List.mem_cons_self c cs)
    have hcs : ∀ d ∈ cs, d ≠ ' ' ∧ d ≠ '\t' := fun d hd => hnb d (List.mem_cons_of_mem c hd)
    simp [scan_buf, hc.1, ih hcs]

/-- The token of a line that starts with a name and a blank is the name. -/
theorem scan_buf_token (n t : List Char) (hne : n ≠ [])
    (hnb : ∀ c ∈ n, c ≠ ' ' ∧ c ≠ '\t') : scan_buf (n ++ ' ' :: t) 0 = n := by
  cases n with
  | nil => exact absurd rfl hne
  | cons c cs =>
    have hc := hnb c (List.mem_cons_self c cs)
    have hcs : ∀ d ∈ cs, d ≠ ' ' ∧ d ≠ '\t' := fun d hd => hnb d (List.mem_cons_of_mem c hd)
    simp [scan_buf, hc.1, hc.2, scan_buf_until_blank cs t hcs]

/-- Leading blanks and tabs are not part of the token. -/
theorem scan_buf_skip (p line : List Char) (hp : ∀ c ∈ p, c = ' ' ∨ c = '\t') :
    scan_buf (p ++ line) 0 = scan_buf line 0 := by
  induction p with
  | nil => rfl
  | cons c cs ih =>
    have hc := hp c (List.mem_cons_self c cs)
    have hcs : ∀ d ∈ cs, d = ' ' ∨ d = '\t' := fun d hd => hp d (List.mem_cons_of_mem c hd)
    simp only [List.cons_append, scan_buf, hc, and_self, if_true]
    exact ih hcs

theorem leading_whitespace_append (p line : List Char) (hp : ∀ c ∈ p, c = ' ' ∨ c = '\t') :
    leading_whitespace (p ++ line) = p.length + leading_whitespace line := by
  unfold leading_whitespace
  rw [List.takeWhile_append_of_pos (by simpa using hp), List.length_append]

theorem leading_whitespace_token (n r : List Char) (hne : n ≠ [])
    (hnb : ∀ c ∈ n, c ≠ ' ' ∧ c ≠ '\t') : leading_whitespace (n ++ r) = 0 := by
  cases n with
  | nil => exact absurd rfl hne
  | cons c cs =>
    have hc := hnb c (List.mem_cons_self c cs)
    simp [leading_whitespace, List.takeWhile, hc.1, hc.2]

/-- The names of the registry are not empty, and a short alias is not longer
than the long name of its entry. -/
theorem registry_names_nonempty : ∀ c ∈ COMMANDS,
    c.command ≠ [] ∧
    ∀ n ∈ c.short_command.toList, n ≠ [] ∧ n.length ≤ c.command.length := by
  decide

/-- The rest of the line that the copy loop walks over, for a line made of
the active token of the command, one character and a text. -/
theorem drop_cmdlen_token (cmd : command_t) (sep : Char) (t : List Char)
    (hne : active_token cmd ≠ [])
    (hnb : ∀ c ∈ active_token cmd, c ≠ ' ' ∧ c ≠ '\t')
    (hlen : (active_token cmd ++ sep :: t).length < BUFLEN_CLI) :
    (active_token cmd ++ sep :: t).drop (cmdlen cmd (active_token cmd ++ sep :: t)) = t := by
  rw [cmdlen_eq cmd _ hlen, leading_whitespace_token _ _ hne hnb]
  simp

/-- The binder's result for a line made of the active token of the command, a
blank and a text depends on the text only. -/
theorem parse_token_line (cmd : command_t) (t : List Char) (argc : Nat)
    (buffers : Nat → List Char) (buflens : Nat → Nat) (hargc : argc ≠ 0)
    (hne : active_token cmd ≠ [])
    (hnb : ∀ c ∈ active_token cmd, c ≠ ' ' ∧ c ≠ '\t')
    (hlen : (active_token cmd ++ ' ' :: t).length < BUFLEN_CLI) :
    cli_parse_cmd (some cmd) (some (active_token cmd ++ ' ' :: t)) argc (some buffers)
      buflens = parse_result (parse_walk argc buflens t (parse_start buffers)) := by
  rw [cli_parse_cmd_eq_walk cmd _ argc buffers buflens hargc hlen,
    drop_cmdlen_token cmd ' ' t hne hnb hlen]

/-- C24: binding does not depend on which form of the command was typed. For
every registry entry with long name `n` and short alias `s`, every text `t`
(such that the longer line fits the line buffer), every number of expected
arguments and every slot layout, the lines `s t` and `n t` resolve to the
same entry, and binding each line with the entry as the resolver left it
gives equal results: the same returned count, the same slot contents and
the same stores. -/
theorem binding_independent_of_form (E : CLI_ERROR) (i : Nat) (hi : i < COMMANDS.length)
    (sname t : List Char) (argc : Nat) (buffers : Nat → List Char) (buflens : Nat → Nat)
    (hs : (COMMANDS[i]).short_command = some sname)
    (hlen : ((COMMANDS[i]).command ++ ' ' :: t).length < BUFLEN_CLI) :
    (cli_is_valid_cmd E (some ((COMMANDS[i]).command ++ ' ' :: t)) COMMANDS).result = some i ∧
    (cli_is_valid_cmd E (some (sname ++ ' ' :: t)) COMMANDS).result = some i ∧
    cli_parse_cmd (cli_is_valid_cmd E (some (sname ++ ' ' :: t)) COMMANDS).issued
        (some (sname ++ ' ' :: t)) argc (some buffers) buflens =
      cli_parse_cmd
        (cli_is_valid_cmd E (some ((COMMANDS[i]).command ++ ' ' :: t)) COMMANDS).issued
        (some ((COMMANDS[i]).command ++ ' ' :: t)) argc (some buffers) buflens := by
  have hmem : COMMANDS[i] ∈ COMMANDS := List.getElem_mem _
  obtain ⟨hnb, hsnb⟩ := registry_names_no_blank _ hmem
  obtain ⟨hne, hsne⟩ := registry_names_nonempty _ hmem
  have hsmem : sname ∈ (COMMANDS[i]).short_command.toList := by simp [hs]
  have hsnb' := hsnb sname hsmem
  obtain ⟨hsne', hsle⟩ := hsne sname hsmem
  obtain ⟨⟨hl, hfl⟩, hshort⟩ := loop_finds_entry i hi
  obtain ⟨hl2, hfl2⟩ := hshort sname hsmem
  have hloopn : cli_is_valid_cmd_loop ((COMMANDS[i]).command ++ ' ' :: t) COMMANDS 0 =
      some (i, false) := by
    rw [loop_token_congr _ (COMMANDS[i]).command COMMANDS 0
      (by rw [scan_buf_token _ t hne hnb, scan_buf_of_no_blank _ 0 hnb])]
    exact hl
  have hloops : cli_is_valid_cmd_loop (sname ++ ' ' :: t) COMMANDS 0 = some (i, true) := by
    rw [loop_token_congr _ sname COMMANDS 0
      (by rw [scan_buf_token _ t hsne' hsnb', scan_buf_of_no_blank _ 0 hsnb'])]
    exact hl2
  have hrn : cli_is_valid_cmd E (some ((COMMANDS[i]).command ++ ' ' :: t)) COMMANDS =
      { error := E.NO_ERROR, result := some i,
        COMMANDS := set_short_cmd_active COMMANDS i false } := by
    simp only [cli_is_valid_cmd, hloopn]
  have hrs : cli_is_valid_cmd E (some (sname ++ ' ' :: t)) COMMANDS =
      { error := E.NO_ERROR, result := some i,
        COMMANDS := set_short_cmd_active COMMANDS i true } := by
    simp only [cli_is_valid_cmd, hloops]
  rw [hrn, hrs]
  refine ⟨rfl, rfl, ?_⟩
  simp only [Resolution.issued, hfl, hfl2]
  by_cases hargc : argc = 0
  · simp [cli_parse_cmd, hargc]
  · have hatn : active_token { COMMANDS[i] with short_cmd_active := false } =
        (COMMANDS[i]).command := rfl
    have hats : active_token { COMMANDS[i] with short_cmd_active := true } = sname := by
      simp [active_token, hs]
    have h1 := parse_token_line { COMMANDS[i] with short_cmd_active := false } t argc
      buffers buflens hargc (by rw [hatn]; exact hne) (by rw [hatn]; exact hnb)
      (by rw [hatn]; exact hlen)
    have h2 := parse_token_line { COMMANDS[i] with short_cmd_active := true } t argc
      buffers buflens hargc (by rw [hats]; exact hsne') (by rw [hats]; exact hsnb')
      (by
        rw [hats]
        simp only [List.length_append, List.length_cons] at hlen ⊢
        omega)
    rw [hatn] at h1
    rw [hats] at h2
    rw [h1, h2]

/-- C24 at the entry `search` / `s` with the text `milk and eggs`, bound as
`cli_search` binds it. -/
theorem binding_independent_of_form_witness :
    cli_parse_cmd (cli_is_valid_cmd ⟨1, 0⟩ (some ("s".toList ++ ' ' :: "milk and eggs".toList))
        COMMANDS).issued
        (some ("s".toList ++ ' ' :: "milk and eggs".toList)) 1
        (some fun _ => zeroed BUFLEN_SEARCH_STR) (fun _ => BUFLEN_SEARCH_STR) =
      cli_parse_cmd
        (cli_is_valid_cmd ⟨1, 0⟩ (some ("search".toList ++ ' ' :: "milk and eggs".toList))
          COMMANDS).issued
        (some ("search".toList ++ ' ' :: "milk and eggs".toList)) 1
        (some fun _ => zeroed BUFLEN_SEARCH_STR) (fun _ => BUFLEN_SEARCH_STR) :=
  (binding_independent_of_form ⟨1, 0⟩ 5 (by decide) "s".toList "milk and eggs".toList 1
    (fun _ => zeroed BUFLEN_SEARCH_STR) (fun _ => BUFLEN_SEARCH_STR) rfl (by decide)).2.2

/-- C25: leading white space is transparent. For every line and every prefix
`p` made only of blanks and tabs (such that `p` and the line together fit the
line buffer), resolving `p` followed by the line gives what resolving the
line gives (the same code, entry and flags), and binding it, for any command
and slot layout, gives the same returned count, slot contents and stores. -/
theorem leading_whitespace_transparent (E : CLI_ERROR) (cmds : List command_t)
    (cmd : command_t) (p line : List Char) (argc : Nat) (buffers : Nat → List Char)
    (buflens : Nat → Nat) (hp : ∀ c ∈ p, c = ' ' ∨ c = '\t')
    (hlen : (p ++ line).length < BUFLEN_CLI) :
    cli_is_valid_cmd E (some (p ++ line)) cmds = cli_is_valid_cmd E (some line) cmds ∧
    cli_parse_cmd (some cmd) (some (p ++ line)) argc (some buffers) buflens =
      cli_parse_cmd (some cmd) (some line) argc (some buffers) buflens := by
  constructor
  · simp only [cli_is_valid_cmd,
      loop_token_congr (p ++ line) line cmds 0 (scan_buf_skip p line hp)]
  · by_cases hargc : argc = 0
    · simp [cli_parse_cmd, hargc]
    · have hlen2 : line.length < BUFLEN_CLI := by
        simp only [List.length_append] at hlen; omega
      rw [cli_parse_cmd_eq_walk cmd _ argc buffers buflens hargc hlen,
        cli_parse_cmd_eq_walk cmd _ argc buffers buflens hargc hlen2,
        cmdlen_eq cmd _ hlen, cmdlen_eq cmd _ hlen2, leading_whitespace_append p line hp]
      have e : p.length + leading_whitespace line + (active_token cmd).length + 1 =
          p.length + (leading_whitespace line + (active_token cmd).length + 1) := by omega
      rw [e, List.drop_append]

/-- C25 at the line `add buy milk` behind a blank, a tab and a blank. -/
theorem leading_whitespace_transparent_witness :
    cli_is_valid_cmd ⟨1, 0⟩ (some (" \t ".toList ++ "add buy milk".toList)) COMMANDS =
      cli_is_valid_cmd ⟨1, 0⟩ (some "add buy milk".toList) COMMANDS ∧
    cli_parse_cmd (some (mk_cmd "add" (some "a") .cli_add .TODOS))
        (some (" \t ".toList ++ "add buy milk".toList)) 1
        (some fun _ => zeroed BUFLEN_TITLE) (fun _ => BUFLEN_TITLE) =
      cli_parse_cmd (some (mk_cmd "add" (some "a") .cli_add .TODOS))
        (some "add buy milk".toList) 1
        (some fun _ => zeroed BUFLEN_TITLE) (fun _ => BUFLEN_TITLE) :=
  leading_whitespace_transparent ⟨1, 0⟩ COMMANDS (mk_cmd "add" (some "a") .cli_add .TODOS)
    " \t ".toList "add buy milk".toList 1 (fun _ => zeroed BUFLEN_TITLE)
    (fun _ => BUFLEN_TITLE) (by decide) (by decide)

/-! ## Theorems: the bound argument of the one-argument handlers -/

/-- With one expected argument and a zero-initialised slot of capacity at
least 1, the slot read as a C string holds the first capacity - 1 characters
of the argument region, whatever `cli_parse_cmd` returns. -/
theorem bound_argument (cmd : command_t) (line : List Char) (cap : Nat)
    (hline : IsLine line) (hcap1 : 1 ≤ cap) (hcap : cap < SIZE_MOD) :
    cstr ((cli_parse_cmd (some cmd) (some line) 1 (some fun _ => zeroed cap)
      (fun _ => cap)).buffers 0) = (arg_region cmd line).take (cap - 1) := by
  have hz : (zeroed cap).length = cap := by simp [zeroed]
  by_cases h0 : arg_region cmd line = []
  · have hdrop : line.drop (cmdlen cmd line) = [] := by
      rw [cmdlen_eq cmd line hline.2]; exact h0
    rw [cli_parse_cmd_eq_walk cmd line 1 _ _ (by decide) hline.2, hdrop, h0]
    simp only [parse_walk, parse_start, parse_result, ne_eq, not_true_eq_false, if_false,
      List.take_nil]
    have := cstr_append_zeroed [] cap 0 (by simp)
    simpa using this
  · have hpos : 1 ≤ (arg_region cmd line).length := by
      cases h : arg_region cmd line with
      | nil => exact absurd h h0
      | cons c cs => simp
    by_cases hfit : (arg_region cmd line).length ≤ cap - 1
    · rw [(parse_one_fits cmd line (fun _ => zeroed cap) (fun _ => cap) hline hcap hpos
        hfit).2 hz, List.take_of_length_le hfit]
      exact cstr_append_zeroed _ _ _ (fun c hc => hline.1 c (List.mem_of_mem_drop hc))
    · rw [(parse_one_overflow cmd line (fun _ => zeroed cap) (fun _ => cap) hline hcap1 hcap
        (Nat.lt_of_not_le hfit)).2 hz]
      exact cstr_append_zeroed _ _ _
        (fun c hc => hline.1 c (List.mem_of_mem_drop (List.mem_of_mem_take hc)))

/-- With one expected argument and a slot of capacity at least 2, the call
does not fail on a line with a non-empty argument region. -/
theorem parse_one_ret_ne (cmd : command_t) (line : List Char) (buffers : Nat → List Char)
    (buflens : Nat → Nat) (hline : IsLine line) (hcap2 : 2 ≤ buflens 0)
    (hcap : buflens 0 < SIZE_MOD) (hne : arg_region cmd line ≠ []) :
    (cli_parse_cmd (some cmd) (some line) 1 (some buffers) buflens).ret ≠ -1 := by
  have hpos : 1 ≤ (arg_region cmd line).length := by
    cases h : arg_region cmd line with
    | nil => exact absurd h hne
    | cons c cs => simp
  by_cases hfit : (arg_region cmd line).length ≤ buflens 0 - 1
  · rw [(parse_one_fits cmd line buffers buflens hline hcap hpos hfit).1]
    decide
  · rw [(parse_one_overflow cmd line buffers buflens hline (by omega) hcap (by omega)).1,
      if_neg (by omega)]
    decide

/-- The option for a string: `DONE` for `done`, `OPEN` for `open`, `ALL` for
anything else. -/
theorem storage_str_to_option_spec (o : List Char) :
    (storage_str_to_option (some o) = .DONE ↔ o = "done".toList) ∧
    (storage_str_to_option (some o) = .OPEN ↔ o = "open".toList) ∧
    (o ≠ "done".toList → o ≠ "open".toList → storage_str_to_option (some o) = .ALL) := by
  simp only [storage_str_to_option, OPTIONS, storage_str_to_option_loop]
  by_cases h1 : o = "all".toList
  · subst h1
    simp only [if_true]
    decide
  · by_cases h2 : o = "done".toList
    · subst h2
      decide
    · by_cases h3 : o = "open".toList
      · subst h3
        decide
      · have h1' : ¬ o = ['a', 'l', 'l'] := h1
        have h2' : ¬ o = ['d', 'o', 'n', 'e'] := h2
        have h3' : ¬ o = ['o', 'p', 'e', 'n'] := h3
        simp [h1', h2', h3']

/-- C30: the filter that `cli_list` passes to storage is `DONE` if and only
if the bound argument (the slot `opt_str` read as a C string) is exactly
`done`, `OPEN` if and only if it is exactly `open`, and `ALL` in every other
case; and for a line that fits the line buffer the bound argument is `done`
(`open`) exactly when the argument region of the line is, so that a line
without argument and a line with any other text give `ALL`. -/
theorem cli_list_option_spec (cmd : command_t) (line : List Char) :
    ((cli_list_option cmd line = .DONE ↔
        cstr ((cli_parse_cmd (some cmd) (some line) 1
          (some fun _ => zeroed BUFLEN_LIST_OPTION)
          (fun _ => BUFLEN_LIST_OPTION)).buffers 0) = "done".toList) ∧
      (cli_list_option cmd line = .OPEN ↔
        cstr ((cli_parse_cmd (some cmd) (some line) 1
          (some fun _ => zeroed BUFLEN_LIST_OPTION)
          (fun _ => BUFLEN_LIST_OPTION)).buffers 0) = "open".toList) ∧
      (cli_list_option cmd line ≠ .DONE → cli_list_option cmd line ≠ .OPEN →
        cli_list_option cmd line = .ALL)) ∧
    (IsLine line →
      (cli_list_option cmd line = .DONE ↔ arg_region cmd line = "done".toList) ∧
      (cli_list_option cmd line = .OPEN ↔ arg_region cmd line = "open".toList) ∧
      (arg_region cmd line ≠ "done".toList → arg_region cmd line ≠ "open".toList →
        cli_list_option cmd line = .ALL)) := by
  have hspec := storage_str_to_option_spec (cstr ((cli_parse_cmd (some cmd) (some line) 1
    (some fun _ => zeroed BUFLEN_LIST_OPTION) (fun _ => BUFLEN_LIST_OPTION)).buffers 0))
  refine ⟨⟨hspec.1, hspec.2.1, ?_⟩, ?_⟩
  · intro h1 h2
    cases h : cli_list_option cmd line with
    | ALL => rfl
    | DONE => exact absurd h h1
    | OPEN => exact absurd h h2
  · intro hline
    have hb := bound_argument cmd line BUFLEN_LIST_OPTION hline (by decide) (by decide)
    have htake : ∀ w : List Char, w.length < BUFLEN_LIST_OPTION - 1 →
        ((arg_region cmd line).take (BUFLEN_LIST_OPTION - 1) = w ↔
          arg_region cmd line = w) := by
      intro w hw
      constructor
      · intro h
        have hl : ((arg_region cmd line).take (BUFLEN_LIST_OPTION - 1)).length = w.length := by
          rw [h]
        rw [List.length_take] at hl
        rw [← h, List.take_of_length_le (by omega)]
      · intro h
        rw [h, List.take_of_length_le (by omega)]
    have hdef : cli_list_option cmd line = storage_str_to_option
        (some ((arg_region cmd line).take (BUFLEN_LIST_OPTION - 1))) := by
      rw [← hb]
      rfl
    rw [hb] at hspec
    rw [htake _ (by decide), htake _ (by decide)] at hspec
    rw [hdef]
    exact ⟨hspec.1, hspec.2.1, fun h1 h2 => hspec.2.2
      (fun h => h1 ((htake _ (by decide)).mp h)) (fun h => h2 ((htake _ (by decide)).mp h))⟩

/-- C30 at the lines `list done`, `l open`, `list` and `list later`. -/
theorem cli_list_option_spec_witness :
    cli_list_option (mk_cmd "list" (some "l") .cli_list .TODOS) "list done".toList = .DONE ∧
    cli_list_option { mk_cmd "list" (some "l") .cli_list .TODOS with short_cmd_active := true }
      "l open".toList = .OPEN ∧
    cli_list_option (mk_cmd "list" (some "l") .cli_list .TODOS) "list".toList = .ALL ∧
    cli_list_option (mk_cmd "list" (some "l") .cli_list .TODOS) "list later".toList = .ALL :=
  ⟨((cli_list_option_spec (mk_cmd "list" (some "l") .cli_list .TODOS) "list done".toList).2
      ⟨by decide, by decide⟩).1.mpr (by decide),
   ((cli_list_option_spec
      { mk_cmd "list" (some "l") .cli_list .TODOS with short_cmd_active := true }
      "l open".toList).2 ⟨by decide, by decide⟩).2.1.mpr (by decide),
   ((cli_list_option_spec (mk_cmd "list" (some "l") .cli_list .TODOS) "list".toList).2
      ⟨by decide, by decide⟩).2.2 (by decide) (by decide),
   ((cli_list_option_spec (mk_cmd "list" (some "l") .cli_list .TODOS) "list later".toList).2
      ⟨by decide, by decide⟩).2.2 (by decide) (by decide)⟩

/-! ## Theorems: the index of a replay -/

/-- C28: for a line of the command `!` that fits the line buffer and has a
non-empty argument region, `cli_history_exec` does not stop at its usage
message and looks up the history slot `atoi(a)`, where `a` is the first at
most 4 characters of the argument region: the line `! abc` addresses slot 0
and the line `! 10230` addresses slot 1023, whatever the history holds. -/
theorem history_exec_index (line : List Char) (h : History) (hline : IsLine line)
    (hne : arg_region bang line ≠ []) :
    (cli_parse_cmd (some bang) (some line) 1 (some fun _ => zeroed BUFLEN_HISTORY_INDEX)
      (fun _ => BUFLEN_HISTORY_INDEX)).ret ≠ -1 ∧
    replayed_line bang line h =
      (history_get (atoi ((arg_region bang line).take 4)) (some none) h).1 ∧
    replayed_line bang "! abc".toList h = h.HISTORY 0 ∧
    replayed_line bang "! 10230".toList h = h.HISTORY 1023 := by
  have hgen : ∀ l : List Char, IsLine l → arg_region bang l ≠ [] →
      (cli_parse_cmd (some bang) (some l) 1 (some fun _ => zeroed BUFLEN_HISTORY_INDEX)
        (fun _ => BUFLEN_HISTORY_INDEX)).ret ≠ -1 ∧
      replayed_line bang l h =
        (history_get (atoi ((arg_region bang l).take 4)) (some none) h).1 := by
    intro l hl hn
    have hret := parse_one_ret_ne bang l (fun _ => zeroed BUFLEN_HISTORY_INDEX)
      (fun _ => BUFLEN_HISTORY_INDEX) hl (by decide) (by decide) hn
    have hb := bound_argument bang l BUFLEN_HISTORY_INDEX hl (by decide) (by decide)
    refine ⟨hret, ?_⟩
    simp only [replayed_line, hret, if_false, hb]
    rfl
  refine ⟨(hgen line hline hne).1, (hgen line hline hne).2, ?_, ?_⟩
  · rw [(hgen "! abc".toList ⟨by decide, by decide⟩ (by decide)).2]
    have ha : atoi ((arg_region bang "! abc".toList).take 4) = 0 := by decide
    rw [ha]
    simp [history_get, HISTORY_SIZE]
  · rw [(hgen "! 10230".toList ⟨by decide, by decide⟩ (by decide)).2]
    have ha : atoi ((arg_region bang "! 10230".toList).take 4) = 1023 := by decide
    rw [ha]
    simp [history_get, HISTORY_SIZE]

/-- C28 at the line `! 3x` in a session whose history holds one line. -/
theorem history_exec_index_witness :
    IsLine "! 3x".toList ∧ arg_region bang "! 3x".toList ≠ [] ∧
    replayed_line bang "! 3x".toList (history_insert (some "list".toList) History.fresh).2 =
      (history_get (atoi ((arg_region bang "! 3x".toList).take 4)) (some none)
        (history_insert (some "list".toList) History.fresh).2).1 :=
  ⟨⟨by decide, by decide⟩, by decide,
    (history_exec_index "! 3x".toList (history_insert (some "list".toList) History.fresh).2
      ⟨by decide, by decide⟩ (by decide)).2.1⟩

/-! ## Theorems: the copy loop, iteration by iteration -/

/-- An iteration that stores its character. -/
theorem walk_store (argc : Nat) (buflens : Nat → Nat) (c : Char) (cs : List Char)
    (st : ParseState) (hc : c ≠ NUL)
    (hb : st.buffer_index ≠ buflen_minus_one buflens st.found_args)
    (hs : ¬ (c = ' ' ∧ argc > 1)) (hf : st.found_args ≠ argc) :
    parse_walk argc buflens (c :: cs) st = parse_walk argc buflens cs (store_step st c) := by
  rw [parse_walk]
  simp only [hc, hb, hs, hf, if_false]
  rfl

/-- An iteration that meets a separator. -/
theorem walk_sep (argc : Nat) (buflens : Nat → Nat) (cs : List Char) (st : ParseState)
    (hargc : 1 < argc) (hb : st.buffer_index ≠ buflen_minus_one buflens st.found_args) :
    parse_walk argc buflens (' ' :: cs) st = parse_walk argc buflens cs (sep_step st) := by
  have hc : ' ' ≠ NUL := by decide
  have hs : (' ' = ' ' ∧ argc > 1) := ⟨rfl, hargc⟩
  rw [parse_walk]
  simp only [hc, hb, hs, if_false, if_true]
  rfl

/-- The loop never forgets a load of a capacity. -/
theorem walk_lens_read_mono (argc : Nat) (buflens : Nat → Nat) (k : Nat) (cs : List Char) :
    ∀ st : ParseState, k ∈ st.lens_read → k ∈ (parse_walk argc buflens cs st).lens_read := by
  induction cs with
  | nil =>
    intro st h
    rw [parse_walk]
    split_ifs <;> exact h
  | cons c cs ih =>
    intro st h
    rw [parse_walk]
    dsimp only []
    split_ifs
    · exact h
    · exact h
    · exact List.mem_cons_of_mem _ h
    · exact ih _ (List.mem_cons_of_mem _ h)
    · exact List.mem_cons_of_mem _ h
    · exact ih _ (List.mem_cons_of_mem _ h)

/-- An iteration at a character of the line loads the capacity of the
current slot index. -/
theorem walk_reads (argc : Nat) (buflens : Nat → Nat) (c : Char) (cs : List Char)
    (st : ParseState) (hc : c ≠ NUL) :
    st.found_args ∈ (parse_walk argc buflens (c :: cs) st).lens_read := by
  rw [parse_walk]
  dsimp only []
  rw [if_neg hc]
  split_ifs
  · exact List.mem_cons_self _ _
  · exact walk_lens_read_mono _ _ _ _ _ (List.mem_cons_self _ _)
  · exact List.mem_cons_self _ _
  · exact walk_lens_read_mono _ _ _ _ _ (List.mem_cons_self _ _)

/-- A run of characters that are stored one after the other. -/
theorem walk_store_steps (argc : Nat) (buflens : Nat → Nat) (cs tl : List Char) :
    ∀ st : ParseState, (∀ c ∈ cs, c ≠ NUL) → (∀ c ∈ cs, c ≠ ' ') → st.found_args ≠ argc →
      st.buffer_index + cs.length ≤ buflen_minus_one buflens st.found_args →
      parse_walk argc buflens (cs ++ tl) st = parse_walk argc buflens tl (store_steps st cs) := by
  induction cs with
  | nil => intro st _ _ _ _; rfl
  | cons c cs ih =>
    intro st hnul hsp hf hfit
    simp only [List.length_cons] at hfit
    rw [List.cons_append, walk_store argc buflens c _ st (hnul c (List.mem_cons_self _ _))
      (by omega) (fun h => hsp c (List.mem_cons_self _ _) h.1) hf, store_steps]
    exact ih (store_step st c) (fun x hx => hnul x (List.mem_cons_of_mem _ hx))
      (fun x hx => hsp x (List.mem_cons_of_mem _ hx)) hf
      (by simp only [store_step]; omega)

/-- Storing a run of characters leaves the other slots as they were. -/
theorem store_steps_buffers_other (cs : List Char) :
    ∀ (st : ParseState) (m : Nat), m ≠ st.found_args →
      (store_steps st cs).buffers m = st.buffers m := by
  induction cs with
  | nil => intro st m _; rfl
  | cons c cs ih =>
    intro st m hm
    rw [store_steps, ih (store_step st c) m hm]
    simp [store_step, store, hm]

/-- Every character of an argument is a character of the joined arguments. -/
theorem mem_join_args : ∀ (args : List (List Char)) (a : List Char) (c : Char),
    a ∈ args → c ∈ a → c ∈ join_args args
  | [], _, _, h, _ => by simp at h
  | [x], a, c, h, hc => by
    simp only [List.mem_singleton] at h
    subst h
    exact hc
  | x :: y :: rest, a, c, h, hc => by
    rw [join_args]
    rcases List.mem_cons.mp h with h | h
    · subst h
      exact List.mem_append_left _ hc
    · exact List.mem_append_right _
        (List.mem_cons_of_mem _ (mem_join_args (y :: rest) a c h hc))

/-- The walk over a list of arguments joined by single blanks, from a state
at the start of a slot: every argument goes to its own slot, the slots before
stay as they are, and every argument is counted. Every argument but the last
leaves room for one more character in its slot. -/
theorem walk_args (argc : Nat) (buflens : Nat → Nat) (hargc : 1 < argc) :
    ∀ (args : List (List Char)) (st : ParseState), args ≠ [] →
      (∀ a ∈ args, a ≠ [] ∧ ∀ c ∈ a, c ≠ NUL ∧ c ≠ ' ') →
      st.buffer_index = 0 → st.found_args + args.length ≤ argc →
      (∀ j a, args[j]? = some a →
        buflens (st.found_args + j) < SIZE_MOD ∧
        (st.buffers (st.found_args + j)).length = buflens (st.found_args + j) ∧
        a.length + 1 ≤ buflens (st.found_args + j) ∧
        (j + 1 < args.length → a.length + 2 ≤ buflens (st.found_args + j))) →
      (parse_walk argc buflens (join_args args) st).found_args =
        st.found_args + args.length ∧
      (parse_walk argc buflens (join_args args) st).min_one = 1 ∧
      (∀ j a, args[j]? = some a →
        (parse_walk argc buflens (join_args args) st).buffers (st.found_args + j) =
          a ++ (st.buffers (st.found_args + j)).drop a.length) ∧
      (∀ m, m < st.found_args →
        (parse_walk argc buflens (join_args args) st).buffers m = st.buffers m) := by
  intro args
  induction args with
  | nil => intro st h; exact absurd rfl h
  | cons a rest ih =>
    intro st _ hargs hbi hcount hcap
    obtain ⟨hane, hachars⟩ := hargs a (List.mem_cons_self _ _)
    obtain ⟨hlt, hlen, hfit1, hfit2⟩ := hcap 0 a (by simp)
    simp only [Nat.add_zero] at hlt hlen hfit1 hfit2
    have hbmo : buflen_minus_one buflens st.found_args = buflens st.found_args - 1 :=
      buflen_minus_one_eq buflens _ (by omega) hlt
    have hfa : st.found_args ≠ argc := by
      simp only [List.length_cons] at hcount
      omega
    have hslot : (store_steps st a).buffers st.found_args =
        a ++ (st.buffers st.found_args).drop a.length := by
      have := store_steps_buffers st a (by omega)
      rw [this, hbi]
      simp
    cases rest with
    | nil =>
      have hw : parse_walk argc buflens (join_args [a]) st =
          parse_walk argc buflens [] (store_steps st a) := by
        have := walk_store_steps argc buflens a [] st (fun c hc => (hachars c hc).1)
          (fun c hc => (hachars c hc).2) hfa (by omega)
        rw [List.append_nil] at this
        rw [join_args, this]
      have hm := store_steps_min_one st a hane
      rw [hw, parse_walk]
      simp only [hm, ne_eq, one_ne_zero, not_false_eq_true, if_true, store_steps_found_args,
        List.length_singleton]
      refine ⟨trivial, trivial, ?_, ?_⟩
      · intro j x hj
        cases j with
        | zero =>
          simp only [List.getElem?_cons_zero, Option.some.injEq] at hj
          subst hj
          exact hslot
        | succ j => simp at hj
      · intro m hm'
        exact store_steps_buffers_other a st m (by omega)
    | cons b rest =>
      have hsep : (store_steps st a).buffer_index ≠
          buflen_minus_one buflens (store_steps st a).found_args := by
        rw [store_steps_buffer_index, store_steps_found_args, hbmo, hbi]
        have := hfit2 (by simp)
        omega
      have hw : parse_walk argc buflens (join_args (a :: b :: rest)) st =
          parse_walk argc buflens (join_args (b :: rest)) (sep_step (store_steps st a)) := by
        rw [join_args, walk_store_steps argc buflens a _ st (fun c hc => (hachars c hc).1)
          (fun c hc => (hachars c hc).2) hfa (by omega), walk_sep argc buflens _ _ hargc hsep]
      have hfa' : (sep_step (store_steps st a)).found_args = st.found_args + 1 := by
        simp [sep_step, store_steps_found_args]
      have hbuf' : ∀ m, m ≠ st.found_args →
          (sep_step (store_steps st a)).buffers m = st.buffers m :=
        fun m hm => store_steps_buffers_other a st m hm
      obtain ⟨r1, r2, r3, r4⟩ := ih (sep_step (store_steps st a)) (by simp)
        (fun x hx => hargs x (List.mem_cons_of_mem _ hx)) rfl
        (by rw [hfa']; simp only [List.length_cons] at hcount ⊢; omega)
        (by
          intro j x hj
          have e : st.found_args + 1 + j = st.found_args + (j + 1) := by omega
          have := hcap (j + 1) x (by simpa using hj)
          rw [hfa', e, hbuf' _ (by omega)]
          refine ⟨this.1, this.2.1, this.2.2.1, fun h => this.2.2.2 ?_⟩
          simp only [List.length_cons] at h ⊢
          omega)
      rw [hw]
      refine ⟨?_, r2, ?_, ?_⟩
      · rw [r1, hfa']
        simp only [List.length_cons]
        omega
      · intro j x hj
        cases j with
        | zero =>
          simp only [List.getElem?_cons_zero, Option.some.injEq] at hj
          subst hj
          rw [Nat.add_zero, r4 st.found_args (by rw [hfa']; omega)]
          exact hslot
        | succ j =>
          have e : st.found_args + (j + 1) = st.found_args + 1 + j := by omega
          have := r3 j x (by simpa using hj)
          rw [hfa', hbuf' _ (by omega)] at this
          rw [e]
          exact this
      · intro m hm
        rw [r4 m (by rw [hfa']; omega)]
        exact hbuf' m (by omega)

/-! ## Theorems: the binder call of `cli_save_attachment_to_disk` -/

/-- C21: the binder call of `cli_save_attachment_to_disk` (two expected
arguments, one slot `id` and one capacity `BUFLEN_ID`) goes past what it was
given on the line `satt 1 2`: whatever lies behind the one-element array
`lens` (the values `junk`), the loop loads `lens[1]` after the separator; and
when the word behind `lens` is 0, it stores the character `2` through the
pointer behind `args`, at `args[1][0]`. -/
theorem satt_indexes_past_supplied (junk : Nat → Nat) (buffers : Nat → List Char) :
    1 ∈ (cli_parse_cmd (some (mk_cmd "satt" none .cli_save_attachment_to_disk .ATTACHMENTS))
      (some "satt 1 2".toList) 2 (some buffers)
      (fun k => if k = 0 then BUFLEN_ID else junk k)).lens_read ∧
    (1, 0) ∈ (cli_parse_cmd
      (some (mk_cmd "satt" none .cli_save_attachment_to_disk .ATTACHMENTS))
      (some "satt 1 2".toList) 2 (some fun _ => zeroed BUFLEN_ID)
      (fun k => if k = 0 then BUFLEN_ID else 0)).stores := by
  have hd : "satt 1 2".toList.drop
      (cmdlen (mk_cmd "satt" none .cli_save_attachment_to_disk .ATTACHMENTS)
        "satt 1 2".toList) = ['1', ' ', '2'] := by decide
  have hb0 : buflen_minus_one (fun k => if k = 0 then BUFLEN_ID else junk k) 0 = 16 := by
    simp [buflen_minus_one, SIZE_MOD, BUFLEN_ID]
  have hz0 : buflen_minus_one (fun k => if k = 0 then BUFLEN_ID else 0) 0 = 16 := by
    simp [buflen_minus_one, SIZE_MOD, BUFLEN_ID]
  have hz1 : buflen_minus_one (fun k => if k = 0 then BUFLEN_ID else 0) 1 =
      SIZE_MOD - 1 := by
    simp [buflen_minus_one, SIZE_MOD]
  have el : ∀ st : ParseState, (parse_result st).lens_read = st.lens_read := fun _ => rfl
  have es : ∀ st : ParseState, (parse_result st).stores = st.stores := fun _ => rfl
  constructor
  · rw [cli_parse_cmd_eq_walk _ _ 2 _ _ (by decide) (by decide), hd,
      walk_store 2 _ '1' _ _ (by decide) (by simp [parse_start, hb0]) (by decide)
        (by simp [parse_start]),
      walk_sep 2 _ _ _ (by decide) (by simp [parse_start, store_step, hb0]), el]
    have h := walk_reads 2 (fun k => if k = 0 then BUFLEN_ID else junk k) '2' []
      (sep_step (store_step (parse_start buffers) '1')) (by decide)
    have e : (sep_step (store_step (parse_start buffers) '1')).found_args = 1 := rfl
    rw [e] at h
    exact h
  · rw [cli_parse_cmd_eq_walk _ _ 2 _ _ (by decide) (by decide), hd,
      walk_store 2 _ '1' _ _ (by decide) (by simp [parse_start, hz0]) (by decide)
        (by simp [parse_start]),
      walk_sep 2 _ _ _ (by decide) (by simp [parse_start, store_step, hz0]),
      walk_store 2 _ '2' _ _ (by decide)
        (by simp [parse_start, store_step, sep_step, hz1, SIZE_MOD]) (by decide)
        (by simp [parse_start, store_step, sep_step]), es, parse_walk]
    split_ifs <;> exact List.mem_cons_self _ _

/-! ## Theorems: several arguments -/

/-- C26 (amended): with `n > 1` expected arguments and `n` slots, for every
line that fits the line buffer and whose argument region consists of `k`
arguments, `1 ≤ k ≤ n`, each non-empty and free of blanks, separated by
single blanks and with no trailing blank, where every argument but the last
is at most capacity - 2 characters long and the last at most capacity - 1,
`cli_parse_cmd` returns `k` and stores argument `j` at the start of slot `j`
for every `j < k`, so that a zero-initialised slot reads as the argument. -/
theorem cli_parse_cmd_multiple_arguments (cmd : command_t) (line : List Char) (n : Nat)
    (args : List (List Char)) (buffers : Nat → List Char) (buflens : Nat → Nat)
    (hn : 1 < n) (hline : IsLine line) (hreg : arg_region cmd line = join_args args)
    (hne : args ≠ []) (hk : args.length ≤ n)
    (hargs : ∀ a ∈ args, a ≠ [] ∧ ∀ c ∈ a, c ≠ ' ')
    (hcap : ∀ j a, args[j]? = some a →
      buflens j < SIZE_MOD ∧ (buffers j).length = buflens j ∧
      a.length + 1 ≤ buflens j ∧ (j + 1 < args.length → a.length + 2 ≤ buflens j)) :
    (cli_parse_cmd (some cmd) (some line) n (some buffers) buflens).ret = args.length ∧
    ∀ j a, args[j]? = some a →
      (cli_parse_cmd (some cmd) (some line) n (some buffers) buflens).buffers j =
        a ++ (buffers j).drop a.length ∧
      (buffers j = zeroed (buflens j) →
        cstr ((cli_parse_cmd (some cmd) (some line) n (some buffers) buflens).buffers j) =
          a) := by
  have hdrop : line.drop (cmdlen cmd line) = join_args args := by
    rw [cmdlen_eq cmd line hline.2]
    exact hreg
  have hnul : ∀ a ∈ args, ∀ c ∈ a, c ≠ NUL := by
    intro a ha c hc
    have h1 := mem_join_args args a c ha hc
    rw [← hreg] at h1
    exact hline.1 c (List.mem_of_mem_drop h1)
  have hw := walk_args n buflens hn args (parse_start buffers) hne
    (fun a ha => ⟨(hargs a ha).1, fun c hc => ⟨hnul a ha c hc, (hargs a ha).2 c hc⟩⟩) rfl
    (by simp only [parse_start]; omega)
    (by
      intro j a hj
      have e : (parse_start buffers).found_args + j = j := by
        simp only [parse_start, Nat.zero_add]
      rw [e]
      exact hcap j a hj)
  obtain ⟨w1, w2, w3, _⟩ := hw
  rw [cli_parse_cmd_eq_walk cmd line n buffers buflens (by omega) hline.2, hdrop]
  have er : ∀ st : ParseState, (parse_result st).ret =
      if st.min_one = 0 then -1 else (st.found_args : Int) := fun _ => rfl
  have eb : ∀ st : ParseState, (parse_result st).buffers = st.buffers := fun _ => rfl
  rw [er, eb, w1, w2]
  refine ⟨by simp [parse_start], ?_⟩
  intro j a hj
  have e : (parse_start buffers).found_args + j = j := by
    simp only [parse_start, Nat.zero_add]
  have hb := w3 j a hj
  rw [e] at hb
  have e0 : (parse_start buffers).buffers = buffers := rfl
  rw [e0] at hb
  refine ⟨hb, fun hz => ?_⟩
  rw [hb, hz]
  exact cstr_append_zeroed _ _ _ (hnul a (List.getElem?_mem hj))

/-- C26 as stated fails when an argument that is followed by a separator
fills its slot: with two slots of capacity 3 and the region `ab cd`, both
arguments have length capacity - 1 = 2, yet the loop stops at the full slot
before it looks at the separator, returns 0 and leaves slot 1 untouched. And
with no argument at all (k = 0) the call returns -1, not 0. -/
theorem cli_parse_cmd_full_slot_before_separator :
    IsLine "satt ab cd".toList ∧
    arg_region (mk_cmd "satt" none .cli_save_attachment_to_disk .ATTACHMENTS)
      "satt ab cd".toList = join_args ["ab".toList, "cd".toList] ∧
    (∀ a ∈ ["ab".toList, "cd".toList], a ≠ [] ∧ a.length ≤ 3 - 1 ∧ ∀ c ∈ a, c ≠ ' ') ∧
    (cli_parse_cmd (some (mk_cmd "satt" none .cli_save_attachment_to_disk .ATTACHMENTS))
      (some "satt ab cd".toList) 2 (some fun _ => zeroed 3) (fun _ => 3)).ret = 0 ∧
    (cli_parse_cmd (some (mk_cmd "satt" none .cli_save_attachment_to_disk .ATTACHMENTS))
      (some "satt ab cd".toList) 2 (some fun _ => zeroed 3) (fun _ => 3)).buffers 1 =
        zeroed 3 ∧
    arg_region (mk_cmd "satt" none .cli_save_attachment_to_disk .ATTACHMENTS)
      "satt".toList = join_args [] ∧
    (cli_parse_cmd (some (mk_cmd "satt" none .cli_save_attachment_to_disk .ATTACHMENTS))
      (some "satt".toList) 2 (some fun _ => zeroed 3) (fun _ => 3)).ret = -1 :=
  ⟨⟨by decide, by decide⟩, by decide, by decide, by decide, by decide, by decide, by decide⟩

/-- C26 at the line `satt 12 ab` with two slots of capacity `BUFLEN_ID`. -/
theorem cli_parse_cmd_multiple_arguments_witness :
    IsLine "satt 12 ab".toList ∧
    arg_region (mk_cmd "satt" none .cli_save_attachment_to_disk .ATTACHMENTS)
      "satt 12 ab".toList = join_args ["12".toList, "ab".toList] ∧
    (cli_parse_cmd (some (mk_cmd "satt" none .cli_save_attachment_to_disk .ATTACHMENTS))
      (some "satt 12 ab".toList) 2 (some fun _ => zeroed BUFLEN_ID)
      (fun _ => BUFLEN_ID)).ret = (["12".toList, "ab".toList] : List (List Char)).length :=
  ⟨⟨by decide, by decide⟩, by decide,
    (cli_parse_cmd_multiple_arguments
      (mk_cmd "satt" none .cli_save_attachment_to_disk .ATTACHMENTS) "satt 12 ab".toList 2
      ["12".toList, "ab".toList] (fun _ => zeroed BUFLEN_ID) (fun _ => BUFLEN_ID)
      (by decide) ⟨by decide, by decide⟩ (by decide) (by decide) (by decide) (by decide)
      (fun j a hj => by
        rcases j with _ | _ | j
        · simp only [List.getElem?_cons_zero, Option.some.injEq] at hj
          subst hj
          exact ⟨by decide, by decide, by decide, fun _ => by decide⟩
        · simp only [List.getElem?_cons_succ, List.getElem?_cons_zero,
            Option.some.injEq] at hj
          subst hj
          exact ⟨by decide, by decide, by decide, fun _ => by decide⟩
        · simp at hj)).1⟩

/-! ## Theorems: the end of the process -/

/-- The handler `cli_exit` belongs to the entries `exit` and `quit` only, which
have no short alias. -/
theorem registry_exit : ∀ c ∈ COMMANDS, c.func = some .cli_exit →
    (c.command = "exit".toList ∨ c.command = "quit".toList) ∧ c.short_command = none := by
  decide

/-- A line that `cli_history_exec` replays is the content of a history slot. -/
theorem replayed_line_stored (issued : command_t) (line : List Char) (h : History)
    (x : List Char) (hx : replayed_line issued line h = some x) :
    ∃ k, h.HISTORY k = some x := by
  simp only [replayed_line, history_get] at hx
  split_ifs at hx
  exact ⟨_, hx⟩

/-- Every handler but `cli_exit` and `cli_history_exec` returns. -/
theorem call_handler_returns (exec : List Char → Session → Option Outcome) (f : Handler)
    (issued : command_t) (line : List Char) (s : Session) (hne1 : f ≠ .cli_exit)
    (hne2 : f ≠ .cli_history_exec) :
    ∃ s', call_handler exec f issued line s = some (.returned s') := by
  cases f <;> first
    | exact absurd rfl hne1
    | exact absurd rfl hne2
    | exact ⟨_, rfl⟩

/-- A dispatch that comes to an end either returns or ends the process in
`cli_exit`, called for a line whose token is `exit` or `quit`: the dispatched
line itself or, when the token of the dispatched line is `!`, a stored line
reached by replay. The history is then as it was before the dispatch. -/
theorem exit_only_by_exit_line (E : CLI_ERROR) (hE : E.NO_ERROR ≠ 0) :
    ∀ (depth : Nat) (line : List Char) (s : Session) (o : Outcome),
      clear_flags s.COMMANDS = COMMANDS → cli_execute_cmdstr E depth line s = some o →
      (∃ s', o = .returned s') ∨
      (∃ s' x, o = .exited s' ∧ s'.history = s.history ∧
        (x = line ∨ ∃ k, s.history.HISTORY k = some x) ∧
        (scan_buf line 0 ≠ "!".toList → x = line) ∧
        (scan_buf x 0 = "exit".toList ∨ scan_buf x 0 = "quit".toList)) := by
  intro depth
  induction depth with
  | zero =>
    intro line s o _ hrun
    rw [cli_execute_cmdstr] at hrun
    exact absurd hrun (by simp)
  | succ depth ih =>
    intro line s o hreg hrun
    cases hl : cli_is_valid_cmd_loop line COMMANDS 0 with
    | none =>
      have hl2 : cli_is_valid_cmd_loop line s.COMMANDS 0 = none := by
        rw [← loop_clear_flags, hreg, hl]
      rw [cli_execute_cmdstr] at hrun
      simp only [cli_is_valid_cmd, hl2, Resolution.issued] at hrun
      split_ifs at hrun with h1
      · exact Or.inl ⟨_, (Option.some.inj hrun).symm⟩
      · exact absurd (not_not.mp h1).symm hE
    | some p =>
      obtain ⟨i, flag⟩ := p
      obtain ⟨c, _, hc, hname⟩ := loop_some_spec line COMMANDS 0 i flag hl
      simp only [Nat.sub_zero] at hc
      obtain ⟨hsome, hbang⟩ := registry_handlers c (List.getElem?_mem hc)
      obtain ⟨f, hf⟩ := Option.isSome_iff_exists.mp hsome
      obtain ⟨herr, hcmds, hiss⟩ := resolve_in_registry E line s.COMMANDS i flag c hreg hl hc
      rw [dispatch_resolved E depth line s { c with short_cmd_active := flag } f herr hiss hf]
        at hrun
      have hreg0 : clear_flags
          (handler_entry E f { c with short_cmd_active := flag } line s).COMMANDS =
            COMMANDS := by
        show clear_flags (cli_is_valid_cmd E (some line) s.COMMANDS).COMMANDS = COMMANDS
        rw [hcmds, clear_flags_set, hreg]
      by_cases hfe : f = .cli_history_exec
      · subst hfe
        have htok : scan_buf line 0 = "!".toList := by
          obtain ⟨hcmd, hshort⟩ := hbang hf
          rcases hname with ⟨_, hn⟩ | ⟨_, hn⟩
          · rw [← hn, hcmd]
          · rw [hshort] at hn
            exact absurd hn (by simp)
        cases hr : replayed_line { c with short_cmd_active := flag } line
            (handler_entry E .cli_history_exec { c with short_cmd_active := flag }
              line s).history with
        | none =>
          obtain ⟨s', hcall, _, _⟩ := (call_handler_history_exec (cli_execute_cmdstr E depth)
            { c with short_cmd_active := flag } line
            (handler_entry E .cli_history_exec { c with short_cmd_active := flag }
              line s)).2 hr
          rw [hcall] at hrun
          exact Or.inl ⟨_, (Option.some.inj hrun).symm⟩
        | some x =>
          have hcall := (call_handler_history_exec (cli_execute_cmdstr E depth)
            { c with short_cmd_active := flag } line
            (handler_entry E .cli_history_exec { c with short_cmd_active := flag }
              line s)).1 x hr
          rw [hcall] at hrun
          cases hx : cli_execute_cmdstr E depth x
              (handler_entry E .cli_history_exec { c with short_cmd_active := flag }
                line s) with
          | none =>
            rw [hx] at hrun
            exact absurd hrun (by simp)
          | some o' =>
            rw [hx] at hrun
            rcases ih x _ o' hreg0 hx with ⟨s', rfl⟩ | ⟨s', y, rfl, hhist, hy, _, hytok⟩
            · exact Or.inl ⟨_, (Option.some.inj hrun).symm⟩
            · refine Or.inr ⟨s', y, (Option.some.inj hrun).symm, hhist, ?_,
                fun hne => absurd htok hne, hytok⟩
              rcases hy with rfl | ⟨k, hk⟩
              · exact Or.inr (replayed_line_stored _ _ _ _ hr)
              · exact Or.inr ⟨k, hk⟩
      · by_cases hfx : f = .cli_exit
        · subst hfx
          have hcall : call_handler (cli_execute_cmdstr E depth) .cli_exit
              { c with short_cmd_active := flag } line
              (handler_entry E .cli_exit { c with short_cmd_active := flag } line s) =
              some (.exited
                (handler_entry E .cli_exit { c with short_cmd_active := flag } line s)) :=
            rfl
          rw [hcall] at hrun
          obtain ⟨hcmd, hshort⟩ := registry_exit c (List.getElem?_mem hc) hf
          have htok : scan_buf line 0 = "exit".toList ∨ scan_buf line 0 = "quit".toList := by
            rcases hname with ⟨_, hn⟩ | ⟨_, hn⟩
            · rw [← hn]
              exact hcmd
            · rw [hshort] at hn
              exact absurd hn (by simp)
          exact Or.inr ⟨_, line, (Option.some.inj hrun).symm, rfl, Or.inl rfl, fun _ => rfl,
            htok⟩
        · obtain ⟨s', hcall⟩ := call_handler_returns (cli_execute_cmdstr E depth) f
            { c with short_cmd_active := flag } line
            (handler_entry E f { c with short_cmd_active := flag } line s) hfx hfe
          rw [hcall] at hrun
          exact Or.inl ⟨_, (Option.some.inj hrun).symm⟩

/-- A line whose token is `exit` or `quit` ends the process inside the
handler, with the history as it was. -/
theorem exit_line_exits (E : CLI_ERROR) (depth : Nat) (line : List Char) (s : Session)
    (hreg : clear_flags s.COMMANDS = COMMANDS)
    (htok : scan_buf line 0 = "exit".toList ∨ scan_buf line 0 = "quit".toList) :
    ∃ s', cli_execute_cmdstr E (depth + 1) line s = some (.exited s') ∧
      s'.history = s.history := by
  have hex : ∃ i c, cli_is_valid_cmd_loop line COMMANDS 0 = some (i, false) ∧
      COMMANDS[i]? = some c ∧ c.func = some .cli_exit := by
    rcases htok with h | h
    · refine ⟨10, mk_cmd "exit" none .cli_exit .MISC, ?_, by decide, rfl⟩
      rw [loop_token_congr line "exit".toList COMMANDS 0 (by rw [h]; decide)]
      decide
    · refine ⟨11, mk_cmd "quit" none .cli_exit .MISC, ?_, by decide, rfl⟩
      rw [loop_token_congr line "quit".toList COMMANDS 0 (by rw [h]; decide)]
      decide
  obtain ⟨i, c, hloop, hc, hf⟩ := hex
  obtain ⟨herr, hcmds, hiss⟩ := resolve_in_registry E line s.COMMANDS i false c hreg hloop hc
  rw [dispatch_resolved E depth line s { c with short_cmd_active := false } .cli_exit herr
    hiss hf]
  exact ⟨handler_entry E .cli_exit { c with short_cmd_active := false } line s, rfl, rfl⟩

/-- C27: in a session that keeps the registry (and with `NO_ERROR` not the
zero enumerator), a dispatch step that comes to an end either returns to its
caller or ends the process inside `cli_exit`, and it ends the process only
for a line `x` whose token is `exit` or `quit`: the dispatched line itself
or, when the dispatched line is a `!` line, a stored history line reached by
replay. When the process ends, the history is as it was before the step: no
entry was appended. Conversely a line whose token is `exit` or `quit` ends
the process, again with the history unchanged. -/
theorem process_ends_only_on_exit (E : CLI_ERROR) (line : List Char) (s : Session)
    (hE : E.NO_ERROR ≠ 0) (hreg : clear_flags s.COMMANDS = COMMANDS) :
    (∀ depth o, cli_execute_cmdstr E depth line s = some o →
      (∃ s', o = .returned s') ∨
      (∃ s' x, o = .exited s' ∧ s'.history = s.history ∧
        (x = line ∨ ∃ k, s.history.HISTORY k = some x) ∧
        (scan_buf line 0 ≠ "!".toList → x = line) ∧
        (scan_buf x 0 = "exit".toList ∨ scan_buf x 0 = "quit".toList))) ∧
    (scan_buf line 0 = "exit".toList ∨ scan_buf line 0 = "quit".toList →
      ∀ depth, ∃ s', cli_execute_cmdstr E (depth + 1) line s = some (.exited s') ∧
        s'.history = s.history) :=
  ⟨fun depth o hrun => exit_only_by_exit_line E hE depth line s o hreg hrun,
   fun htok depth => exit_line_exits E depth line s hreg htok⟩

/-- C27 at the line `quit now` in the start session. -/
theorem process_ends_only_on_exit_witness :
    ∃ s', cli_execute_cmdstr ⟨1, 0⟩ 1 "quit now".toList Session.start = some (.exited s') ∧
      s'.history = Session.start.history :=
  (process_ends_only_on_exit ⟨1, 0⟩ "quit now".toList Session.start (by decide)
    (by decide)).2 (Or.inr (by decide)) 0

end Toodles
